import Mathlib

/-!
# A verification development for `src/vector.h`

`vector<T>` is a hand-written dynamic array: a raw storage block `data_`, the
number of live elements `size_` and the number of allocated slots `capacity_`.

The embedding keeps the storage explicit.  A memory `Mem T` holds

* a heap of storage blocks (a block is a list of slots, a slot is either raw
  storage `none` or a live object `some x`), addressed by a block number
  (`0` is the null pointer's block and is never allocated);
* a failure script `faults` for the two fallible primitives of the source,
  `operator new` and the copy constructor `T(T const&)`: each of them consumes
  one entry, `true` makes it throw, an exhausted script means success;
* a trace of the storage events (allocation, release, construction,
  destruction).

Member functions take the object (`vector`), their arguments and the memory,
and return a `Status`, the object afterwards and the memory afterwards.
`Status.thrown` is a C++ exception leaving the function, `Status.abort` is a
failed `assert` or an access outside live storage (undefined behaviour in the
source), `Status.fuel` is an exhausted recursion budget.

`size_t` is 64 bits wide: where the source's arithmetic can wrap
(`capacity_ * 2`, conversions of pointer differences to `size_t`) the model
reduces modulo `SIZE_MOD`.

Blocks are counted in slots.  `new_buffer` asks `operator new` for
`new_capacity * sizeof(T)` bytes, a product in `size_t`.  The embedding has two
readings of that line.  `vector.new_buffer` is the reading in which the product
does not wrap: the block has `new_capacity` slots.  It serves wherever the
request is for elements that exist or for twice the storage that exists
(growth, copy, shrink).  `vector.new_buffer_sized` takes `sizeof(T)` as a
parameter, computes the byte count modulo `SIZE_MOD` and gets the slots that fit
in it; `vector.reserve_sized` is `reserve` over it, for a capacity chosen by the
caller.  The two agree when the product does not wrap
(`new_buffer_sized_eq`).
-/

namespace MyVector

/-- Modulus of `size_t` arithmetic. -/
def SIZE_MOD : Nat := 2 ^ 64

/-- A `T*`: a storage block and a slot offset inside it.  Offsets are integers
so that stepping before the start of a block is visible. -/
structure Ptr where
  block : Nat
  off : Int
deriving DecidableEq, Repr

/-- The null pointer. -/
def nullptr : Ptr := ⟨0, 0⟩

/-- Pointer arithmetic `p + k`. -/
def Ptr.add (p : Ptr) (k : Int) : Ptr := ⟨p.block, p.off + k⟩

/-- Storage events recorded in the trace. -/
inductive Event where
  | alloc (block : Nat) (slots : Nat)
  | free (block : Nat)
  | construct (p : Ptr)
  | destroy (p : Ptr)
deriving DecidableEq, Repr

/-- How a call ends. -/
inductive Status where
  | ok
  | thrown
  | abort
  | fuel
deriving DecidableEq, Repr

/-- The memory: heap blocks, failure script, event trace. -/
structure Mem (T : Type) where
  heap : List (Option (List (Option T)))
  faults : List Bool
  trace : List Event
deriving DecidableEq, Repr

variable {T : Type}

/-- The live block with number `a`, if any. -/
def Mem.block (m : Mem T) (a : Nat) : Option (List (Option T)) :=
  match a with
  | 0 => none
  | k + 1 => (m.heap[k]?).join

/-- The slot `p` points to: `none` when `p` does not point into live storage,
`some none` for raw storage, `some (some x)` for a live object `x`. -/
def Mem.slot (m : Mem T) (p : Ptr) : Option (Option T) :=
  match m.block p.block with
  | none => none
  | some b => if 0 ≤ p.off then b[p.off.toNat]? else none

/-- Overwrite the slot `p` points to. -/
def Mem.store (m : Mem T) (p : Ptr) (s : Option T) : Mem T :=
  match m.block p.block with
  | none => m
  | some b => { m with heap := m.heap.set (p.block - 1) (some (b.set p.off.toNat s)) }

/-- Consume one entry of the failure script. -/
def Mem.fault (m : Mem T) : Bool × Mem T :=
  match m.faults with
  | [] => (false, m)
  | b :: rest => (b, { m with faults := rest })

/-- The script injects no failure. -/
def NoFault (m : Mem T) : Prop := ∀ b ∈ m.faults, b = false

/-- Models `operator new` for a block of `n` slots: throws when the script says so,
otherwise returns a fresh block of raw storage. -/
def operator_new (n : Nat) (m : Mem T) : Status × Ptr × Mem T :=
  match m.fault with
  | (true, m1) => (.thrown, nullptr, m1)
  | (false, m1) =>
    (.ok, ⟨m1.heap.length + 1, 0⟩,
      { m1 with heap := m1.heap ++ [some (List.replicate n none)],
                trace := m1.trace ++ [.alloc (m1.heap.length + 1) n] })

/-- Models the argument of `operator new` in `new_buffer`, `new_capacity * sizeof(T)`: a
product of two `size_t`, so it is taken modulo `SIZE_MOD`. -/
def new_buffer_bytes (sizeof_T new_capacity : Nat) : Nat :=
  (new_capacity * sizeof_T) % SIZE_MOD

/-- Models `operator new(bytes)` as storage for objects of `sizeof_T` bytes each: throws
when the script says so, otherwise returns a fresh block with as many raw slots as fit
in `bytes`. -/
def operator_new_bytes (sizeof_T bytes : Nat) (m : Mem T) : Status × Ptr × Mem T :=
  operator_new (bytes / sizeof_T) m

/-- Models `operator delete(p)`: nothing for the null pointer, otherwise `p` must be
the start of a live block, which is released. -/
def operator_delete (p : Ptr) (m : Mem T) : Status × Mem T :=
  if p = nullptr then (.ok, m)
  else
    match m.block p.block with
    | none => (.abort, m)
    | some _ =>
      if p.off = 0 then
        (.ok, { m with heap := m.heap.set (p.block - 1) none,
                       trace := m.trace ++ [.free p.block] })
      else (.abort, m)

/-- Placement copy-construction `new(p) T(x)`: `p` must point into live
storage; the copy constructor may throw. -/
def construct (p : Ptr) (x : T) (m : Mem T) : Status × Mem T :=
  match m.slot p with
  | none => (.abort, m)
  | some _ =>
    match m.fault with
    | (true, m1) => (.thrown, m1)
    | (false, m1) =>
      (.ok, { m1.store p (some x) with trace := m1.trace ++ [.construct p] })

/-- Destructor call `p->~T()`: `p` must point to a live object. -/
def destroy (p : Ptr) (m : Mem T) : Status × Mem T :=
  match m.slot p with
  | some (some _) => (.ok, { m.store p none with trace := m.trace ++ [.destroy p] })
  | _ => (.abort, m)

/-- Element exchange `std::swap(*p, *q)`: both must point to live objects; it
does not throw. -/
def std_swap (p q : Ptr) (m : Mem T) : Status × Mem T :=
  match m.slot p, m.slot q with
  | some (some x), some (some y) => (.ok, (m.store p (some y)).store q (some x))
  | _, _ => (.abort, m)

/-- The three data members of `vector<T>`. -/
structure vector where
  data_ : Ptr
  size_ : Nat
  capacity_ : Nat
deriving DecidableEq, Repr

namespace vector

/-- Models `vector()`. -/
def default : vector := ⟨nullptr, 0, 0⟩

/-- Models `size()`. -/
def size (v : vector) : Nat := v.size_

/-- Models `capacity()`. -/
def capacity (v : vector) : Nat := v.capacity_

/-- Models `empty()`. -/
def empty (v : vector) : Bool := v.size_ == 0

/-- Models `begin()`. -/
def begin (v : vector) : Ptr := v.data_

/-- Models `end()`: `begin() + size()`. -/
def end_ (v : vector) : Ptr := v.begin.add v.size

/-- Models `data()`. -/
def data (v : vector) : Ptr := v.begin

/-- Models `swap(rhs)`: exchanges the three members. -/
def swap (v rhs : vector) : vector × vector :=
  ({ data_ := rhs.data_, size_ := rhs.size_, capacity_ := rhs.capacity_ },
   { data_ := v.data_, size_ := v.size_, capacity_ := v.capacity_ })

/-- Models `destroy_all(data_, size)`: destroys `data_[size-1]`, ..., `data_[0]`. -/
def destroy_all (data_ : Ptr) : Nat → Mem T → Status × Mem T
  | 0, m => (.ok, m)
  | i + 1, m =>
    match destroy (data_.add i) m with
    | (.ok, m1) => destroy_all data_ i m1
    | (s, m1) => (s, m1)

/-- The `try` block of `copy_all`: the loop `for (; i != size; ++i)`, with the
number of iterations left as first argument.  Returns the value of `i` at the
point where the loop was left. -/
def copy_loop (dst src : Ptr) : Nat → Nat → Mem T → Status × Nat × Mem T
  | 0, i, m => (.ok, i, m)
  | n + 1, i, m =>
    match m.slot (src.add i) with
    | some (some x) =>
      match construct (dst.add i) x m with
      | (.ok, m1) => copy_loop dst src n (i + 1) m1
      | (s, m1) => (s, i, m1)
    | _ => (.abort, i, m)

/-- Models `copy_all(dst, src, size)`: on an exception the elements constructed so
far are destroyed and the exception is thrown again. -/
def copy_all (dst src : Ptr) (size : Nat) (m : Mem T) : Status × Mem T :=
  match copy_loop dst src size 0 m with
  | (.thrown, i, m1) =>
    match destroy_all dst i m1 with
    | (.ok, m2) => (.thrown, m2)
    | (s, m2) => (s, m2)
  | (s, _, m1) => (s, m1)

/-- Models `~vector()`. -/
def destructor (v : vector) (m : Mem T) : Status × Mem T :=
  match destroy_all v.data_ v.size_ m with
  | (.ok, m1) => operator_delete v.data_ m1
  | (s, m1) => (s, m1)

/-- Models `new_buffer(new_capacity)` for a request whose byte size
`new_capacity * sizeof(T)` does not wrap: the block obtained has `new_capacity` slots.
The local `tmp` is destroyed on every way out of the function. -/
def new_buffer (v : vector) (new_capacity : Nat) (m : Mem T) : Status × vector × Mem T :=
  if new_capacity < v.size_ then (.abort, v, m)
  else
    let tmp : vector := default
    if 0 < new_capacity then
      match operator_new new_capacity m with
      | (.ok, p, m1) =>
        let tmp1 : vector := { tmp with data_ := p, capacity_ := new_capacity }
        match copy_all tmp1.data_ v.data_ v.size_ m1 with
        | (.ok, m2) =>
          let tmp2 : vector := { tmp1 with size_ := v.size_ }
          let (v1, tmp3) := v.swap tmp2
          match destructor tmp3 m2 with
          | (.ok, m3) => (.ok, v1, m3)
          | (s, m3) => (s, v1, m3)
        | (.thrown, m2) =>
          match destructor tmp1 m2 with
          | (.ok, m3) => (.thrown, v, m3)
          | (s, m3) => (s, v, m3)
        | (s, m2) => (s, v, m2)
      | (s, _, m1) =>
        match destructor tmp m1 with
        | (.ok, m2) => (s, v, m2)
        | (s2, m2) => (s2, v, m2)
    else
      let (v1, tmp3) := v.swap tmp
      match destructor tmp3 m with
      | (.ok, m3) => (.ok, v1, m3)
      | (s, m3) => (s, v1, m3)

/-- Models `new_buffer(new_capacity)` with the byte size kept: `operator new` is asked for
`new_capacity * sizeof(T)` bytes in `size_t` arithmetic, and `tmp.capacity_` is set to
`new_capacity` whatever the block can hold.  The rest is `new_buffer`. -/
def new_buffer_sized (sizeof_T : Nat) (v : vector) (new_capacity : Nat) (m : Mem T) :
    Status × vector × Mem T :=
  if new_capacity < v.size_ then (.abort, v, m)
  else
    let tmp : vector := default
    if 0 < new_capacity then
      match operator_new_bytes sizeof_T (new_buffer_bytes sizeof_T new_capacity) m with
      | (.ok, p, m1) =>
        let tmp1 : vector := { tmp with data_ := p, capacity_ := new_capacity }
        match copy_all tmp1.data_ v.data_ v.size_ m1 with
        | (.ok, m2) =>
          let tmp2 : vector := { tmp1 with size_ := v.size_ }
          let (v1, tmp3) := v.swap tmp2
          match destructor tmp3 m2 with
          | (.ok, m3) => (.ok, v1, m3)
          | (s, m3) => (s, v1, m3)
        | (.thrown, m2) =>
          match destructor tmp1 m2 with
          | (.ok, m3) => (.thrown, v, m3)
          | (s, m3) => (s, v, m3)
        | (s, m2) => (s, v, m2)
      | (s, _, m1) =>
        match destructor tmp m1 with
        | (.ok, m2) => (s, v, m2)
        | (s2, m2) => (s2, v, m2)
    else
      let (v1, tmp3) := v.swap tmp
      match destructor tmp3 m with
      | (.ok, m3) => (.ok, v1, m3)
      | (s, m3) => (s, v1, m3)

/-- Models `increase_capacity()`. -/
def increase_capacity (v : vector) : Nat :=
  if 0 < v.capacity_ then (v.capacity_ * 2) % SIZE_MOD else 1

/-- Models `push_back(element)` together with `push_back_realloc(value)`, which calls
it back; the first argument bounds the depth of that mutual recursion.  The
argument is taken by value; `T saved_value = value` is a copy construction and
consumes a script entry. -/
def push_back_fuel : Nat → vector → T → Mem T → Status × vector × Mem T
  | 0, v, _, m => (.fuel, v, m)
  | fuel + 1, v, element, m =>
    if v.size_ < v.capacity_ then
      match construct (v.data_.add v.size_) element m with
      | (.ok, m1) => (.ok, { v with size_ := v.size_ + 1 }, m1)
      | (s, m1) => (s, v, m1)
    else
      -- push_back_realloc
      match m.fault with
      | (true, m1) => (.thrown, v, m1)
      | (false, m1) =>
        match new_buffer v (increase_capacity v) m1 with
        | (.ok, v1, m2) => push_back_fuel fuel v1 element m2
        | (s, v1, m2) => (s, v1, m2)

/-- Models `push_back(element)`.  Three levels are always enough: see
`push_back_fuel_enough`. -/
def push_back (v : vector) (element : T) (m : Mem T) : Status × vector × Mem T :=
  push_back_fuel 3 v element m

/-- Models `pop_back()`. -/
def pop_back (v : vector) (m : Mem T) : Status × vector × Mem T :=
  if v.empty then (.abort, v, m)
  else
    match destroy (v.data_.add ((v.size_ : Int) - 1)) m with
    | (.ok, m1) => (.ok, { v with size_ := v.size_ - 1 }, m1)
    | (s, m1) => (s, v, m1)

/-- Models `operator[](i)`: both assertions, then the element `data_[i]` refers to. -/
def index (v : vector) (i : Nat) (m : Mem T) : Status × Option T :=
  if v.empty then (.abort, none)
  else if i < v.size_ then
    match m.slot (v.data_.add i) with
    | some (some x) => (.ok, some x)
    | _ => (.abort, none)
  else (.abort, none)

/-- Models the statement `v[i] = x` of a caller: the assertions of `operator[]`, then the
copy assignment of `T` to the element referred to.  The assignment may throw; it is taken
to leave the element alone when it does. -/
def index_assign (v : vector) (i : Nat) (x : T) (m : Mem T) : Status × vector × Mem T :=
  match v.index i m with
  | (.ok, _) =>
    match m.fault with
    | (true, m1) => (.thrown, v, m1)
    | (false, m1) => (.ok, v, m1.store (v.data_.add i) (some x))
  | (s, _) => (s, v, m)

/-- Models `front()`. -/
def front (v : vector) (m : Mem T) : Status × Option T :=
  if v.empty then (.abort, none)
  else
    match m.slot (v.data_.add 0) with
    | some (some x) => (.ok, some x)
    | _ => (.abort, none)

/-- Models `back()`. -/
def back (v : vector) (m : Mem T) : Status × Option T :=
  if v.empty then (.abort, none)
  else
    match m.slot (v.data_.add ((v.size_ : Int) - 1)) with
    | some (some x) => (.ok, some x)
    | _ => (.abort, none)

/-- Models `reserve(new_capacity)`. -/
def reserve (v : vector) (new_capacity : Nat) (m : Mem T) : Status × vector × Mem T :=
  if v.capacity_ < new_capacity then new_buffer v new_capacity m
  else (.ok, v, m)

/-- Models `reserve(new_capacity)` with the byte size of the request kept, for elements of
`sizeof_T` bytes. -/
def reserve_sized (sizeof_T : Nat) (v : vector) (new_capacity : Nat) (m : Mem T) :
    Status × vector × Mem T :=
  if v.capacity_ < new_capacity then new_buffer_sized sizeof_T v new_capacity m
  else (.ok, v, m)

/-- Models `shrink_to_fit()`. -/
def shrink_to_fit (v : vector) (m : Mem T) : Status × vector × Mem T :=
  if v.size_ < v.capacity_ then new_buffer v v.size_ m
  else (.ok, v, m)

/-- Models `clear()`. -/
def clear (v : vector) (m : Mem T) : Status × vector × Mem T :=
  match destroy_all v.data_ v.size_ m with
  | (s, m1) => (s, { v with size_ := 0 }, m1)

/-- Models `vector(vector const& other)`.  It delegates to `vector()`, so the object
is complete when the body starts and an exception leaving the body runs
`~vector()` on it. -/
def copy_ctor (other : vector) (m : Mem T) : Status × vector × Mem T :=
  match new_buffer default other.size_ m with
  | (.ok, v1, m1) =>
    match copy_all v1.data_ other.data_ other.size_ m1 with
    | (.ok, m2) => (.ok, { v1 with size_ := other.size_, capacity_ := other.size_ }, m2)
    | (.thrown, m2) =>
      match destructor v1 m2 with
      | (.ok, m3) => (.thrown, v1, m3)
      | (s, m3) => (s, v1, m3)
    | (s, m2) => (s, v1, m2)
  | (.thrown, v1, m1) =>
    match destructor v1 m1 with
    | (.ok, m2) => (.thrown, v1, m2)
    | (s, m2) => (s, v1, m2)
  | (s, v1, m1) => (s, v1, m1)

/-- Models `operator=(rhs)`: `vector copy(rhs); swap(copy);`, then `copy` is
destroyed. -/
def operator_assign (v rhs : vector) (m : Mem T) : Status × vector × Mem T :=
  match copy_ctor rhs m with
  | (.ok, copy, m1) =>
    let (v1, copy1) := v.swap copy
    match destructor copy1 m1 with
    | (.ok, m2) => (.ok, v1, m2)
    | (s, m2) => (s, v1, m2)
  | (s, _, m1) => (s, v, m1)

end vector

/-- Pointer difference `p - q`, defined inside one block only. -/
def Ptr.diff (p q : Ptr) : Option Int :=
  if p.block = q.block then some (p.off - q.off) else none

/-- Conversion of a `ptrdiff_t` to `size_t`. -/
def to_size_t (d : Int) : Nat := (d % (SIZE_MOD : Int)).toNat

namespace vector

/-- The loop of `insert`, with the number of iterations left as first
argument: `std::swap(*(inserted_position - 1), *inserted_position)`, then
`inserted_position--`. -/
def insert_loop : Nat → Ptr → Mem T → Status × Ptr × Mem T
  | 0, inserted_position, m => (.ok, inserted_position, m)
  | n + 1, inserted_position, m =>
    match std_swap (inserted_position.add (-1)) inserted_position m with
    | (.ok, m1) => insert_loop n (inserted_position.add (-1)) m1
    | (s, m1) => (s, inserted_position, m1)

/-- Models `insert(pos, elem)`.  Returns the status, the returned iterator, the
object and the memory. -/
def insert (v : vector) (pos : Ptr) (elem : T) (m : Mem T) :
    Status × Ptr × vector × Mem T :=
  match v.end_.diff pos with
  | none => (.abort, nullptr, v, m)
  | some length_from_back =>
    match push_back v elem m with
    | (.ok, v1, m1) =>
      match insert_loop (to_size_t length_from_back) (v1.end_.add (-1)) m1 with
      | (s, inserted_position, m2) => (s, inserted_position, v1, m2)
    | (s, v1, m1) => (s, nullptr, v1, m1)

/-- The first loop of `erase(first, last)`.  Arguments after the object: an
iteration budget, `begin_of_interval`, `end_of_interval`, `is_result_init`,
`result`.  `end_of_interval` is `begin()` plus an offset, so its comparison with
`end()` is a comparison of offsets inside one block. -/
def erase_loop (v : vector) : Nat → Ptr → Ptr → Bool → Ptr → Mem T → Status × Ptr × Mem T
  | 0, _, _, _, result, m => (.fuel, result, m)
  | fuel + 1, begin_of_interval, end_of_interval, is_result_init, result, m =>
    if end_of_interval.off < v.end_.off then
      match std_swap begin_of_interval end_of_interval m with
      | (.ok, m1) =>
        erase_loop v fuel (begin_of_interval.add 1) (end_of_interval.add 1) true
          (if is_result_init then result else begin_of_interval) m1
      | (s, m1) => (s, result, m1)
    else (.ok, result, m)

/-- The second loop of `erase(first, last)`: `pop_back()` repeated, with the
number of iterations left as first argument. -/
def pop_loop : Nat → vector → Mem T → Status × vector × Mem T
  | 0, v, m => (.ok, v, m)
  | n + 1, v, m =>
    match pop_back v m with
    | (.ok, v1, m1) => pop_loop n v1 m1
    | (s, v1, m1) => (s, v1, m1)

/-- Models `erase(first, last)`.  Returns the status, the returned iterator, the
object and the memory.  The first loop runs at most `size_` times, so a budget
of `size_ + 1` lets it reach its exit test. -/
def erase (v : vector) (first last : Ptr) (m : Mem T) : Status × Ptr × vector × Mem T :=
  match last.diff v.begin, last.diff first with
  | some d, some len_of_interval =>
    match erase_loop v (v.size_ + 1) first (v.begin.add (to_size_t d)) false nullptr m with
    | (.ok, result, m1) =>
      match pop_loop len_of_interval.toNat v m1 with
      | (s, v1, m2) => (s, result, v1, m2)
    | (s, result, m1) => (s, result, v, m1)
  | _, _ => (.abort, nullptr, v, m)

/-- Models `erase(pos)`: `erase(pos, pos + 1)`. -/
def erase_at (v : vector) (pos : Ptr) (m : Mem T) : Status × Ptr × vector × Mem T :=
  v.erase pos (pos.add 1) m

end vector

/-! ## Specification vocabulary -/

/-- Block contents: the live objects `xs` followed by `k` raw slots. -/
def cells (xs : List T) (k : Nat) : List (Option T) := xs.map some ++ List.replicate k none

/-- Memory `m1` is `m` with block `a` replaced by `e`; no failure was added to the script. -/
def Mem.Upd (m m1 : Mem T) (a : Nat) (e : Option (List (Option T))) : Prop :=
  (∀ c, m1.block c = if c = a then e else m.block c) ∧ (NoFault m → NoFault m1)

/-- Memory `m1` has the blocks of `m`; no failure was added to the script. -/
def Mem.Same (m m1 : Mem T) : Prop :=
  (∀ c, m1.block c = m.block c) ∧ (NoFault m → NoFault m1)

/-- Every block of `m` other than `a` is unchanged in `m1`; no failure was added to the
script. -/
def Mem.Frame (a : Nat) (m m1 : Mem T) : Prop :=
  (∀ b blk, b ≠ a → m.block b = some blk → m1.block b = some blk) ∧ (NoFault m → NoFault m1)

/-- The representation invariant: the object `v` holds the elements `xs` in memory `m`. -/
def Holds (m : Mem T) (v : vector) (xs : List T) : Prop :=
  v.size_ = xs.length ∧ v.size_ ≤ v.capacity_ ∧ v.capacity_ < SIZE_MOD ∧ v.data_.off = 0 ∧
  (v.capacity_ = 0 → v.data_ = nullptr) ∧
  (0 < v.capacity_ → m.block v.data_.block = some (cells xs (v.capacity_ - v.size_)))

/-- An operation of a push/pop sequence. -/
inductive Op (T : Type) where
  | push_back (x : T)
  | pop_back
deriving DecidableEq, Repr

/-- One operation applied to the object. -/
def Op.apply : Op T → vector → Mem T → Status × vector × Mem T
  | .push_back x, v, m => v.push_back x m
  | .pop_back, v, m => v.pop_back m

/-- A sequence of operations applied in order; it stops at the first one that does not end
`ok`. -/
def run : List (Op T) → vector → Mem T → Status × vector × Mem T
  | [], v, m => (.ok, v, m)
  | op :: rest, v, m =>
    match op.apply v m with
    | (.ok, v1, m1) => run rest v1 m1
    | (s, v1, m1) => (s, v1, m1)

/-- The list model of an operation: push = append at the end, pop = drop the last
element. -/
def Op.model : Op T → List T → List T
  | .push_back x, l => l ++ [x]
  | .pop_back, l => l.dropLast

/-- The list model of a sequence of operations. -/
def runModel : List (Op T) → List T → List T
  | [], l => l
  | op :: rest, l => runModel rest (op.model l)

/-- Number of pushes in a sequence. -/
def pushes : List (Op T) → Nat
  | [] => 0
  | .push_back _ :: rest => pushes rest + 1
  | .pop_back :: rest => pushes rest

/-- Number of pops in a sequence. -/
def pops : List (Op T) → Nat
  | [] => 0
  | .push_back _ :: rest => pops rest
  | .pop_back :: rest => pops rest + 1

/-- Along the run, `pop_back` is only applied to a non-empty vector. -/
def popsNonEmpty : List (Op T) → vector → Mem T → Bool
  | [], _, _ => true
  | .push_back x :: rest, v, m =>
    popsNonEmpty rest (v.push_back x m).2.1 (v.push_back x m).2.2
  | .pop_back :: rest, v, m =>
    !v.empty && popsNonEmpty rest (v.pop_back m).2.1 (v.pop_back m).2.2

/-- A mutating call on one vector `b`; positions are given as indices from `begin()`.
`operator_assign rhs` is `b = rhs` for any vector `rhs`; `swap other` is `b.swap(other)`
with a third vector `other`, after which `b` has the members `other` had. -/
inductive Mut (T : Type) where
  | push_back (x : T)
  | pop_back
  | reserve (n : Nat)
  | shrink_to_fit
  | clear
  | insert (p : Nat) (x : T)
  | erase (first last : Nat)
  | erase_at (p : Nat)
  | index_assign (i : Nat) (x : T)
  | operator_assign (rhs : vector)
  | swap (other : vector)
deriving DecidableEq, Repr

/-- The call applied to the object, for elements of `sizeof_T` bytes. -/
def Mut.apply (sizeof_T : Nat) : Mut T → vector → Mem T → Status × vector × Mem T
  | .push_back x, v, m => v.push_back x m
  | .pop_back, v, m => v.pop_back m
  | .reserve n, v, m => v.reserve_sized sizeof_T n m
  | .shrink_to_fit, v, m => v.shrink_to_fit m
  | .clear, v, m => v.clear m
  | .insert p x, v, m =>
    ((v.insert (v.begin.add p) x m).1, (v.insert (v.begin.add p) x m).2.2)
  | .erase first last, v, m =>
    ((v.erase (v.begin.add first) (v.begin.add last) m).1,
      (v.erase (v.begin.add first) (v.begin.add last) m).2.2)
  | .erase_at p, v, m =>
    ((v.erase_at (v.begin.add p) m).1, (v.erase_at (v.begin.add p) m).2.2)
  | .index_assign i x, v, m => v.index_assign i x m
  | .operator_assign rhs, v, m => v.operator_assign rhs m
  | .swap other, v, m => (.ok, (v.swap other).1, m)

/-- The precondition of the call on `b`, next to a vector `a` that is no party to it: the
documented precondition; for the calls that may grow the storage, that `capacity_ * 2` does
not wrap; for a `reserve(n)` that re-buffers, that the byte size `n * sizeof(T)` does not
wrap; the right-hand side of an assignment is a vector of the memory; the other party of a
swap is a vector of the memory whose storage is not that of `a`. -/
def Mut.pre (sizeof_T : Nat) (a : vector) : Mut T → vector → Mem T → Prop
  | .push_back _, v, _ => v.size_ = v.capacity_ → v.capacity_ * 2 < SIZE_MOD
  | .pop_back, v, _ => v.size_ ≠ 0
  | .reserve n, v, _ => v.capacity_ < n → n * sizeof_T < SIZE_MOD
  | .shrink_to_fit, _, _ => True
  | .clear, _, _ => True
  | .insert p _, v, _ => p ≤ v.size_ ∧ (v.size_ = v.capacity_ → v.capacity_ * 2 < SIZE_MOD)
  | .erase first last, v, _ => first ≤ last ∧ last ≤ v.size_
  | .erase_at p, v, _ => p < v.size_
  | .index_assign i _, v, _ => i < v.size_
  | .operator_assign rhs, _, m => ∃ zs : List T, Holds m rhs zs
  | .swap other, _, m =>
    (∃ zs : List T, Holds m other zs) ∧ (0 < a.capacity_ → a.data_.block ≠ other.data_.block)

/-- Mutating calls in sequence on one object.  A call that throws leaves the object to the
next call; the run stops at a failed assertion. -/
def mutate (sizeof_T : Nat) : List (Mut T) → vector → Mem T → Status × vector × Mem T
  | [], v, m => (.ok, v, m)
  | mu :: rest, v, m =>
    match mu.apply sizeof_T v m with
    | (.ok, v1, m1) => mutate sizeof_T rest v1 m1
    | (.thrown, v1, m1) => mutate sizeof_T rest v1 m1
    | (s, v1, m1) => (s, v1, m1)

/-- Every call of the run meets its precondition. -/
def mutatePre (sizeof_T : Nat) (a : vector) : List (Mut T) → vector → Mem T → Prop
  | [], _, _ => True
  | mu :: rest, v, m =>
    mu.pre sizeof_T a v m ∧
      mutatePre sizeof_T a rest (mu.apply sizeof_T v m).2.1 (mu.apply sizeof_T v m).2.2

/-- The capacity `c` reached by `n` appends from the empty vector: nothing for `n = 0`,
otherwise the power of two with `2 ^ (k - 1) < n <= 2 ^ k`. -/
def Grown (n c : Nat) : Prop :=
  (n = 0 ∧ c = 0) ∨ ∃ k, c = 2 ^ k ∧ n ≤ 2 ^ k ∧ (k = 0 ∨ 2 ^ (k - 1) < n)

/-- Whether a storage event is an allocation. -/
def Event.isAlloc : Event → Bool
  | .alloc _ _ => true
  | _ => false

/-- Number of allocations recorded in a trace. -/
def allocations (t : List Event) : Nat := t.countP Event.isAlloc

/-- The states of a vector object a program can produce with the public interface: a
default-constructed or copy-constructed object, and the object left by any public mutating
call, in whatever memory, with whatever arguments and however the call ends. -/
inductive Reachable (T : Type) : vector → Prop where
  | default : Reachable T vector.default
  | copy_ctor (other : vector) (m : Mem T) : Reachable T (vector.copy_ctor other m).2.1
  | operator_assign (v rhs : vector) (m : Mem T) :
      Reachable T v → Reachable T (v.operator_assign rhs m).2.1
  | push_back (v : vector) (x : T) (m : Mem T) :
      Reachable T v → Reachable T (v.push_back x m).2.1
  | pop_back (v : vector) (m : Mem T) : Reachable T v → Reachable T (v.pop_back m).2.1
  | reserve (v : vector) (n : Nat) (m : Mem T) :
      Reachable T v → Reachable T (v.reserve n m).2.1
  | shrink_to_fit (v : vector) (m : Mem T) :
      Reachable T v → Reachable T (v.shrink_to_fit m).2.1
  | clear (v : vector) (m : Mem T) : Reachable T v → Reachable T (v.clear m).2.1
  | swap_left (v rhs : vector) : Reachable T v → Reachable T rhs → Reachable T (v.swap rhs).1
  | swap_right (v rhs : vector) : Reachable T v → Reachable T rhs → Reachable T (v.swap rhs).2
  | insert (v : vector) (pos : Ptr) (x : T) (m : Mem T) :
      Reachable T v → Reachable T (v.insert pos x m).2.2.1
  | erase (v : vector) (first last : Ptr) (m : Mem T) :
      Reachable T v → Reachable T (v.erase first last m).2.2.1
  | erase_at (v : vector) (pos : Ptr) (m : Mem T) :
      Reachable T v → Reachable T (v.erase_at pos m).2.2.1

/-! ## The heap -/

theorem Mem.block_zero (m : Mem T) : m.block 0 = none := rfl

theorem Mem.block_some_pos {m : Mem T} {a : Nat} {b : List (Option T)}
    (h : m.block a = some b) : 1 ≤ a ∧ a ≤ m.heap.length := by
  cases a with
  | zero => simp [Mem.block] at h
  | succ k =>
    simp only [Mem.block] at h
    have : k < m.heap.length := by
      by_contra hk
      have : m.heap[k]? = none := List.getElem?_eq_none (by omega)
      simp [this] at h
    omega

theorem Mem.block_fresh (m : Mem T) : m.block (m.heap.length + 1) = none := by
  simp [Mem.block]

/-- Replacing heap entry `a - 1` changes block `a` only. -/
theorem Mem.block_set (m : Mem T) (a : Nat) (ha : 1 ≤ a) (hl : a ≤ m.heap.length)
    (e : Option (List (Option T))) (f : List Bool) (t : List Event) (c : Nat) :
    (Mem.mk (m.heap.set (a - 1) e) f t).block c = if c = a then e else m.block c := by
  cases c with
  | zero =>
    have : ¬ (0 = a) := by omega
    simp [Mem.block, this]
  | succ k =>
    simp only [Mem.block]
    by_cases hk : k + 1 = a
    · subst hk
      have hlt : k < m.heap.length := by omega
      simp [List.getElem?_set, hlt]
    · have : a - 1 ≠ k := by omega
      simp [hk, List.getElem?_set, this]

theorem Mem.block_store (m : Mem T) (p : Ptr) (s : Option T) (a : Nat) :
    (m.store p s).block a =
      if a = p.block then (m.block a).map (fun b => b.set p.off.toNat s) else m.block a := by
  unfold Mem.store
  cases hb : m.block p.block with
  | none =>
    by_cases ha : a = p.block
    · subst ha; simp [hb]
    · simp [ha]
  | some b =>
    have hp := Mem.block_some_pos hb
    simp only
    rw [Mem.block_set m p.block hp.1 hp.2]
    by_cases ha : a = p.block
    · subst ha; simp [hb]
    · simp [ha]

theorem Mem.store_faults (m : Mem T) (p : Ptr) (s : Option T) :
    (m.store p s).faults = m.faults := by
  unfold Mem.store; cases m.block p.block <;> rfl

theorem Mem.block_append (m : Mem T) (e : List (Option T)) (f : List Bool) (t : List Event)
    (c : Nat) :
    (Mem.mk (m.heap ++ [some e]) f t).block c =
      if c = m.heap.length + 1 then some e else m.block c := by
  cases c with
  | zero => simp [Mem.block]
  | succ k =>
    simp only [Mem.block]
    by_cases hk : k = m.heap.length
    · subst hk; simp
    · have h1 : ¬ (k + 1 = m.heap.length + 1) := by omega
      simp only [h1, if_false]
      by_cases hlt : k < m.heap.length
      · rw [List.getElem?_append_left hlt]
      · rw [List.getElem?_eq_none (by simp; omega), List.getElem?_eq_none (by omega)]

theorem Mem.block_fault (m : Mem T) (a : Nat) : m.fault.2.block a = m.block a := by
  unfold Mem.fault; cases m.faults <;> rfl

theorem Mem.heap_fault (m : Mem T) : m.fault.2.heap = m.heap := by
  unfold Mem.fault; cases m.faults <;> rfl

theorem NoFault.fault {m : Mem T} (h : NoFault m) : m.fault.1 = false ∧ NoFault m.fault.2 := by
  unfold Mem.fault
  cases hf : m.faults with
  | nil => exact ⟨rfl, h⟩
  | cons b r =>
    simp only [NoFault, hf] at h
    refine ⟨h b (by simp), ?_⟩
    intro c hc
    exact h c (by simp [hc])

theorem Mem.fault_true {m : Mem T} (h : m.fault.1 = true) : ¬ NoFault m := by
  intro hn
  rw [hn.fault.1] at h
  cases h

theorem Mem.Same.same_refl (m : Mem T) : m.Same m := ⟨fun _ => rfl, id⟩

theorem Mem.Same.same_trans {m m1 m2 : Mem T} (h1 : m.Same m1) (h2 : m1.Same m2) : m.Same m2 :=
  ⟨fun c => by rw [h2.1, h1.1], fun h => h2.2 (h1.2 h)⟩

theorem Mem.Upd.upd_of_same {m m1 : Mem T} {a : Nat} {e : Option (List (Option T))}
    (h : m.Same m1) (he : m.block a = e) : m.Upd m1 a e :=
  ⟨fun c => by rw [h.1]; split <;> simp_all, h.2⟩

theorem Mem.Upd.same_left {m m0 m1 : Mem T} {a : Nat} {e : Option (List (Option T))}
    (h0 : m.Same m0) (h : m0.Upd m1 a e) : m.Upd m1 a e :=
  ⟨fun c => by rw [h.1, h0.1], fun hn => h.2 (h0.2 hn)⟩

theorem Mem.Upd.same_right {m m1 m2 : Mem T} {a : Nat} {e : Option (List (Option T))}
    (h : m.Upd m1 a e) (h2 : m1.Same m2) : m.Upd m2 a e :=
  ⟨fun c => by rw [h2.1, h.1], fun hn => h2.2 (h.2 hn)⟩

/-- Two updates of the same block compose to the later one. -/
theorem Mem.Upd.upd_trans {m m1 m2 : Mem T} {a : Nat} {e e2 : Option (List (Option T))}
    (h1 : m.Upd m1 a e) (h2 : m1.Upd m2 a e2) : m.Upd m2 a e2 :=
  ⟨fun c => by rw [h2.1, h1.1]; split <;> rfl, fun hn => h2.2 (h1.2 hn)⟩

theorem Mem.Upd.block_self {m m1 : Mem T} {a : Nat} {e : Option (List (Option T))}
    (h : m.Upd m1 a e) : m1.block a = e := by
  rw [h.1]; simp

theorem Mem.Upd.block_other {m m1 : Mem T} {a c : Nat} {e : Option (List (Option T))}
    (h : m.Upd m1 a e) (hc : c ≠ a) : m1.block c = m.block c := by
  rw [h.1]; simp [hc]

theorem Mem.same_fault (m : Mem T) : m.Same m.fault.2 :=
  ⟨fun c => Mem.block_fault m c, fun h => h.fault.2⟩

theorem Mem.slot_eq {m : Mem T} {p : Ptr} {b : List (Option T)} (hb : m.block p.block = some b)
    (h0 : 0 ≤ p.off) : m.slot p = b[p.off.toNat]? := by
  simp [Mem.slot, hb, h0]

theorem Mem.block_of_heap (m1 m2 : Mem T) (h : m1.heap = m2.heap) (c : Nat) :
    m1.block c = m2.block c := by
  cases c with
  | zero => rfl
  | succ k => simp [Mem.block, h]

theorem NoFault.of_faults (m1 m2 : Mem T) (h : m1.faults = m2.faults) (hn : NoFault m2) :
    NoFault m1 := by
  unfold NoFault at *; rw [h]; exact hn

theorem construct_spec {m : Mem T} {p : Ptr} {b : List (Option T)} (x : T)
    (hb : m.block p.block = some b) (h0 : 0 ≤ p.off) (hlt : p.off.toNat < b.length) :
    (∃ m1, construct p x m = (.thrown, m1) ∧ m.Same m1 ∧ ¬ NoFault m) ∨
    (∃ m1, construct p x m = (.ok, m1) ∧
      m.Upd m1 p.block (some (b.set p.off.toNat (some x)))) := by
  have hs : m.slot p = some b[p.off.toNat] := by
    rw [Mem.slot_eq hb h0, List.getElem?_eq_getElem hlt]
  unfold construct
  rw [hs]
  simp only
  rcases hf : m.fault with ⟨f, m1⟩
  have hm1 : m1 = m.fault.2 := by rw [hf]
  cases f with
  | true =>
    left
    refine ⟨m1, rfl, ?_, Mem.fault_true (by rw [hf])⟩
    rw [hm1]; exact Mem.same_fault m
  | false =>
    right
    refine ⟨_, rfl, ?_, ?_⟩
    · intro c
      show (m1.store p (some x)).block c = _
      rw [Mem.block_store, hm1, Mem.block_fault]
      by_cases hc : c = p.block
      · subst hc; simp [hb]
      · simp [hc]
    · intro hn
      refine NoFault.of_faults _ m1 ?_ (hm1 ▸ hn.fault.2)
      exact Mem.store_faults m1 p (some x)

theorem destroy_spec {m : Mem T} {p : Ptr} {b : List (Option T)} {y : T}
    (hb : m.block p.block = some b) (h0 : 0 ≤ p.off) (hy : b[p.off.toNat]? = some (some y)) :
    ∃ m1, destroy p m = (.ok, m1) ∧ m.Upd m1 p.block (some (b.set p.off.toNat none)) := by
  have hs : m.slot p = some (some y) := by rw [Mem.slot_eq hb h0, hy]
  unfold destroy
  rw [hs]
  refine ⟨_, rfl, ?_, ?_⟩
  · intro c
    show (m.store p none).block c = _
    rw [Mem.block_store]
    by_cases hc : c = p.block
    · subst hc; simp [hb]
    · simp [hc]
  · intro hn
    exact NoFault.of_faults _ m (Mem.store_faults m p none) hn

theorem std_swap_spec {m : Mem T} {p q : Ptr} {b : List (Option T)} {x y : T}
    (hpq : p.block = q.block)
    (hb : m.block p.block = some b) (hp : 0 ≤ p.off) (hq : 0 ≤ q.off)
    (hx : b[p.off.toNat]? = some (some x)) (hy : b[q.off.toNat]? = some (some y)) :
    ∃ m1, std_swap p q m = (.ok, m1) ∧
      m.Upd m1 p.block (some ((b.set p.off.toNat (some y)).set q.off.toNat (some x))) := by
  have hsp : m.slot p = some (some x) := by rw [Mem.slot_eq hb hp, hx]
  have hsq : m.slot q = some (some y) := by rw [Mem.slot_eq (hpq ▸ hb) hq, hy]
  unfold std_swap
  rw [hsp, hsq]
  refine ⟨_, rfl, ?_, ?_⟩
  · intro c
    rw [Mem.block_store, Mem.block_store]
    by_cases hc : c = p.block
    · subst hc; simp [hb, ← hpq]
    · simp [hc, ← hpq]
  · intro hn
    refine NoFault.of_faults _ m ?_ hn
    rw [Mem.store_faults, Mem.store_faults]

theorem operator_new_spec (n : Nat) (m : Mem T) :
    (∃ m1, operator_new n m = (.thrown, nullptr, m1) ∧ m.Same m1 ∧ ¬ NoFault m) ∨
    (∃ a m1, operator_new n m = (.ok, ⟨a, 0⟩, m1) ∧ a ≠ 0 ∧ m.block a = none ∧
      m.Upd m1 a (some (List.replicate n none))) := by
  unfold operator_new
  rcases hf : m.fault with ⟨f, m1⟩
  have hm1 : m1 = m.fault.2 := by rw [hf]
  cases f with
  | true =>
    left
    refine ⟨m1, rfl, ?_, Mem.fault_true (by rw [hf])⟩
    rw [hm1]; exact Mem.same_fault m
  | false =>
    right
    refine ⟨_, _, rfl, by omega, ?_, ?_, ?_⟩
    · rw [hm1, Mem.heap_fault]; exact Mem.block_fresh m
    · intro c
      rw [Mem.block_append, hm1, Mem.block_fault]
    · intro hn
      exact NoFault.of_faults _ m1 rfl (hm1 ▸ hn.fault.2)

theorem operator_delete_null (m : Mem T) : operator_delete nullptr m = (.ok, m) := by
  simp [operator_delete]

theorem operator_delete_spec {m : Mem T} {p : Ptr} {b : List (Option T)}
    (hb : m.block p.block = some b) (h0 : p.off = 0) :
    ∃ m1, operator_delete p m = (.ok, m1) ∧ m.Upd m1 p.block none := by
  have hpos := Mem.block_some_pos hb
  have hne : p ≠ nullptr := by
    intro h; rw [h] at hpos; simp [nullptr] at hpos
  unfold operator_delete
  rw [if_neg hne, hb]
  simp only [h0, if_true]
  refine ⟨_, rfl, ?_, ?_⟩
  · intro c
    exact Mem.block_set m p.block hpos.1 hpos.2 none _ _ c
  · intro hn
    exact NoFault.of_faults _ m rfl hn

/-! ## Destruction, copying, re-buffering -/

@[simp] theorem Ptr.add_block (p : Ptr) (k : Int) : (p.add k).block = p.block := rfl
@[simp] theorem Ptr.add_off (p : Ptr) (k : Int) : (p.add k).off = p.off + k := rfl

@[simp] theorem cells_length (xs : List T) (k : Nat) : (cells xs k).length = xs.length + k := by
  simp [cells]

theorem cells_getElem?_lt (xs : List T) (k i : Nat) (h : i < xs.length) :
    (cells xs k)[i]? = some (some xs[i]) := by
  unfold cells
  rw [List.getElem?_append_left (by simpa using h)]
  simp [List.getElem?_eq_getElem h]

theorem cells_set_lt (xs : List T) (k i : Nat) (x : T) (h : i < xs.length) :
    (cells xs k).set i (some x) = cells (xs.set i x) k := by
  unfold cells
  rw [List.set_append_left _ _ (by simpa using h)]
  simp [List.map_set]

theorem cells_push (xs : List T) (k : Nat) (x : T) :
    (cells xs (k + 1)).set xs.length (some x) = cells (xs ++ [x]) k := by
  unfold cells
  rw [List.set_append_right _ _ (by simp)]
  simp [List.replicate_succ]

theorem cells_pop (xs : List T) (k : Nat) (x : T) :
    (cells (xs ++ [x]) k).set xs.length none = cells xs (k + 1) := by
  unfold cells
  simp only [List.map_append, List.map_cons, List.map_nil, List.append_assoc]
  rw [List.set_append_right _ _ (by simp)]
  simp [List.replicate_succ]

theorem Mem.slot_congr {m m1 : Mem T} (p : Ptr) (h : m1.block p.block = m.block p.block) :
    m1.slot p = m.slot p := by
  unfold Mem.slot; rw [h]

theorem destroy_all_spec (a : Nat) (xs : List T) :
    ∀ (k : Nat) (m : Mem T), m.block a = some (cells xs k) →
      ∃ m1, vector.destroy_all ⟨a, 0⟩ xs.length m = (.ok, m1) ∧
        m.Upd m1 a (some (cells [] (xs.length + k))) := by
  induction xs using List.reverseRecOn with
  | nil =>
    intro k m hb
    refine ⟨m, rfl, Mem.Upd.upd_of_same (Mem.Same.same_refl m) ?_⟩
    simpa using hb
  | append_singleton ys y ih =>
    intro k m hb
    have hlen : (ys ++ [y]).length = ys.length + 1 := by simp
    rw [hlen]
    unfold vector.destroy_all
    have hd := destroy_spec (m := m) (p := (Ptr.mk a 0).add ys.length) (b := cells (ys ++ [y]) k)
      (y := y) hb (by simp) (by
        simp only [Ptr.add_off, zero_add, Int.toNat_ofNat]
        rw [cells_getElem?_lt _ _ _ (by simp)]
        simp)
    obtain ⟨m1, hd1, hu1⟩ := hd
    rw [hd1]
    simp only [Ptr.add_off, zero_add, Int.toNat_ofNat, Ptr.add_block, cells_pop] at hu1
    obtain ⟨m2, hd2, hu2⟩ := ih (k + 1) m1 hu1.block_self
    refine ⟨m2, hd2, ?_⟩
    have := hu1.upd_trans hu2
    rwa [show ys.length + 1 + k = ys.length + (k + 1) by omega]

theorem copy_loop_spec (a : Nat) (src : Ptr) (xs : List T) (cap : Nat) (hne : src.block ≠ a)
    (hcap : xs.length ≤ cap) :
    ∀ (n i : Nat) (m : Mem T), i + n = xs.length →
      (∀ j (h : j < xs.length), m.slot (src.add j) = some (some xs[j])) →
      m.block a = some (cells (xs.take i) (cap - i)) →
      (∃ m1, vector.copy_loop ⟨a, 0⟩ src n i m = (.ok, xs.length, m1) ∧
        m.Upd m1 a (some (cells xs (cap - xs.length)))) ∨
      (∃ j m1, vector.copy_loop ⟨a, 0⟩ src n i m = (.thrown, j, m1) ∧ j ≤ xs.length ∧
        m.Upd m1 a (some (cells (xs.take j) (cap - j))) ∧ ¬ NoFault m) := by
  intro n
  induction n with
  | zero =>
    intro i m hi _ hb
    left
    have : i = xs.length := by omega
    subst this
    refine ⟨m, rfl, Mem.Upd.upd_of_same (Mem.Same.same_refl m) ?_⟩
    simpa using hb
  | succ n ih =>
    intro i m hi hsrc hb
    have hilt : i < xs.length := by omega
    unfold vector.copy_loop
    rw [hsrc i hilt]
    simp only
    have hc := construct_spec (m := m) (p := (Ptr.mk a 0).add i) (b := cells (xs.take i) (cap - i))
      xs[i] hb (by simp) (by simp; omega)
    simp only [Ptr.add_off, zero_add, Int.toNat_ofNat, Ptr.add_block] at hc
    rcases hc with ⟨m1, hc1, hs1, hnf⟩ | ⟨m1, hc1, hu1⟩
    · right
      rw [hc1]
      exact ⟨i, m1, rfl, by omega, Mem.Upd.upd_of_same hs1 hb, hnf⟩
    · rw [hc1]
      simp only
      have hpush : (cells (xs.take i) (cap - i)).set i (some xs[i])
          = cells (xs.take (i + 1)) (cap - (i + 1)) := by
        have h1 : cap - i = (cap - (i + 1)) + 1 := by omega
        have h2 : (xs.take i).length = i := by simp; omega
        have h3 := cells_push (xs.take i) (cap - (i + 1)) xs[i]
        rw [h2] at h3
        rw [h1, h3, List.take_succ, List.getElem?_eq_getElem hilt]
        simp
      rw [hpush] at hu1
      have hsrc1 : ∀ j (h : j < xs.length), m1.slot (src.add j) = some (some xs[j]) := by
        intro j h
        rw [Mem.slot_congr (src.add j) (hu1.block_other (by simpa using hne))]
        exact hsrc j h
      rcases ih (i + 1) m1 (by omega) hsrc1 hu1.block_self with ⟨m2, h2, hu2⟩ | ⟨j, m2, h2, hj, hu2, hnf⟩
      · left; exact ⟨m2, h2, hu1.upd_trans hu2⟩
      · right; exact ⟨j, m2, h2, hj, hu1.upd_trans hu2, fun hn => hnf (hu1.2 hn)⟩

theorem copy_all_spec (a : Nat) (src : Ptr) (xs : List T) (cap : Nat) (hne : src.block ≠ a)
    (hcap : xs.length ≤ cap) (m : Mem T)
    (hsrc : ∀ j (h : j < xs.length), m.slot (src.add j) = some (some xs[j]))
    (hb : m.block a = some (cells [] cap)) :
    (∃ m1, vector.copy_all ⟨a, 0⟩ src xs.length m = (.ok, m1) ∧
      m.Upd m1 a (some (cells xs (cap - xs.length)))) ∨
    (∃ m1, vector.copy_all ⟨a, 0⟩ src xs.length m = (.thrown, m1) ∧
      m.Upd m1 a (some (cells [] cap)) ∧ ¬ NoFault m) := by
  unfold vector.copy_all
  rcases copy_loop_spec a src xs cap hne hcap xs.length 0 m (by simp) hsrc (by simpa using hb)
    with ⟨m1, h1, hu1⟩ | ⟨j, m1, h1, hj, hu1, hnf⟩
  · left; rw [h1]; exact ⟨m1, rfl, hu1⟩
  · right
    rw [h1]
    simp only
    have hjl : (xs.take j).length = j := by simp; omega
    obtain ⟨m2, h2, hu2⟩ := destroy_all_spec a (xs.take j) (cap - j) m1 hu1.block_self
    rw [hjl] at h2 hu2
    rw [h2]
    refine ⟨m2, rfl, ?_, hnf⟩
    have := hu1.upd_trans hu2
    rwa [show j + (cap - j) = cap by omega] at this

theorem Holds.default (m : Mem T) : Holds m vector.default ([] : List T) := by
  simp [Holds, vector.default, nullptr, SIZE_MOD]

theorem Holds.frame {m m1 : Mem T} {v : vector} {xs : List T} (h : Holds m v xs)
    (hb : m1.block v.data_.block = m.block v.data_.block) : Holds m1 v xs := by
  obtain ⟨h1, h2, h3, h4, h5, h6⟩ := h
  exact ⟨h1, h2, h3, h4, h5, fun hc => by rw [hb]; exact h6 hc⟩

theorem Holds.slot {m : Mem T} {v : vector} {xs : List T} (h : Holds m v xs) (j : Nat)
    (hj : j < xs.length) : m.slot (v.data_.add j) = some (some xs[j]) := by
  obtain ⟨h1, h2, h3, h4, h5, h6⟩ := h
  have hb := h6 (by omega)
  rw [Mem.slot_eq (by simpa using hb) (by simp [h4])]
  simp only [Ptr.add_off, h4, zero_add, Int.toNat_ofNat]
  exact cells_getElem?_lt _ _ _ hj

theorem Holds.ptr {m : Mem T} {v : vector} {xs : List T} (h : Holds m v xs) :
    v.data_ = ⟨v.data_.block, 0⟩ := by
  obtain ⟨h1, h2, h3, h4, h5, h6⟩ := h
  cases hv : v.data_ with
  | mk b o => rw [hv] at h4; simp at h4; simp [h4]

theorem destructor_spec {m : Mem T} {v : vector} {xs : List T} (h : Holds m v xs) :
    ∃ m1, vector.destructor v m = (.ok, m1) ∧ m.Upd m1 v.data_.block none := by
  have hp := h.ptr
  obtain ⟨h1, h2, h3, h4, h5, h6⟩ := h
  unfold vector.destructor
  by_cases hc : v.capacity_ = 0
  · have hs : v.size_ = 0 := by omega
    rw [hs, h5 hc]
    refine ⟨m, ?_, Mem.Upd.upd_of_same (Mem.Same.same_refl m) (by simp [nullptr, Mem.block])⟩
    simp [vector.destroy_all, operator_delete_null]
  · have hb := h6 (by omega)
    rw [hp, h1]
    obtain ⟨m1, hd1, hu1⟩ := destroy_all_spec v.data_.block xs _ m hb
    rw [hd1]
    simp only
    obtain ⟨m2, hd2, hu2⟩ := operator_delete_spec (m := m1) (p := ⟨v.data_.block, 0⟩)
      hu1.block_self rfl
    exact ⟨m2, hd2, hu1.upd_trans hu2⟩

theorem Mem.Frame.frame_of_same {m m1 : Mem T} (a : Nat) (h : m.Same m1) : Mem.Frame a m m1 :=
  ⟨fun b blk _ hb => by rw [h.1]; exact hb, h.2⟩

theorem Mem.Frame.frame_of_upd {m m1 : Mem T} {a : Nat} {e : Option (List (Option T))}
    (h : m.Upd m1 a e) : Mem.Frame a m m1 :=
  ⟨fun b blk hne hb => by rw [h.block_other hne]; exact hb, h.2⟩

theorem Mem.Frame.frame_trans {m m1 m2 : Mem T} {a : Nat} (h1 : Mem.Frame a m m1)
    (h2 : Mem.Frame a m1 m2) : Mem.Frame a m m2 :=
  ⟨fun b blk hne hb => h2.1 b blk hne (h1.1 b blk hne hb), fun hn => h2.2 (h1.2 hn)⟩

/-- A frame around a block that was not live can be dropped. -/
theorem Mem.Frame.fresh {m m1 : Mem T} {a : Nat} (c : Nat) (h : Mem.Frame a m m1)
    (ha : m.block a = none) : Mem.Frame c m m1 :=
  ⟨fun b blk _ hb => h.1 b blk (by intro hba; rw [hba, ha] at hb; cases hb) hb, h.2⟩

theorem Holds.of_frame {m m1 : Mem T} {v : vector} {xs : List T} {a : Nat} (h : Holds m v xs)
    (hf : Mem.Frame a m m1) (hne : 0 < v.capacity_ → v.data_.block ≠ a) : Holds m1 v xs := by
  obtain ⟨h1, h2, h3, h4, h5, h6⟩ := h
  exact ⟨h1, h2, h3, h4, h5, fun hc => hf.1 _ _ (hne hc) (h6 hc)⟩

theorem Holds.block_ne {m : Mem T} {v : vector} {xs : List T} {a : Nat} (h : Holds m v xs)
    (ha : m.block a = none) (hpos : a ≠ 0) : v.data_.block ≠ a := by
  obtain ⟨h1, h2, h3, h4, h5, h6⟩ := h
  by_cases hc : v.capacity_ = 0
  · rw [h5 hc]; simpa [nullptr] using hpos.symm
  · intro hva
    have := h6 (by omega)
    rw [hva, ha] at this
    cases this

theorem destructor_default (m : Mem T) : vector.destructor vector.default m = (.ok, m) := by
  simp [vector.destructor, vector.default, vector.destroy_all, operator_delete_null]

theorem new_buffer_spec {m : Mem T} {v : vector} {xs : List T} (h : Holds m v xs) (c : Nat)
    (hc : v.size_ ≤ c) (hc2 : c < SIZE_MOD) :
    (∃ v1 m1, vector.new_buffer v c m = (.ok, v1, m1) ∧ Holds m1 v1 xs ∧ v1.capacity_ = c ∧
      Mem.Frame v.data_.block m m1 ∧ m1.block v.data_.block = none ∧
      (0 < c → m.block v1.data_.block = none) ∧
      (∀ b, b ≠ v.data_.block → b ≠ v1.data_.block → m1.block b = m.block b)) ∨
    (∃ m1, vector.new_buffer v c m = (.thrown, v, m1) ∧ m.Same m1 ∧ ¬ NoFault m) := by
  have hp := h.ptr
  have hsz := h.1
  unfold vector.new_buffer
  rw [if_neg (by omega)]
  by_cases hc0 : 0 < c
  · simp only [hc0, if_true]
    rcases operator_new_spec c m with ⟨m1, hn1, hs1, hnf⟩ | ⟨a, m1, hn1, ha0, hfresh, hu1⟩
    · right
      rw [hn1]
      simp only [destructor_default]
      exact ⟨m1, rfl, hs1, hnf⟩
    · rw [hn1]
      simp only
      have hne : v.data_.block ≠ a := h.block_ne hfresh ha0
      have hv1 : Holds m1 v xs := h.frame (hu1.block_other hne)
      have hcopy := copy_all_spec a v.data_ xs c hne (by omega) m1 (fun j hj => hv1.slot j hj)
        (by simpa [cells] using hu1.block_self)
      rw [← hsz] at hcopy
      rcases hcopy with ⟨m2, hc2_, hu2⟩ | ⟨m2, hc2_, hu2, hnf⟩
      · left
        rw [hc2_]
        simp only [vector.swap]
        have hv2 : Holds m2 v xs := hv1.frame (hu2.block_other hne)
        obtain ⟨m3, hd3, hu3⟩ := destructor_spec hv2
        have hd3b : vector.destructor ⟨v.data_, v.size_, v.capacity_⟩ m2 = (.ok, m3) := hd3
        rw [hd3b]
        refine ⟨_, m3, rfl, ?_, rfl, ?_, hu3.block_self, fun _ => hfresh, fun b hb1 hb2 => by
          rw [hu3.block_other hb1, hu2.block_other hb2, hu1.block_other hb2]⟩
        · refine ⟨hsz, hc, hc2, rfl, fun h0 => by simp at h0; omega, fun _ => ?_⟩
          show m3.block a = _
          rw [hu3.block_other hne.symm, hu2.block_self]
        · refine ⟨fun b blk hb hblk => ?_, fun hn => hu3.2 (hu2.2 (hu1.2 hn))⟩
          have hba : b ≠ a := by intro hba; rw [hba, hfresh] at hblk; cases hblk
          rw [hu3.block_other hb, hu2.block_other hba, hu1.block_other hba]
          exact hblk
      · right
        rw [hc2_]
        simp only
        have ht : Holds m2 (⟨⟨a, 0⟩, 0, c⟩ : vector) ([] : List T) :=
          ⟨rfl, Nat.zero_le _, hc2, rfl, fun h0 => by simp at h0; omega,
            fun _ => by simpa using hu2.block_self⟩
        obtain ⟨m3, hd3, hu3⟩ := destructor_spec ht
        have hd3b : vector.destructor
            { vector.default with data_ := ⟨a, 0⟩, capacity_ := c } m2 = (.ok, m3) := hd3
        rw [hd3b]
        refine ⟨m3, rfl, ⟨fun b => ?_, fun hn => hu3.2 (hu2.2 (hu1.2 hn))⟩,
          fun hn => hnf (hu1.2 hn)⟩
        by_cases hba : b = a
        · rw [hba, hfresh]; exact hu3.block_self
        · have hu3b : m3.block b = m2.block b := hu3.block_other hba
          rw [hu3b, hu2.block_other hba, hu1.block_other hba]
  · left
    have hc0 : c = 0 := by omega
    subst hc0
    simp only [lt_irrefl, if_false, vector.swap]
    obtain ⟨m3, hd3, hu3⟩ := destructor_spec h
    have hd3b : vector.destructor ⟨v.data_, v.size_, v.capacity_⟩ m = (.ok, m3) := hd3
    rw [hd3b]
    have hxs : xs = [] := by
      have : xs.length = 0 := by omega
      exact List.length_eq_zero.mp this
    subst hxs
    exact ⟨_, m3, rfl, Holds.default m3, rfl, Mem.Frame.frame_of_upd hu3, hu3.block_self,
      fun h0 => absurd h0 (by simp), fun b hb1 _ => hu3.block_other hb1⟩

/-! ## push_back and pop_back -/

theorem push_back_free_spec {m : Mem T} {v : vector} {xs : List T} (h : Holds m v xs) (x : T)
    (hlt : v.size_ < v.capacity_) (fuel : Nat) :
    (∃ m1, vector.push_back_fuel (fuel + 1) v x m = (.ok, { v with size_ := v.size_ + 1 }, m1) ∧
      m.Upd m1 v.data_.block (some (cells (xs ++ [x]) (v.capacity_ - (v.size_ + 1))))) ∨
    (∃ m1, vector.push_back_fuel (fuel + 1) v x m = (.thrown, v, m1) ∧ m.Same m1 ∧
      ¬ NoFault m) := by
  obtain ⟨h1, h2, h3, h4, h5, h6⟩ := h
  have hb := h6 (by omega)
  unfold vector.push_back_fuel
  rw [if_pos hlt]
  have hc := construct_spec (m := m) (p := v.data_.add v.size_) x hb (by simp [h4])
    (by simp [h4]; omega)
  simp only [Ptr.add_off, h4, zero_add, Int.toNat_ofNat, Ptr.add_block] at hc
  rcases hc with ⟨m1, hc1, hs1, hnf⟩ | ⟨m1, hc1, hu1⟩
  · right; rw [hc1]; exact ⟨m1, rfl, hs1, hnf⟩
  · left
    rw [hc1]
    refine ⟨m1, rfl, ?_⟩
    have h7 : v.capacity_ - v.size_ = (v.capacity_ - (v.size_ + 1)) + 1 := by omega
    rw [h7, h1, cells_push] at hu1
    rw [h1]
    exact hu1

theorem Holds.push {m m1 : Mem T} {v : vector} {xs : List T} (h : Holds m v xs) (x : T)
    (hlt : v.size_ < v.capacity_)
    (hu : m.Upd m1 v.data_.block (some (cells (xs ++ [x]) (v.capacity_ - (v.size_ + 1))))) :
    Holds m1 { v with size_ := v.size_ + 1 } (xs ++ [x]) := by
  obtain ⟨h1, h2, h3, h4, h5, h6⟩ := h
  exact ⟨by simp [h1], hlt, h3, h4, h5, fun _ => hu.block_self⟩

theorem increase_capacity_eq (v : vector) (hov : v.capacity_ * 2 < SIZE_MOD) :
    v.increase_capacity = if 0 < v.capacity_ then v.capacity_ * 2 else 1 := by
  unfold vector.increase_capacity
  rw [Nat.mod_eq_of_lt hov]

/-- What `push_back` does, whatever the failure script: it either appends, or throws and
leaves size and elements alone. -/
theorem push_back_fuel_spec {m : Mem T} {v : vector} {xs : List T} (h : Holds m v xs) (x : T)
    (hov : v.size_ = v.capacity_ → v.capacity_ * 2 < SIZE_MOD) (fuel : Nat) :
    (∃ v1 m1, vector.push_back_fuel (fuel + 2) v x m = (.ok, v1, m1) ∧
      Holds m1 v1 (xs ++ [x]) ∧
      v1.capacity_ = (if v.size_ < v.capacity_ then v.capacity_ else v.increase_capacity) ∧
      Mem.Frame v.data_.block m m1 ∧
      (v1.data_ = v.data_ ∨ m.block v1.data_.block = none)) ∨
    (∃ v1 m1, vector.push_back_fuel (fuel + 2) v x m = (.thrown, v1, m1) ∧
      Holds m1 v1 xs ∧ ¬ NoFault m ∧ Mem.Frame v.data_.block m m1 ∧
      (v1 = v ∨ (v.size_ = v.capacity_ ∧ v1.capacity_ = v.increase_capacity ∧
        m.block v1.data_.block = none))) := by
  by_cases hlt : v.size_ < v.capacity_
  · rcases push_back_free_spec h x hlt (fuel + 1) with ⟨m1, h1, hu1⟩ | ⟨m1, h1, hs1, hnf⟩
    · left
      exact ⟨_, m1, h1, h.push x hlt hu1, by simp [hlt], Mem.Frame.frame_of_upd hu1, Or.inl rfl⟩
    · right
      exact ⟨v, m1, h1, h.frame (hs1.1 _), hnf, Mem.Frame.frame_of_same _ hs1, Or.inl rfl⟩
  · have hsz : v.size_ = v.capacity_ := by have := h.2.1; omega
    rw [vector.push_back_fuel, if_neg hlt]
    rcases hf : m.fault with ⟨f, m0⟩
    have hm0 : m0 = m.fault.2 := by rw [hf]
    have hs0 : m.Same m0 := hm0 ▸ Mem.same_fault m
    cases f with
    | true =>
      right
      exact ⟨v, m0, rfl, h.frame (hs0.1 _), Mem.fault_true (by rw [hf]),
        Mem.Frame.frame_of_same _ hs0, Or.inl rfl⟩
    | false =>
      simp only
      have hinc := increase_capacity_eq v (hov hsz)
      have hge : v.size_ < v.increase_capacity := by
        rw [hinc]; split <;> omega
      have hlt2 : v.increase_capacity < SIZE_MOD := by
        rw [hinc]; split
        · exact hov hsz
        · simp [SIZE_MOD]
      have h0 : Holds m0 v xs := h.frame (hs0.1 _)
      rcases new_buffer_spec h0 v.increase_capacity (by omega) hlt2 with
        ⟨v1, m1, hn1, hv1, hcap1, hfr1, _, hfresh1, _⟩ | ⟨m1, hn1, hs1, hnf⟩
      · rw [hn1]
        simp only
        have hsz1 : v1.size_ = v.size_ := by rw [hv1.1, h.1]
        have hlt1 : v1.size_ < v1.capacity_ := by omega
        have hfresh : m.block v1.data_.block = none := by
          rw [← hs0.1]; exact hfresh1 (by omega)
        have hfr : Mem.Frame v.data_.block m m1 :=
          (Mem.Frame.frame_of_same _ hs0).frame_trans hfr1
        have hne : ∀ b blk, m.block b = some blk → b ≠ v1.data_.block := by
          intro b blk hb hbe
          rw [hbe, hfresh] at hb; cases hb
        rcases push_back_free_spec hv1 x hlt1 fuel with ⟨m2, h2, hu2⟩ | ⟨m2, h2, hs2, hnf⟩
        · left
          refine ⟨_, m2, h2, hv1.push x hlt1 hu2, ?_, ?_, Or.inr hfresh⟩
          · simp [hlt, hcap1]
          · refine ⟨fun b blk hb hblk => ?_, fun hn => hu2.2 (hfr.2 hn)⟩
            rw [hu2.block_other (hne b blk hblk)]
            exact hfr.1 b blk hb hblk
        · right
          refine ⟨v1, m2, h2, hv1.frame (hs2.1 _), fun hn => hnf (hfr.2 hn),
            hfr.frame_trans (Mem.Frame.frame_of_same _ hs2), Or.inr ⟨hsz, hcap1, hfresh⟩⟩
      · right
        rw [hn1]
        exact ⟨v, m1, rfl, h0.frame (hs1.1 _), fun hn => hnf (hs0.2 hn),
          Mem.Frame.frame_of_same _ (hs0.same_trans hs1), Or.inl rfl⟩

/-- The same for `push_back` itself. -/
theorem push_back_spec {m : Mem T} {v : vector} {xs : List T} (h : Holds m v xs) (x : T)
    (hov : v.size_ = v.capacity_ → v.capacity_ * 2 < SIZE_MOD) :
    (∃ v1 m1, vector.push_back v x m = (.ok, v1, m1) ∧
      Holds m1 v1 (xs ++ [x]) ∧
      v1.capacity_ = (if v.size_ < v.capacity_ then v.capacity_ else v.increase_capacity) ∧
      Mem.Frame v.data_.block m m1 ∧
      (v1.data_ = v.data_ ∨ m.block v1.data_.block = none)) ∨
    (∃ v1 m1, vector.push_back v x m = (.thrown, v1, m1) ∧
      Holds m1 v1 xs ∧ ¬ NoFault m ∧ Mem.Frame v.data_.block m m1 ∧
      (v1 = v ∨ (v.size_ = v.capacity_ ∧ v1.capacity_ = v.increase_capacity ∧
        m.block v1.data_.block = none))) :=
  push_back_fuel_spec h x hov 1

/-- Without injected failures `push_back` appends. -/
theorem push_back_ok {m : Mem T} {v : vector} {xs : List T} (h : Holds m v xs) (x : T)
    (hov : v.size_ = v.capacity_ → v.capacity_ * 2 < SIZE_MOD) (hn : NoFault m) :
    ∃ v1 m1, vector.push_back v x m = (.ok, v1, m1) ∧
      Holds m1 v1 (xs ++ [x]) ∧
      v1.capacity_ = (if v.size_ < v.capacity_ then v.capacity_ else v.increase_capacity) ∧
      Mem.Frame v.data_.block m m1 ∧
      (v1.data_ = v.data_ ∨ m.block v1.data_.block = none) := by
  rcases push_back_spec h x hov with hok | ⟨_, _, _, _, hnf, _⟩
  · exact hok
  · exact absurd hn hnf

theorem pop_back_spec {m : Mem T} {v : vector} {xs : List T} (h : Holds m v xs)
    (hne : xs ≠ []) :
    ∃ m1, vector.pop_back v m = (.ok, { v with size_ := v.size_ - 1 }, m1) ∧
      Holds m1 { v with size_ := v.size_ - 1 } xs.dropLast ∧
      m.Upd m1 v.data_.block (some (cells xs.dropLast (v.capacity_ - (v.size_ - 1)))) := by
  obtain ⟨h1, h2, h3, h4, h5, h6⟩ := h
  obtain ⟨ys, y, rfl⟩ : ∃ ys y, xs = ys ++ [y] :=
    ⟨xs.dropLast, xs.getLast hne, (List.dropLast_append_getLast hne).symm⟩
  have hlen : v.size_ = ys.length + 1 := by simpa using h1
  have hb := h6 (by omega)
  unfold vector.pop_back
  have he : v.empty = false := by simp [vector.empty]; omega
  rw [he]
  simp only [Bool.false_eq_true, if_false]
  have hoff : ((v.data_.add ((v.size_ : Int) - 1)).off).toNat = ys.length := by
    simp [h4, hlen]
  have hd := destroy_spec (m := m) (p := v.data_.add ((v.size_ : Int) - 1)) (y := y) hb
    (by simp [h4, hlen]) (by
      rw [hoff, cells_getElem?_lt _ _ _ (by simp)]
      simp)
  obtain ⟨m1, hd1, hu1⟩ := hd
  rw [hd1]
  rw [hoff, cells_pop] at hu1
  simp only [Ptr.add_block] at hu1
  have hk : v.capacity_ - (v.size_ - 1) = v.capacity_ - v.size_ + 1 := by omega
  simp only [List.dropLast_concat]
  rw [hk]
  refine ⟨m1, rfl, ⟨by simp [hlen], by simp; omega, h3, h4, h5, fun _ => ?_⟩, hu1⟩
  simp only
  rw [hk]
  exact hu1.block_self

/-- A full vector whose doubled capacity wraps: `push_back` throws in the copy of its
argument or stops at the assertion of `new_buffer`. -/
theorem push_back_wrap {m : Mem T} {v : vector} {xs : List T} (h : Holds m v xs) (x : T)
    (hfull : v.size_ = v.capacity_) (hwrap : ¬ v.capacity_ * 2 < SIZE_MOD) :
    v.push_back x m = if m.fault.1 then (.thrown, v, m.fault.2) else (.abort, v, m.fault.2) := by
  have hcap := h.2.2.1
  have hinc : v.increase_capacity < v.size_ := by
    unfold vector.increase_capacity
    unfold SIZE_MOD at *
    split <;> omega
  unfold vector.push_back
  rw [vector.push_back_fuel, if_neg (by omega)]
  rcases hf : m.fault with ⟨f, m0⟩
  cases f with
  | true => simp
  | false =>
    simp only [vector.new_buffer, hinc, if_true]
    simp

/-! ## The recursion budget of push_back is never the limit -/


theorem new_buffer_ok_fields {v v1 : vector} {c : Nat} {m m1 : Mem T}
    (h : vector.new_buffer v c m = (.ok, v1, m1)) :
    v.size_ ≤ c ∧ v1.size_ = v.size_ ∧ v1.capacity_ = c := by
  unfold vector.new_buffer at h
  by_cases hlt : c < v.size_
  · simp [hlt] at h
  · simp only [hlt, if_false, vector.swap] at h
    by_cases hc : 0 < c
    · simp only [hc, if_true] at h
      rcases hn : operator_new c m with ⟨s, p, m2⟩
      rw [hn] at h
      cases s
      · simp only at h
        rcases hcp : vector.copy_all p v.data_ v.size_ m2 with ⟨s2, m3⟩
        rw [hcp] at h
        cases s2
        · simp only at h
          rcases hd : vector.destructor
            { data_ := v.data_, size_ := v.size_, capacity_ := v.capacity_ } m3 with ⟨s3, m4⟩
          rw [hd] at h
          cases s3 <;> simp only [Prod.mk.injEq, true_and, false_and, reduceCtorEq] at h
          obtain ⟨rfl, _⟩ := h
          exact ⟨by omega, rfl, rfl⟩
        · simp only at h
          rcases hd : vector.destructor
            { data_ := p, size_ := vector.default.size_, capacity_ := c } m3 with ⟨s3, m4⟩
          rw [hd] at h
          cases s3 <;> simp at h
        · simp at h
        · simp at h
      all_goals
        simp only at h
        rcases hd : vector.destructor vector.default m2 with ⟨s3, m4⟩
        rw [hd] at h
        cases s3 <;> simp at h
    · simp only [hc, if_false] at h
      rcases hd : vector.destructor
        { data_ := v.data_, size_ := v.size_, capacity_ := v.capacity_ } m with ⟨s3, m4⟩
      rw [hd] at h
      cases s3 <;> simp only [Prod.mk.injEq, true_and, false_and, reduceCtorEq] at h
      obtain ⟨rfl, _⟩ := h
      exact ⟨by omega, by simp [vector.default]; omega, by simp [vector.default]; omega⟩

theorem increase_capacity_lt (v : vector) : v.increase_capacity < SIZE_MOD := by
  unfold vector.increase_capacity
  split
  · exact Nat.mod_lt _ (by simp [SIZE_MOD])
  · simp [SIZE_MOD]

theorem push_back_fuel_free (k : Nat) (v : vector) (x : T) (m : Mem T)
    (h : v.size_ < v.capacity_) :
    vector.push_back_fuel (k + 1) v x m = vector.push_back_fuel 1 v x m := by
  rw [vector.push_back_fuel, vector.push_back_fuel, if_pos h, if_pos h]

/-- A full vector whose capacity is a `size_t`: two levels are enough. -/
theorem push_back_fuel_full (k : Nat) (v : vector) (x : T) (m : Mem T)
    (hle : v.size_ ≤ v.capacity_) (hcap : v.capacity_ < SIZE_MOD) :
    vector.push_back_fuel (k + 2) v x m = vector.push_back_fuel 2 v x m := by
  by_cases hlt : v.size_ < v.capacity_
  · rw [push_back_fuel_free (k + 1) v x m hlt, push_back_fuel_free 1 v x m hlt]
  · rw [vector.push_back_fuel, if_neg hlt]
    conv_rhs => rw [vector.push_back_fuel, if_neg hlt]
    rcases hf : m.fault with ⟨f, m0⟩
    cases f
    · simp only
      rcases hn : vector.new_buffer v v.increase_capacity m0 with ⟨s, v1, m1⟩
      cases s
      · simp only
        obtain ⟨h1, h2, h3⟩ := new_buffer_ok_fields hn
        have hfree : v1.size_ < v1.capacity_ := by
          rw [h2, h3]
          have hfull : v.size_ = v.capacity_ := by omega
          unfold vector.increase_capacity at h1 ⊢
          unfold SIZE_MOD at *
          split <;> rename_i h0
          · rw [if_pos h0] at h1; omega
          · omega
        rw [push_back_fuel_free k v1 x m1 hfree]
      all_goals rfl
    · rfl

theorem push_back_fuel_enough (k : Nat) (v : vector) (x : T) (m : Mem T) :
    vector.push_back_fuel (k + 3) v x m = vector.push_back_fuel 3 v x m := by
  by_cases hlt : v.size_ < v.capacity_
  · rw [push_back_fuel_free (k + 2) v x m hlt, push_back_fuel_free 2 v x m hlt]
  · rw [vector.push_back_fuel, if_neg hlt]
    conv_rhs => rw [vector.push_back_fuel, if_neg hlt]
    rcases hf : m.fault with ⟨f, m0⟩
    cases f
    · simp only
      rcases hn : vector.new_buffer v v.increase_capacity m0 with ⟨s, v1, m1⟩
      cases s
      · simp only
        obtain ⟨h1, h2, h3⟩ := new_buffer_ok_fields hn
        exact push_back_fuel_full k v1 x m1 (by omega)
          (by rw [h3]; exact increase_capacity_lt v)
      all_goals rfl
    · rfl

/-! ## Sequences of push_back and pop_back -/

theorem Holds.index {m : Mem T} {v : vector} {xs : List T} (h : Holds m v xs) (i : Nat)
    (hi : i < v.size) : v.index i m = (.ok, xs[i]?) := by
  have hsz : v.size_ = xs.length := h.1
  have hi2 : i < xs.length := by rw [← hsz]; exact hi
  unfold vector.index
  have he : v.empty = false := by simp [vector.empty]; omega
  have hi3 : i < v.size_ := hi
  rw [he]
  simp only [Bool.false_eq_true, if_false, hi3, if_true]
  rw [h.slot i hi2, List.getElem?_eq_getElem hi2]

theorem run_spec : ∀ (ops : List (Op T)) (v : vector) (m : Mem T) (xs : List T),
    Holds m v xs → NoFault m → (xs.length + ops.length) * 2 ≤ SIZE_MOD →
    popsNonEmpty ops v m = true →
    ∃ v1 m1, run ops v m = (.ok, v1, m1) ∧ Holds m1 v1 (runModel ops xs) ∧ NoFault m1 ∧
      v1.size_ + pops ops = xs.length + pushes ops := by
  intro ops
  induction ops with
  | nil =>
    intro v m xs h hn _ _
    exact ⟨v, m, rfl, h, hn, by simp [pops, pushes, h.1]⟩
  | cons op rest ih =>
    intro v m xs h hn hlen hpop
    have hsz := h.1
    simp only [List.length_cons] at hlen
    cases op with
    | push_back x =>
      obtain ⟨v1, m1, hp, hv1, _, hfr, _⟩ := push_back_ok h x (by intro he; omega) hn
      simp only [popsNonEmpty, hp] at hpop
      obtain ⟨v2, m2, hr, hv2, hn2, hcount⟩ := ih v1 m1 (xs ++ [x]) hv1 (hfr.2 hn)
        (by simp only [List.length_append, List.length_singleton]; omega) hpop
      refine ⟨v2, m2, ?_, hv2, hn2, ?_⟩
      · simp only [run, Op.apply, hp]; exact hr
      · simp only [List.length_append, List.length_singleton] at hcount
        simp only [pops, pushes]; omega
    | pop_back =>
      simp only [popsNonEmpty, Bool.and_eq_true, Bool.not_eq_true'] at hpop
      have hne : xs ≠ [] := by
        intro he
        have : v.size_ = 0 := by rw [hsz, he]; rfl
        simp [vector.empty, this] at hpop
      obtain ⟨m1, hp, hv1, hu1⟩ := pop_back_spec h hne
      rw [hp] at hpop
      have hl : xs.dropLast.length + 1 = xs.length := by
        have := List.length_pos.mpr hne
        simp only [List.length_dropLast]; omega
      obtain ⟨v2, m2, hr, hv2, hn2, hcount⟩ := ih _ m1 xs.dropLast hv1 (hu1.2 hn)
        (by omega) hpop.2
      refine ⟨v2, m2, ?_, hv2, hn2, ?_⟩
      · simp only [run, Op.apply, hp]; exact hr
      · simp only [pops, pushes]; omega

/-! ## insert -/

theorem list_swap (A G D : List T) (u w : T) :
    ((A ++ u :: (G ++ w :: D)).set A.length w).set (A.length + 1 + G.length) u
      = A ++ w :: (G ++ u :: D) := by
  induction A with
  | nil =>
    simp only [List.nil_append, List.length_nil, List.set_cons_zero, zero_add]
    rw [Nat.add_comm, List.set_cons_succ]
    congr 1
    induction G with
    | nil => simp
    | cons g G ih => simp [ih]
  | cons a A ih =>
    simp only [List.cons_append, List.length_cons, List.set_cons_succ]
    rw [show A.length + 1 + 1 + G.length = (A.length + 1 + G.length) + 1 by omega,
      List.set_cons_succ, ih]

theorem to_size_t_natCast (n : Nat) (h : n < SIZE_MOD) : to_size_t (n : Int) = n := by
  unfold to_size_t
  rw [Int.emod_eq_of_lt (by omega) (by exact_mod_cast h)]
  simp

theorem cells_getElem?_of_some (xs : List T) (k i : Nat) (y : T) (h : xs[i]? = some y) :
    (cells xs k)[i]? = some (some y) := by
  obtain ⟨hi, hy⟩ := List.getElem?_eq_some.mp h
  rw [cells_getElem?_lt _ _ _ hi, hy]

theorem list_getElem?_mid (A D : List T) (u : T) : (A ++ u :: D)[A.length]? = some u := by
  rw [List.getElem?_append_right (le_refl _)]
  simp

theorem cells_getElem_mid (A D : List T) (u : T) (k : Nat) :
    (cells (A ++ u :: D) k)[A.length]? = some (some u) :=
  cells_getElem?_of_some _ _ _ _ (list_getElem?_mid A D u)

theorem insert_loop_spec (a : Nat) (pre : List T) (x : T) (k : Nat) :
    ∀ (post done : List T) (m : Mem T),
      m.block a = some (cells (pre ++ post ++ x :: done) k) →
      ∃ m1, vector.insert_loop post.length ⟨a, ((pre.length + post.length : Nat) : Int)⟩ m
          = (.ok, ⟨a, (pre.length : Int)⟩, m1) ∧
        m.Upd m1 a (some (cells (pre ++ x :: post ++ done) k)) := by
  intro post
  induction post using List.reverseRecOn with
  | nil =>
    intro done m hb
    refine ⟨m, by simp [vector.insert_loop], Mem.Upd.upd_of_same (Mem.Same.same_refl m) ?_⟩
    simpa using hb
  | append_singleton ps y ih =>
    intro done m hb
    have hL : pre ++ (ps ++ [y]) ++ x :: done = (pre ++ ps) ++ y :: ([] ++ x :: done) := by
      simp
    rw [hL] at hb
    have hlen : (ps ++ [y]).length = ps.length + 1 := by simp
    rw [hlen]
    unfold vector.insert_loop
    have hsw := std_swap_spec (m := m)
      (p := (Ptr.mk a ((pre.length + (ps.length + 1) : Nat) : Int)).add (-1))
      (q := Ptr.mk a ((pre.length + (ps.length + 1) : Nat) : Int)) (x := y) (y := x)
      rfl hb (by simp only [Ptr.add_off]; omega) (by simp only; omega)
      (by
        have : ((pre.length + (ps.length + 1) : Nat) : Int) + -1 = ((pre ++ ps).length : Nat) := by
          simp only [List.length_append]; omega
        simp only [Ptr.add_off, this, Int.toNat_ofNat]
        exact cells_getElem_mid _ _ _ _)
      (by
        simp only [Int.toNat_ofNat]
        refine cells_getElem?_of_some _ _ _ _ ?_
        have h1 : pre.length + (ps.length + 1) = (pre ++ ps ++ [y]).length := by
          simp only [List.length_append, List.length_singleton]; omega
        have h2 : pre ++ ps ++ y :: ([] ++ x :: done) = (pre ++ ps ++ [y]) ++ x :: done := by
          simp
        rw [h1, h2]
        exact list_getElem?_mid _ _ _)
    obtain ⟨m1, hs1, hu1⟩ := hsw
    rw [hs1]
    simp only
    have hi : ((Ptr.mk a ((pre.length + (ps.length + 1) : Nat) : Int)).add (-1)).off.toNat
        = (pre ++ ps).length := by
      simp only [Ptr.add_off, List.length_append]; omega
    have hj : (Ptr.mk a ((pre.length + (ps.length + 1) : Nat) : Int)).off.toNat
        = (pre ++ ps).length + 1 + ([] : List T).length := by
      simp only [List.length_append, List.length_nil, Int.toNat_ofNat]; omega
    rw [hi, hj, cells_set_lt _ _ _ _ (by simp),
      cells_set_lt _ _ _ _ (by simp; omega), list_swap] at hu1
    have hptr : (Ptr.mk a ((pre.length + (ps.length + 1) : Nat) : Int)).add (-1)
        = ⟨a, ((pre.length + ps.length : Nat) : Int)⟩ := by
      simp only [Ptr.add, Ptr.mk.injEq, true_and]; omega
    rw [hptr]
    have hb1 : m1.block a = some (cells (pre ++ ps ++ x :: (y :: done)) k) := by
      have := hu1.block_self
      simpa using this
    obtain ⟨m2, h2, hu2⟩ := ih (y :: done) m1 hb1
    refine ⟨m2, h2, ?_⟩
    have := hu1.upd_trans hu2
    simpa using this

theorem Holds.cap_pos {m : Mem T} {v : vector} {xs : List T} (h : Holds m v xs)
    (hne : xs ≠ []) : 0 < v.capacity_ := by
  have := List.length_pos.mpr hne
  have h1 := h.1
  have h2 := h.2.1
  omega

theorem Holds.block {m : Mem T} {v : vector} {xs : List T} (h : Holds m v xs)
    (hc : 0 < v.capacity_) :
    m.block v.data_.block = some (cells xs (v.capacity_ - v.size_)) := h.2.2.2.2.2 hc

/-- A new content for the block of `v` with the same number of elements. -/
theorem Holds.upd {m m1 : Mem T} {v : vector} {xs ys : List T} (h : Holds m v xs)
    (hlen : ys.length = xs.length)
    (hu : m.Upd m1 v.data_.block (some (cells ys (v.capacity_ - v.size_)))) :
    Holds m1 v ys := by
  obtain ⟨h1, h2, h3, h4, h5, h6⟩ := h
  exact ⟨by rw [h1, hlen], h2, h3, h4, h5, fun _ => hu.block_self⟩

theorem insert_spec {m : Mem T} {v : vector} {xs : List T} (h : Holds m v xs) (p : Nat)
    (hp : p ≤ xs.length) (x : T)
    (hov : v.size_ = v.capacity_ → v.capacity_ * 2 < SIZE_MOD) :
    (∃ v1 m1, v.insert (v.begin.add p) x m = (.ok, v1.begin.add p, v1, m1) ∧
      Holds m1 v1 (xs.take p ++ x :: xs.drop p) ∧
      v1.capacity_ = (if v.size_ < v.capacity_ then v.capacity_ else v.increase_capacity) ∧
      Mem.Frame v.data_.block m m1 ∧
      (v1.data_ = v.data_ ∨ m.block v1.data_.block = none)) ∨
    (∃ v1 m1, v.insert (v.begin.add p) x m = (.thrown, nullptr, v1, m1) ∧
      Holds m1 v1 xs ∧ ¬ NoFault m ∧ Mem.Frame v.data_.block m m1 ∧
      (v1 = v ∨ (v.size_ = v.capacity_ ∧ v1.capacity_ = v.increase_capacity ∧
        m.block v1.data_.block = none))) := by
  have hsz := h.1
  have hoff := h.2.2.2.1
  have hlt : xs.length < SIZE_MOD := by have := h.2.1; have := h.2.2.1; omega
  have hdiff : v.end_.diff (v.begin.add p) = some (((xs.length - p : Nat)) : Int) := by
    simp only [Ptr.diff, vector.end_, vector.begin, vector.size, Ptr.add_block, Ptr.add_off,
      if_true, hsz]
    congr 1; omega
  unfold vector.insert
  rw [hdiff]
  simp only
  rw [to_size_t_natCast _ (by omega)]
  rcases push_back_spec h x hov with ⟨v1, m1, hpb, hv1, hcap, hfr, hfresh⟩ |
    ⟨v1, m1, hpb, hv1, hnf, hfr, hcase⟩
  · left
    rw [hpb]
    simp only
    have hp1 := hv1.ptr
    have hsz1 : v1.size_ = xs.length + 1 := by rw [hv1.1]; simp
    have hc1 : 0 < v1.capacity_ := hv1.cap_pos (by simp)
    have hb1 := hv1.block hc1
    have hsplit : xs ++ [x] = xs.take p ++ xs.drop p ++ x :: [] := by
      rw [List.take_append_drop]
    have hlp : (xs.take p).length = p := by simp; omega
    have hld : (xs.drop p).length = xs.length - p := by simp
    rw [hsplit] at hb1
    obtain ⟨m2, hl2, hu2⟩ := insert_loop_spec v1.data_.block (xs.take p) x _ (xs.drop p) [] m1 hb1
    rw [hlp, hld] at hl2
    have hend : v1.end_.add (-1) = ⟨v1.data_.block, ((p + (xs.length - p) : Nat) : Int)⟩ := by
      rw [vector.end_, vector.begin, vector.size, hp1]
      simp only [Ptr.add, Ptr.mk.injEq, true_and, hsz1]
      omega
    rw [hend, hl2]
    have hbeg : v1.begin.add p = ⟨v1.data_.block, (p : Int)⟩ := by
      rw [vector.begin, hp1]; simp [Ptr.add]
    refine ⟨v1, m2, by rw [hbeg], ?_, hcap, ?_, hfresh⟩
    · refine hv1.upd (by simp; omega) ?_
      simpa using hu2
    · refine ⟨fun b blk hb hblk => ?_, fun hn => hu2.2 (hfr.2 hn)⟩
      have hne : b ≠ v1.data_.block := by
        rcases hfresh with he | hnone
        · rw [he]; exact hb
        · intro hbe; rw [hbe, hnone] at hblk; cases hblk
      rw [hu2.block_other hne]
      exact hfr.1 b blk hb hblk
  · right
    rw [hpb]
    exact ⟨v1, m1, rfl, hv1, hnf, hfr, hcase⟩

/-- Without injected failures `insert` inserts. -/
theorem insert_ok {m : Mem T} {v : vector} {xs : List T} (h : Holds m v xs) (p : Nat)
    (hp : p ≤ xs.length) (x : T)
    (hov : v.size_ = v.capacity_ → v.capacity_ * 2 < SIZE_MOD) (hn : NoFault m) :
    ∃ v1 m1, v.insert (v.begin.add p) x m = (.ok, v1.begin.add p, v1, m1) ∧
      Holds m1 v1 (xs.take p ++ x :: xs.drop p) ∧
      v1.capacity_ = (if v.size_ < v.capacity_ then v.capacity_ else v.increase_capacity) ∧
      Mem.Frame v.data_.block m m1 ∧
      (v1.data_ = v.data_ ∨ m.block v1.data_.block = none) := by
  rcases insert_spec h p hp x hov with hok | ⟨_, _, _, _, hnf, _⟩
  · exact hok
  · exact absurd hn hnf

/-! ## erase -/


theorem list_set_self : ∀ (L : List T) (i : Nat) (y : T), L[i]? = some y → L.set i y = L
  | [], _, _, h => by simp at h
  | a :: L, 0, y, h => by
    simp only [List.getElem?_cons_zero, Option.some.injEq] at h
    simp [h]
  | a :: L, i + 1, y, h => by
    simp only [List.getElem?_cons_succ] at h
    simp [list_set_self L i y h]

theorem erase_loop_spec (v : vector) (a : Nat) (k : Nat) (hd : v.data_ = ⟨a, 0⟩) :
    ∀ (R P G : List T) (fuel : Nat) (init : Bool) (result : Ptr) (m : Mem T),
      v.size_ = P.length + G.length + R.length → R.length < fuel →
      m.block a = some (cells (P ++ G ++ R) k) →
      ∃ G1 m1, G1.length = G.length ∧
        vector.erase_loop v fuel ⟨a, (P.length : Int)⟩ ⟨a, ((P.length + G.length : Nat) : Int)⟩
            init result m
          = (.ok, if R.length = 0 then result
                  else (if init then result else ⟨a, (P.length : Int)⟩), m1) ∧
        m.Upd m1 a (some (cells (P ++ R ++ G1) k)) := by
  have hend : ∀ n, v.size_ = n → v.end_.off = (n : Int) := by
    intro n hn
    simp [vector.end_, vector.begin, vector.size, hd, hn]
  intro R
  induction R with
  | nil =>
    intro P G fuel init result m hsz hfuel hb
    obtain ⟨fuel, rfl⟩ : ∃ f, fuel = f + 1 := ⟨fuel - 1, by omega⟩
    refine ⟨G, m, rfl, ?_, Mem.Upd.upd_of_same (Mem.Same.same_refl m) (by simpa using hb)⟩
    unfold vector.erase_loop
    rw [hend _ hsz]
    simp
  | cons y R ih =>
    intro P G fuel init result m hsz hfuel hb
    obtain ⟨fuel, rfl⟩ : ∃ f, fuel = f + 1 := ⟨fuel - 1, by omega⟩
    simp only [List.length_cons] at hsz hfuel
    unfold vector.erase_loop
    rw [hend _ hsz]
    have hcond : ((P.length + G.length : Nat) : Int) < ((P.length + G.length + (R.length + 1) : Nat) : Int) := by
      omega
    simp only [hcond, if_true]
    cases G with
    | nil =>
      simp only [List.length_nil, Nat.add_zero, List.append_nil] at hb hsz ⊢
      have hy : (cells (P ++ y :: R) k)[P.length]? = some (some y) := cells_getElem_mid _ _ _ _
      obtain ⟨m1, hs1, hu1⟩ := std_swap_spec (m := m) (p := ⟨a, (P.length : Int)⟩)
        (q := ⟨a, (P.length : Int)⟩) (x := y) (y := y) rfl hb (by simp) (by simp)
        (by simpa using hy) (by simpa using hy)
      rw [hs1]
      simp only [Int.toNat_ofNat] at hu1
      rw [cells_set_lt _ _ _ _ (by simp), cells_set_lt _ _ _ _ (by simp),
        list_set_self _ _ _ (list_getElem?_mid P R y),
        list_set_self _ _ _ (list_getElem?_mid P R y)] at hu1
      have hb1 : m1.block a = some (cells ((P ++ [y]) ++ [] ++ R) k) := by
        simpa using hu1.block_self
      obtain ⟨G1, m2, hG1, h2, hu2⟩ := ih (P ++ [y]) [] fuel true
        (if init then result else ⟨a, (P.length : Int)⟩) m1 (by simp; omega) (by omega) hb1
      refine ⟨G1, m2, hG1, ?_, ?_⟩
      · simp only [Ptr.add, List.length_append, List.length_singleton, List.length_nil,
          Nat.add_zero, Nat.cast_add, Nat.cast_one] at h2 ⊢
        rw [h2]
        simp
      · have := hu1.upd_trans hu2
        simpa using this
    | cons h G =>
      simp only [List.length_cons] at hsz ⊢
      have hL : P ++ h :: G ++ y :: R = P ++ h :: (G ++ y :: R) := by simp
      rw [hL] at hb
      have hx : (cells (P ++ h :: (G ++ y :: R)) k)[P.length]? = some (some h) :=
        cells_getElem_mid _ _ _ _
      have hy : (cells (P ++ h :: (G ++ y :: R)) k)[P.length + (G.length + 1)]?
          = some (some y) := by
        refine cells_getElem?_of_some _ _ _ _ ?_
        have h1 : P ++ h :: (G ++ y :: R) = (P ++ h :: G) ++ y :: R := by simp
        have h2 : P.length + (G.length + 1) = (P ++ h :: G).length := by simp
        rw [h1, h2]
        exact list_getElem?_mid _ _ _
      obtain ⟨m1, hs1, hu1⟩ := std_swap_spec (m := m) (p := ⟨a, (P.length : Int)⟩)
        (q := ⟨a, ((P.length + (G.length + 1) : Nat) : Int)⟩) (x := h) (y := y) rfl hb
        (by simp) (by simp only; omega) (by simpa using hx) (by simpa using hy)
      rw [hs1]
      simp only [Int.toNat_ofNat] at hu1
      rw [cells_set_lt _ _ _ _ (by simp),
        cells_set_lt _ _ _ _ (by simp),
        show P.length + (G.length + 1) = P.length + 1 + G.length by omega, list_swap] at hu1
      have hb1 : m1.block a = some (cells ((P ++ [y]) ++ (G ++ [h]) ++ R) k) := by
        simpa using hu1.block_self
      obtain ⟨G1, m2, hG1, h2, hu2⟩ := ih (P ++ [y]) (G ++ [h]) fuel true
        (if init then result else ⟨a, (P.length : Int)⟩) m1 (by simp; omega) (by omega) hb1
      refine ⟨G1, m2, by simpa using hG1, ?_, ?_⟩
      · have hq : (Ptr.mk a ((P.length + (G.length + 1) : Nat) : Int)).add 1
            = ⟨a, (((P ++ [y]).length + (G ++ [h]).length : Nat) : Int)⟩ := by
          simp only [Ptr.add, List.length_append, List.length_singleton, Ptr.mk.injEq, true_and]
          omega
        have hp : (Ptr.mk a (P.length : Int)).add 1 = ⟨a, ((P ++ [y]).length : Int)⟩ := by
          simp [Ptr.add]
        simp only
        rw [hq, hp, h2]
        simp
      · have := hu1.upd_trans hu2
        simpa using this

theorem pop_loop_spec : ∀ (n : Nat) (v : vector) (m : Mem T) (xs : List T),
    Holds m v xs → n ≤ xs.length →
    ∃ m1, vector.pop_loop n v m = (.ok, { v with size_ := v.size_ - n }, m1) ∧
      Holds m1 { v with size_ := v.size_ - n } (xs.take (xs.length - n)) ∧
      Mem.Frame v.data_.block m m1 := by
  intro n
  induction n with
  | zero =>
    intro v m xs h _
    refine ⟨m, rfl, ?_, Mem.Frame.frame_of_same _ (Mem.Same.same_refl m)⟩
    simpa using h
  | succ n ih =>
    intro v m xs h hn
    have hne : xs ≠ [] := by
      intro he; rw [he] at hn; simp at hn
    obtain ⟨m1, hp, hv1, hu1⟩ := pop_back_spec h hne
    obtain ⟨m2, hl, hv2, hfr2⟩ := ih _ m1 xs.dropLast hv1 (by simp; omega)
    unfold vector.pop_loop
    rw [hp]
    simp only
    rw [hl]
    have hsz : v.size_ - 1 - n = v.size_ - (n + 1) := by omega
    have htk : xs.dropLast.take (xs.dropLast.length - n) = xs.take (xs.length - (n + 1)) := by
      rw [List.dropLast_eq_take, List.take_take]
      simp only [List.length_take]
      congr 1
      omega
    simp only [hsz] at hv2 ⊢
    rw [htk] at hv2
    exact ⟨m2, rfl, hv2, (Mem.Frame.frame_of_upd hu1).frame_trans hfr2⟩

theorem erase_spec {m : Mem T} {v : vector} {xs : List T} (h : Holds m v xs) (f l : Nat)
    (hfl : f ≤ l) (hl : l ≤ xs.length) :
    ∃ m1, v.erase (v.begin.add f) (v.begin.add l) m
        = (.ok, (if l < xs.length then v.begin.add f else nullptr),
            { v with size_ := v.size_ - (l - f) }, m1) ∧
      Holds m1 { v with size_ := v.size_ - (l - f) } (xs.take f ++ xs.drop l) ∧
      Mem.Frame v.data_.block m m1 := by
  have hsz := h.1
  have hp := h.ptr
  have hlt : xs.length < SIZE_MOD := by have := h.2.1; have := h.2.2.1; omega
  have hd1 : (v.begin.add l).diff v.begin = some ((l : Nat) : Int) := by
    simp [Ptr.diff, vector.begin]
  have hd2 : (v.begin.add l).diff (v.begin.add f) = some (((l - f : Nat)) : Int) := by
    simp only [Ptr.diff, vector.begin, Ptr.add_block, Ptr.add_off, if_true]
    congr 1; omega
  unfold vector.erase
  rw [hd1, hd2]
  simp only [Int.toNat_ofNat]
  rw [to_size_t_natCast _ (by omega)]
  have hbf : v.begin.add f = ⟨v.data_.block, (f : Int)⟩ := by
    rw [vector.begin, hp]; simp [Ptr.add]
  have hbl : v.begin.add l = ⟨v.data_.block, (l : Int)⟩ := by
    rw [vector.begin, hp]; simp [Ptr.add]
  by_cases hxs : xs = []
  · subst hxs
    simp only [List.length_nil, Nat.le_zero_eq] at hl
    subst hl
    have hf0 : f = 0 := by omega
    subst hf0
    have hs0 : v.size_ = 0 := by simpa using hsz
    have hloop : vector.erase_loop v (v.size_ + 1) (v.begin.add (0 : Nat)) (v.begin.add (0 : Nat))
        false nullptr m = (.ok, nullptr, m) := by
      unfold vector.erase_loop
      simp [vector.end_, vector.begin, vector.size, hs0]
    rw [hloop]
    simp only [Nat.sub_self, vector.pop_loop, List.length_nil, lt_irrefl, if_false]
    refine ⟨m, rfl, ?_, Mem.Frame.frame_of_same _ (Mem.Same.same_refl m)⟩
    simpa using h
  · have hc := h.cap_pos hxs
    have hb := h.block hc
    have hP : (xs.take f).length = f := by simp; omega
    have hG : ((xs.drop f).take (l - f)).length = l - f := by simp; omega
    have hR : (xs.drop l).length = xs.length - l := by simp
    have hxs3 : xs = xs.take f ++ (xs.drop f).take (l - f) ++ xs.drop l := by
      have h1 : xs.drop l = (xs.drop f).drop (l - f) := by
        rw [List.drop_drop]; congr 1; omega
      rw [h1, List.append_assoc, List.take_append_drop, List.take_append_drop]
    rw [hxs3] at hb
    obtain ⟨G1, m1, hG1, hloop, hu1⟩ := erase_loop_spec v v.data_.block _ hp (xs.drop l)
      (xs.take f) ((xs.drop f).take (l - f)) (v.size_ + 1) false nullptr m
      (by rw [hP, hG, hR]; omega) (by rw [hR]; omega) hb
    rw [hP, hG] at hloop
    rw [hbf, hbl]
    have hfl2 : f + (l - f) = l := by omega
    rw [hfl2] at hloop
    rw [hloop]
    simp only
    have hv1 : Holds m1 v (xs.take f ++ xs.drop l ++ G1) := by
      refine h.upd ?_ hu1
      simp only [List.length_append, hP, hR, hG1, hG]; omega
    obtain ⟨m2, hpl, hv2, hfr2⟩ := pop_loop_spec (l - f) v m1 _ hv1
      (by simp only [List.length_append, hP, hR, hG1, hG]; omega)
    rw [hpl]
    have htk : (xs.take f ++ xs.drop l ++ G1).take ((xs.take f ++ xs.drop l ++ G1).length - (l - f))
        = xs.take f ++ xs.drop l := by
      have : (xs.take f ++ xs.drop l ++ G1).length - (l - f) = (xs.take f ++ xs.drop l).length := by
        simp only [List.length_append, hP, hR, hG1, hG]; omega
      rw [this, List.take_left]
    rw [htk] at hv2
    refine ⟨m2, ?_, hv2, (Mem.Frame.frame_of_upd hu1).frame_trans hfr2⟩
    have hres : (if (xs.drop l).length = 0 then nullptr
        else if false = true then nullptr else (⟨v.data_.block, (f : Int)⟩ : Ptr))
        = if l < xs.length then ⟨v.data_.block, (f : Int)⟩ else nullptr := by
      rw [hR]
      by_cases hll : l < xs.length
      · have : ¬ (xs.length - l = 0) := by omega
        simp [this, hll]
      · have : xs.length - l = 0 := by omega
        simp [this, hll]
    rw [hres]

/-! ## clear, reserve, shrink_to_fit -/


theorem clear_spec {m : Mem T} {v : vector} {xs : List T} (h : Holds m v xs) :
    ∃ m1, v.clear m = (.ok, { v with size_ := 0 }, m1) ∧
      Holds m1 { v with size_ := 0 } ([] : List T) ∧ Mem.Frame v.data_.block m m1 := by
  have hp := h.ptr
  obtain ⟨h1, h2, h3, h4, h5, h6⟩ := h
  unfold vector.clear
  by_cases hc : v.capacity_ = 0
  · have hs : v.size_ = 0 := by omega
    rw [hs]
    refine ⟨m, rfl, ⟨rfl, Nat.zero_le _, h3, h4, h5, fun hpos => by simp at hpos; omega⟩,
      Mem.Frame.frame_of_same _ (Mem.Same.same_refl m)⟩
  · have hb := h6 (by omega)
    obtain ⟨m1, hd1, hu1⟩ := destroy_all_spec v.data_.block xs _ m hb
    rw [hp, h1, hd1]
    refine ⟨m1, rfl, ⟨rfl, Nat.zero_le _, h3, rfl, fun h0 => absurd h0 hc, fun _ => ?_⟩,
      Mem.Frame.frame_of_upd hu1⟩
    have := hu1.block_self
    rw [show xs.length + (v.capacity_ - v.size_) = v.capacity_ by omega] at this
    simpa using this

theorem reserve_noop (v : vector) (n : Nat) (m : Mem T) (hn : n ≤ v.capacity_) :
    v.reserve n m = (.ok, v, m) := by
  unfold vector.reserve
  rw [if_neg (by omega)]

theorem reserve_spec {m : Mem T} {v : vector} {xs : List T} (h : Holds m v xs) (n : Nat)
    (hn : n < SIZE_MOD) :
    (∃ v1 m1, v.reserve n m = (.ok, v1, m1) ∧ Holds m1 v1 xs ∧
      v1.capacity_ = max v.capacity_ n ∧ Mem.Frame v.data_.block m m1 ∧
      (v1.data_ = v.data_ ∨ m.block v1.data_.block = none)) ∨
    (∃ m1, v.reserve n m = (.thrown, v, m1) ∧ m.Same m1 ∧ ¬ NoFault m) := by
  by_cases hle : n ≤ v.capacity_
  · left
    exact ⟨v, m, reserve_noop v n m hle, h, by rw [max_eq_left hle],
      Mem.Frame.frame_of_same _ (Mem.Same.same_refl m), Or.inl rfl⟩
  · have hlt : v.capacity_ < n := by omega
    unfold vector.reserve
    rw [if_pos hlt]
    rcases new_buffer_spec h n (by have := h.2.1; omega) hn with
      ⟨v1, m1, hn1, hv1, hcap, hfr, _, hfresh, _⟩ | ⟨m1, hn1, hs1, hnf⟩
    · left
      exact ⟨v1, m1, hn1, hv1, by rw [hcap, max_eq_right (by omega)], hfr,
        Or.inr (hfresh (by omega))⟩
    · right
      exact ⟨m1, hn1, hs1, hnf⟩

theorem shrink_to_fit_noop (v : vector) (m : Mem T) (hn : v.capacity_ ≤ v.size_) :
    v.shrink_to_fit m = (.ok, v, m) := by
  unfold vector.shrink_to_fit
  rw [if_neg (by omega)]

theorem shrink_to_fit_spec {m : Mem T} {v : vector} {xs : List T} (h : Holds m v xs) :
    (∃ v1 m1, v.shrink_to_fit m = (.ok, v1, m1) ∧ Holds m1 v1 xs ∧
      v1.capacity_ = v.size_ ∧ Mem.Frame v.data_.block m m1 ∧
      (v1.data_ = v.data_ ∨ m.block v1.data_.block = none)) ∨
    (∃ m1, v.shrink_to_fit m = (.thrown, v, m1) ∧ m.Same m1 ∧ ¬ NoFault m) := by
  by_cases hle : v.capacity_ ≤ v.size_
  · left
    exact ⟨v, m, shrink_to_fit_noop v m hle, h, by have := h.2.1; omega,
      Mem.Frame.frame_of_same _ (Mem.Same.same_refl m), Or.inl rfl⟩
  · have hlt : v.size_ < v.capacity_ := by omega
    unfold vector.shrink_to_fit
    rw [if_pos hlt]
    rcases new_buffer_spec h v.size_ (le_refl _) (by have := h.2.2.1; omega) with
      ⟨v1, m1, hn1, hv1, hcap, hfr, _, hfresh, _⟩ | ⟨m1, hn1, hs1, hnf⟩
    · left
      refine ⟨v1, m1, hn1, hv1, hcap, hfr, ?_⟩
      by_cases h0 : 0 < v.size_
      · exact Or.inr (hfresh h0)
      · right
        have : v1.data_ = nullptr := hv1.2.2.2.2.1 (by omega)
        rw [this]; rfl
    · right
      exact ⟨m1, hn1, hs1, hnf⟩

theorem index_assign_spec {m : Mem T} {v : vector} {xs : List T} (h : Holds m v xs) (i : Nat)
    (x : T) (hi : i < v.size_) :
    (∃ m1, v.index_assign i x m = (.ok, v, m1) ∧ Holds m1 v (xs.set i x) ∧
      Mem.Frame v.data_.block m m1) ∨
    (∃ m1, v.index_assign i x m = (.thrown, v, m1) ∧ m.Same m1 ∧ ¬ NoFault m) := by
  have hsz := h.1
  have hi2 : i < xs.length := by omega
  have hc : 0 < v.capacity_ := by have := h.2.1; omega
  have hb := h.block hc
  have hoff := h.2.2.2.1
  unfold vector.index_assign
  rw [h.index i hi]
  simp only
  rcases hf : m.fault with ⟨f, m0⟩
  have hm0 : m0 = m.fault.2 := by rw [hf]
  have hs0 : m.Same m0 := hm0 ▸ Mem.same_fault m
  cases f with
  | true =>
    right
    exact ⟨m0, rfl, hs0, Mem.fault_true (by rw [hf])⟩
  | false =>
    left
    have hu : m.Upd (m0.store (v.data_.add i) (some x)) v.data_.block
        (some (cells (xs.set i x) (v.capacity_ - v.size_))) := by
      refine ⟨fun c => ?_, fun hn => ?_⟩
      · rw [Mem.block_store, hs0.1]
        by_cases hcb : c = v.data_.block
        · subst hcb
          simp only [Ptr.add_block, if_true, hb, Option.map_some', Ptr.add_off, hoff, zero_add,
            Int.toNat_ofNat]
          rw [cells_set_lt _ _ _ _ hi2]
        · simp [hcb]
      · exact NoFault.of_faults _ m0 (Mem.store_faults m0 _ _) (hs0.2 hn)
    exact ⟨_, rfl, h.upd (by simp) hu, Mem.Frame.frame_of_upd hu⟩

/-! ## Copy construction and copy assignment -/


/-- Blocks live in `m` survive a frame around the null block. -/
theorem Mem.Frame.keeps {m m1 : Mem T} (h : Mem.Frame 0 m m1) {b : Nat}
    {blk : List (Option T)} (hb : m.block b = some blk) : m1.block b = some blk :=
  h.1 b blk (by intro h0; rw [h0] at hb; cases hb) hb

theorem Holds.keep {m m1 : Mem T} {v : vector} {xs : List T} (h : Holds m v xs)
    (hf : Mem.Frame 0 m m1) : Holds m1 v xs := by
  obtain ⟨h1, h2, h3, h4, h5, h6⟩ := h
  exact ⟨h1, h2, h3, h4, h5, fun hc => hf.keeps (h6 hc)⟩

theorem copy_all_zero (dst src : Ptr) (m : Mem T) : vector.copy_all dst src 0 m = (.ok, m) := by
  simp [vector.copy_all, vector.copy_loop]

theorem copy_ctor_spec {m : Mem T} {other : vector} {xs : List T} (h : Holds m other xs) :
    (∃ b m1, vector.copy_ctor other m = (.ok, b, m1) ∧ Holds m1 b xs ∧
      b.capacity_ = other.size_ ∧ Mem.Frame 0 m m1 ∧ m.block b.data_.block = none) ∨
    (∃ b m1, vector.copy_ctor other m = (.thrown, b, m1) ∧ m.Same m1 ∧ ¬ NoFault m) := by
  have hsz := h.1
  have hlt : other.size_ < SIZE_MOD := by have := h.2.1; have := h.2.2.1; omega
  unfold vector.copy_ctor
  rcases new_buffer_spec (Holds.default m) other.size_ (Nat.zero_le _) hlt with
    ⟨v1, m1, hn1, hv1, hcap1, hfr1, _, hfresh1, hext1⟩ | ⟨m1, hn1, hs1, hnf⟩
  · rw [hn1]
    simp only
    have hfr : Mem.Frame 0 m m1 := hfr1
    have ho1 : Holds m1 other xs := h.keep hfr
    by_cases h0 : other.size_ = 0
    · left
      rw [h0, copy_all_zero]
      have hxs : xs = [] := List.length_eq_zero.mp (by omega)
      have hd : v1.data_ = nullptr := hv1.2.2.2.2.1 (by omega)
      refine ⟨_, m1, rfl, ?_, rfl, hfr, ?_⟩
      · subst hxs
        exact ⟨rfl, le_refl _, by simp [SIZE_MOD], hv1.2.2.2.1, fun _ => hd,
          fun hpos => by simp at hpos⟩
      · show m.block v1.data_.block = none
        rw [hd]; rfl
    · have hpos : 0 < other.size_ := by omega
      have hfresh := hfresh1 hpos
      have hp1 := hv1.ptr
      have hne : other.data_.block ≠ v1.data_.block := by
        intro he
        have hb := h.block (by have := h.2.1; omega)
        rw [he, hfresh] at hb; cases hb
      have hb1 := hv1.block (by omega)
      rw [hv1.1, hcap1] at hb1
      have hcopy := copy_all_spec v1.data_.block other.data_ xs other.size_ hne (by omega) m1
        (fun j hj => ho1.slot j hj) (by simpa using hb1)
      rw [← hp1, ← hsz] at hcopy
      rcases hcopy with ⟨m2, hc2, hu2⟩ | ⟨m2, hc2, hu2, hnf⟩
      · left
        rw [hc2]
        refine ⟨_, m2, rfl, ?_, rfl, ?_, hfresh⟩
        · refine ⟨hsz, le_refl _, hlt, hv1.2.2.2.1, fun hz => absurd hz h0, fun _ => ?_⟩
          exact hu2.block_self
        · refine ⟨fun b blk hb hblk => ?_, fun hn => hu2.2 (hfr.2 hn)⟩
          have hbne : b ≠ v1.data_.block := by
            intro hbe; rw [hbe, hfresh] at hblk; cases hblk
          rw [hu2.block_other hbne]
          exact hfr.1 b blk hb hblk
      · right
        rw [hc2]
        simp only
        have ht : Holds m2 v1 ([] : List T) :=
          ⟨hv1.1, hv1.2.1, hv1.2.2.1, hv1.2.2.2.1, hv1.2.2.2.2.1, fun _ => by
            rw [hv1.1, hcap1]; simpa using hu2.block_self⟩
        obtain ⟨m3, hd3, hu3⟩ := destructor_spec ht
        rw [hd3]
        refine ⟨v1, m3, rfl, ⟨fun b => ?_, fun hn => hu3.2 (hu2.2 (hfr.2 hn))⟩,
          fun hn => hnf (hfr.2 hn)⟩
        by_cases hba : b = v1.data_.block
        · rw [hba, hfresh]; exact hu3.block_self
        · rw [hu3.block_other hba, hu2.block_other hba]
          by_cases hb0 : b = 0
          · rw [hb0]; rfl
          · exact hext1 b hb0 hba
  · right
    rw [hn1]
    simp only [destructor_default]
    exact ⟨_, m1, rfl, hs1, hnf⟩


theorem operator_assign_spec {m : Mem T} {v rhs : vector} {xs ys : List T}
    (h : Holds m v xs) (hr : Holds m rhs ys) :
    (∃ v1 m1, v.operator_assign rhs m = (.ok, v1, m1) ∧ Holds m1 v1 ys ∧
      v1.capacity_ = rhs.size_ ∧ Mem.Frame v.data_.block m m1 ∧
      m.block v1.data_.block = none) ∨
    (∃ m1, v.operator_assign rhs m = (.thrown, v, m1) ∧ m.Same m1 ∧ ¬ NoFault m) := by
  unfold vector.operator_assign
  rcases copy_ctor_spec hr with ⟨c, m1, hc1, hv1, hcap, hfr1, hfresh⟩ | ⟨c, m1, hc1, hs1, hnf⟩
  · left
    rw [hc1]
    simp only [vector.swap]
    have hv : Holds m1 v xs := h.keep hfr1
    obtain ⟨m2, hd2, hu2⟩ := destructor_spec hv
    have hd2b : vector.destructor ⟨v.data_, v.size_, v.capacity_⟩ m1 = (.ok, m2) := hd2
    rw [hd2b]
    refine ⟨_, m2, rfl, ?_, hcap, ?_, hfresh⟩
    · refine hv1.of_frame (Mem.Frame.frame_of_upd hu2) (fun hpos => ?_)
      intro he
      have hb := h.block (by
        by_contra hc0
        have : v.data_ = nullptr := h.2.2.2.2.1 (by omega)
        have hz : v.data_.block = 0 := by rw [this]; rfl
        have hb1 := hv1.block hpos
        rw [he, hz] at hb1
        cases hb1)
      rw [← he, hfresh] at hb
      cases hb
    · exact ⟨fun b blk hb hblk => by
        rw [hu2.block_other hb]; exact hfr1.keeps hblk, fun hn => hu2.2 (hfr1.2 hn)⟩
  · right
    rw [hc1]
    exact ⟨m1, rfl, hs1, hnf⟩

/-! ## Independence of two vectors -/


/-- When the byte size does not wrap, the block has the slots asked for. -/
theorem new_buffer_bytes_exact (sizeof_T c : Nat) (hs : 0 < sizeof_T)
    (hc : c * sizeof_T < SIZE_MOD) : new_buffer_bytes sizeof_T c / sizeof_T = c := by
  unfold new_buffer_bytes
  rw [Nat.mod_eq_of_lt hc, Nat.mul_div_cancel _ hs]

/-- The two readings of `new_buffer` agree when the byte size does not wrap. -/
theorem new_buffer_sized_eq (sizeof_T : Nat) (hs : 0 < sizeof_T) (v : vector) (c : Nat)
    (m : Mem T) (hc : c * sizeof_T < SIZE_MOD) :
    vector.new_buffer_sized sizeof_T v c m = vector.new_buffer v c m := by
  unfold vector.new_buffer_sized vector.new_buffer operator_new_bytes
  rw [new_buffer_bytes_exact sizeof_T c hs hc]

/-- The two readings of `reserve` agree when the call does not re-buffer or the byte size
does not wrap. -/
theorem reserve_sized_eq (sizeof_T : Nat) (hs : 0 < sizeof_T) (v : vector) (n : Nat)
    (m : Mem T) (hc : v.capacity_ < n → n * sizeof_T < SIZE_MOD) :
    vector.reserve_sized sizeof_T v n m = vector.reserve v n m := by
  unfold vector.reserve_sized vector.reserve
  by_cases hlt : v.capacity_ < n
  · rw [if_pos hlt, if_pos hlt, new_buffer_sized_eq sizeof_T hs v n m (hc hlt)]
  · rw [if_neg hlt, if_neg hlt]

/-- A byte size that does not wrap is that of a `size_t` count. -/
theorem lt_size_mod_of_bytes (sizeof_T n : Nat) (hs : 0 < sizeof_T)
    (hc : n * sizeof_T < SIZE_MOD) : n < SIZE_MOD :=
  lt_of_le_of_lt (Nat.le_mul_of_pos_right n hs) hc

/-- One valid mutating call on `b`, next to another vector `a`: it ends normally or throws,
`b` still holds some sequence, `a` holds what it held, and the storage of `a` is still not
that of `b`. -/
theorem Mut.step_spec (sizeof_T : Nat) (hs : 0 < sizeof_T) {m : Mem T} {b a : vector}
    {ys xs : List T} (mu : Mut T) (hb : Holds m b ys) (ha : Holds m a xs)
    (hsep : 0 < a.capacity_ → a.data_.block ≠ b.data_.block)
    (hpre : mu.pre sizeof_T a b m) :
    ∃ s b1 m1 ys1, mu.apply sizeof_T b m = (s, b1, m1) ∧ (s = .ok ∨ s = .thrown) ∧
      Holds m1 b1 ys1 ∧ Holds m1 a xs ∧
      (0 < a.capacity_ → a.data_.block ≠ b1.data_.block) := by
  have hsz := hb.1
  have same_or : ∀ {b1 : vector}, (b1.data_ = b.data_ ∨ m.block b1.data_.block = none) →
      (b1.data_.block = b.data_.block ∨ m.block b1.data_.block = none) := by
    intro b1 h
    rcases h with h | h
    · left; rw [h]
    · right; exact h
  have fin : ∀ {s : Status} {b1 : vector} {m1 : Mem T} {ys1 : List T} {r : Status × vector × Mem T},
      r = (s, b1, m1) → (s = .ok ∨ s = .thrown) → Holds m1 b1 ys1 →
      Mem.Frame b.data_.block m m1 →
      (b1.data_.block = b.data_.block ∨ m.block b1.data_.block = none) →
      ∃ s b1 m1 ys1, r = (s, b1, m1) ∧ (s = .ok ∨ s = .thrown) ∧
        Holds m1 b1 ys1 ∧ Holds m1 a xs ∧
        (0 < a.capacity_ → a.data_.block ≠ b1.data_.block) := by
    intro s b1 m1 ys1 r hr hs1 hb1 hfr hblk
    refine ⟨s, b1, m1, ys1, hr, hs1, hb1, ha.of_frame hfr hsep, fun hc => ?_⟩
    rcases hblk with he | hnone
    · rw [he]; exact hsep hc
    · intro he
      have := ha.block hc
      rw [he, hnone] at this
      cases this
  cases mu with
  | push_back x =>
    rcases push_back_spec hb x hpre with ⟨v1, m1, hp, hv1, _, hfr, hfresh⟩ |
      ⟨v1, m1, hp, hv1, _, hfr, hcase⟩
    · exact fin hp (Or.inl rfl) hv1 hfr (same_or hfresh)
    · refine fin hp (Or.inr rfl) hv1 hfr ?_
      rcases hcase with he | ⟨_, _, hfresh⟩
      · left; rw [he]
      · right; exact hfresh
  | pop_back =>
    have hne : ys ≠ [] := by
      intro he; apply hpre; rw [hsz, he]; rfl
    obtain ⟨m1, hp, hv1, hu1⟩ := pop_back_spec hb hne
    exact fin hp (Or.inl rfl) hv1 (Mem.Frame.frame_of_upd hu1) (Or.inl rfl)
  | reserve n =>
    have heq : Mut.apply sizeof_T (Mut.reserve n) b m = b.reserve n m :=
      reserve_sized_eq sizeof_T hs b n m hpre
    by_cases hlt : b.capacity_ < n
    · rcases reserve_spec hb n (lt_size_mod_of_bytes sizeof_T n hs (hpre hlt)) with
        ⟨v1, m1, hp, hv1, _, hfr, hfresh⟩ | ⟨m1, hp, hs1, _⟩
      · exact fin (heq.trans hp) (Or.inl rfl) hv1 hfr (same_or hfresh)
      · exact fin (heq.trans hp) (Or.inr rfl) (hb.frame (hs1.1 _))
          (Mem.Frame.frame_of_same _ hs1) (Or.inl rfl)
    · have hp := reserve_noop b n m (by omega)
      exact fin (heq.trans hp) (Or.inl rfl) hb (Mem.Frame.frame_of_same _ (Mem.Same.same_refl m))
        (Or.inl rfl)
  | shrink_to_fit =>
    rcases shrink_to_fit_spec hb with ⟨v1, m1, hp, hv1, _, hfr, hfresh⟩ | ⟨m1, hp, hs1, _⟩
    · exact fin hp (Or.inl rfl) hv1 hfr (same_or hfresh)
    · exact fin hp (Or.inr rfl) (hb.frame (hs1.1 _)) (Mem.Frame.frame_of_same _ hs1)
        (Or.inl rfl)
  | clear =>
    obtain ⟨m1, hp, hv1, hfr⟩ := clear_spec hb
    exact fin hp (Or.inl rfl) hv1 hfr (Or.inl rfl)
  | insert p x =>
    rcases insert_spec hb p (by rw [← hsz]; exact hpre.1) x hpre.2 with
      ⟨v1, m1, hp, hv1, _, hfr, hfresh⟩ | ⟨v1, m1, hp, hv1, _, hfr, hcase⟩
    · refine fin ?_ (Or.inl rfl) hv1 hfr (same_or hfresh)
      simp only [Mut.apply, hp]
    · refine fin ?_ (Or.inr rfl) hv1 hfr ?_
      · simp only [Mut.apply, hp]
      · rcases hcase with he | ⟨_, _, hfresh⟩
        · left; rw [he]
        · right; exact hfresh
  | erase f l =>
    obtain ⟨m1, hp, hv1, hfr⟩ := erase_spec hb f l hpre.1 (by rw [← hsz]; exact hpre.2)
    refine fin ?_ (Or.inl rfl) hv1 hfr (Or.inl rfl)
    simp only [Mut.apply, hp]
  | index_assign i x =>
    rcases index_assign_spec hb i x hpre with ⟨m1, hp, hv1, hfr⟩ | ⟨m1, hp, hs1, _⟩
    · exact fin hp (Or.inl rfl) hv1 hfr (Or.inl rfl)
    · exact fin hp (Or.inr rfl) (hb.frame (hs1.1 _)) (Mem.Frame.frame_of_same _ hs1)
        (Or.inl rfl)
  | erase_at p =>
    have hpre2 : p < b.size_ := hpre
    obtain ⟨m1, hp, hv1, hfr⟩ := erase_spec hb p (p + 1) (by omega) (by rw [← hsz]; omega)
    have hptr : (b.begin.add p).add 1 = b.begin.add ((p + 1 : Nat) : Int) := by
      simp only [Ptr.add, Ptr.mk.injEq, true_and]; omega
    refine fin ?_ (Or.inl rfl) hv1 hfr (Or.inl rfl)
    simp only [Mut.apply, vector.erase_at, hptr, hp]
  | operator_assign rhs =>
    obtain ⟨zs, hz⟩ := hpre
    rcases operator_assign_spec hb hz with ⟨v1, m1, hp, hv1, _, hfr, hfresh⟩ | ⟨m1, hp, hs1, _⟩
    · exact fin hp (Or.inl rfl) hv1 hfr (Or.inr hfresh)
    · exact fin hp (Or.inr rfl) (hb.frame (hs1.1 _)) (Mem.Frame.frame_of_same _ hs1)
        (Or.inl rfl)
  | swap other =>
    obtain ⟨⟨zs, hz⟩, hne⟩ := hpre
    exact ⟨.ok, other, m, zs, rfl, Or.inl rfl, hz, ha, hne⟩

/-- Valid mutating calls on `b` never touch another vector `a`. -/
theorem mutate_frame (sizeof_T : Nat) (hs : 0 < sizeof_T) :
    ∀ (muts : List (Mut T)) (b : vector) (m : Mem T) (ys : List T)
    (a : vector) (xs : List T), Holds m b ys → Holds m a xs →
    (0 < a.capacity_ → a.data_.block ≠ b.data_.block) → mutatePre sizeof_T a muts b m →
    ∃ s b1 m1 ys1, mutate sizeof_T muts b m = (s, b1, m1) ∧ (s = .ok ∨ s = .thrown) ∧
      Holds m1 b1 ys1 ∧ Holds m1 a xs := by
  intro muts
  induction muts with
  | nil =>
    intro b m ys a xs hb ha _ _
    exact ⟨_, b, m, ys, rfl, Or.inl rfl, hb, ha⟩
  | cons mu rest ih =>
    intro b m ys a xs hb ha hsep hpre
    obtain ⟨s, b1, m1, ys1, hap, hs1, hb1, ha1, hsep1⟩ :=
      Mut.step_spec sizeof_T hs mu hb ha hsep hpre.1
    have hpre2 := hpre.2
    rw [hap] at hpre2
    obtain ⟨s2, b2, m2, ys2, hm2, hs2, hb2, ha2⟩ := ih b1 m1 ys1 a xs hb1 ha1 hsep1 hpre2
    refine ⟨s2, b2, m2, ys2, ?_, hs2, hb2, ha2⟩
    unfold mutate
    rw [hap]
    rcases hs1 with hs1 | hs1 <;> subst hs1 <;> exact hm2

/-! ## Capacity growth -/


theorem run_append_ok : ∀ (ops1 ops2 : List (Op T)) (v : vector) (m : Mem T) (v1 : vector)
    (m1 : Mem T), run ops1 v m = (.ok, v1, m1) → run (ops1 ++ ops2) v m = run ops2 v1 m1 := by
  intro ops1
  induction ops1 with
  | nil =>
    intro ops2 v m v1 m1 h
    simp only [run, Prod.mk.injEq, true_and] at h
    obtain ⟨rfl, rfl⟩ := h
    rfl
  | cons op rest ih =>
    intro ops2 v m v1 m1 h
    simp only [List.cons_append, run] at h ⊢
    rcases hap : op.apply v m with ⟨s, v2, m2⟩
    rw [hap] at h
    cases s with
    | ok => exact ih ops2 v2 m2 v1 m1 h
    | thrown => simp at h
    | abort => simp at h
    | fuel => simp at h

theorem popsNonEmpty_pushes : ∀ (xs : List T) (v : vector) (m : Mem T),
    popsNonEmpty (xs.map Op.push_back) v m = true := by
  intro xs
  induction xs with
  | nil => intro v m; rfl
  | cons x xs ih => intro v m; simp only [List.map_cons, popsNonEmpty]; exact ih _ _

theorem runModel_pushes : ∀ (xs ys : List T), runModel (xs.map Op.push_back) ys = ys ++ xs := by
  intro xs
  induction xs with
  | nil => intro ys; simp [runModel]
  | cons x xs ih => intro ys; simp [runModel, Op.model, ih]

theorem Grown.grown_step {n c : Nat} (h : Grown n c) (hle : n ≤ c) :
    Grown (n + 1) (if n < c then c else if 0 < c then c * 2 else 1) := by
  rcases h with ⟨rfl, rfl⟩ | ⟨k, rfl, hk1, hk2⟩
  · right
    exact ⟨0, by simp, by simp, Or.inl rfl⟩
  · right
    by_cases hlt : n < 2 ^ k
    · rw [if_pos hlt]
      refine ⟨k, rfl, hlt, ?_⟩
      rcases hk2 with h0 | h1
      · exact Or.inl h0
      · exact Or.inr (by omega)
    · rw [if_neg hlt, if_pos (Nat.pos_pow_of_pos k (by decide))]
      have hn : n = 2 ^ k := by omega
      refine ⟨k + 1, by rw [pow_succ], ?_, Or.inr ?_⟩
      · have hpos : 0 < 2 ^ k := Nat.pos_pow_of_pos k (by decide)
        rw [pow_succ]; omega
      · rw [Nat.add_sub_cancel, ← hn]; exact Nat.lt_succ_self n

theorem Grown.least {n c : Nat} (h : Grown n c) (hn : 1 ≤ n) :
    ∃ k, c = 2 ^ k ∧ n ≤ 2 ^ k ∧ ∀ j, n ≤ 2 ^ j → 2 ^ k ≤ 2 ^ j := by
  rcases h with ⟨rfl, _⟩ | ⟨k, rfl, hk1, hk2⟩
  · omega
  · refine ⟨k, rfl, hk1, fun j hj => ?_⟩
    rcases hk2 with rfl | hlt
    · simpa using Nat.one_le_two_pow
    · have hjk : 2 ^ (k - 1) < 2 ^ j := by omega
      have : k - 1 < j := (Nat.pow_lt_pow_iff_right (by decide)).mp hjk
      exact Nat.pow_le_pow_right (by decide) (by omega)

theorem pushes_grow : ∀ (xs : List T) (v : vector) (m : Mem T) (ys : List T),
    Holds m v ys → NoFault m → (ys.length + xs.length) * 2 ≤ SIZE_MOD →
    Grown ys.length v.capacity_ →
    ∃ v1 m1, run (xs.map Op.push_back) v m = (.ok, v1, m1) ∧ Holds m1 v1 (ys ++ xs) ∧
      Grown (ys.length + xs.length) v1.capacity_ := by
  intro xs
  induction xs with
  | nil =>
    intro v m ys h _ _ hg
    exact ⟨v, m, rfl, by simpa using h, by simpa using hg⟩
  | cons x xs ih =>
    intro v m ys h hn hlen hg
    have hsz := h.1
    have hle := h.2.1
    simp only [List.length_cons] at hlen
    have hov : v.size_ = v.capacity_ → v.capacity_ * 2 < SIZE_MOD := by intro he; omega
    obtain ⟨v1, m1, hp, hv1, hcap, hfr, _⟩ := push_back_ok h x hov hn
    have hg1 : Grown (ys ++ [x]).length v1.capacity_ := by
      have := hg.grown_step (by omega)
      rw [hcap]
      simp only [List.length_append, List.length_singleton]
      by_cases hlt : v.size_ < v.capacity_
      · rw [if_pos hlt]
        rw [if_pos (by omega)] at this
        exact this
      · rw [if_neg hlt, increase_capacity_eq v (hov (by omega))]
        rw [if_neg (by omega)] at this
        exact this
    obtain ⟨v2, m2, hr, hv2, hg2⟩ := ih v1 m1 (ys ++ [x]) hv1 (hfr.2 hn)
      (by simp only [List.length_append, List.length_singleton]; omega) hg1
    refine ⟨v2, m2, ?_, by simpa using hv2, ?_⟩
    · simp only [List.map_cons, run, Op.apply, hp]; exact hr
    · simp only [List.length_append, List.length_singleton] at hg2
      simp only [List.length_cons]
      rwa [show ys.length + (xs.length + 1) = ys.length + 1 + xs.length by omega]

/-! ## Further lemmas -/

theorem list_insert_erase (xs : List T) (p : Nat) (x : T) (hp : p ≤ xs.length) :
    (xs.take p ++ x :: xs.drop p).take p ++ (xs.take p ++ x :: xs.drop p).drop (p + 1) = xs := by
  have hlp : (xs.take p).length = p := by simp; omega
  have h1 : (xs.take p ++ x :: xs.drop p).take p = xs.take p := by
    exact List.take_left' hlp
  have h2 : (xs.take p ++ x :: xs.drop p).drop (p + 1) = xs.drop p := by
    have : xs.take p ++ x :: xs.drop p = (xs.take p ++ [x]) ++ xs.drop p := by simp
    rw [this]
    have hl : (xs.take p ++ [x]).length = p + 1 := by simp; omega
    exact List.drop_left' hl
  rw [h1, h2, List.take_append_drop]

theorem erase_at_spec {m : Mem T} {v : vector} {xs : List T} (h : Holds m v xs) (p : Nat)
    (hp : p < xs.length) :
    ∃ r m1, v.erase_at (v.begin.add p) m = (.ok, r, { v with size_ := v.size_ - 1 }, m1) ∧
      Holds m1 { v with size_ := v.size_ - 1 } (xs.take p ++ xs.drop (p + 1)) ∧
      Mem.Frame v.data_.block m m1 := by
  obtain ⟨m1, he, hv1, hfr⟩ := erase_spec h p (p + 1) (by omega) (by omega)
  have hptr : (v.begin.add p).add 1 = v.begin.add ((p + 1 : Nat) : Int) := by
    simp only [Ptr.add, Ptr.mk.injEq, true_and]; omega
  have hs : v.size_ - (p + 1 - p) = v.size_ - 1 := by omega
  rw [hs] at he hv1
  exact ⟨_, m1, by rw [vector.erase_at, hptr, he], hv1, hfr⟩

/-- Erasing an empty range leaves the vector alone; the returned position is `first` when
`first` is not the end position, and the null pointer when it is. -/
theorem erase_empty_range {m : Mem T} {v : vector} {xs : List T} (h : Holds m v xs) (p : Nat)
    (hp : p ≤ xs.length) :
    ∃ m1, v.erase (v.begin.add p) (v.begin.add p) m
        = (.ok, (if p < xs.length then v.begin.add p else nullptr), v, m1) ∧
      Holds m1 v xs := by
  obtain ⟨m1, he, hv1, _⟩ := erase_spec h p p (le_refl _) hp
  rw [Nat.sub_self, List.take_append_drop] at hv1
  rw [Nat.sub_self] at he
  exact ⟨m1, he, hv1⟩

theorem Holds.front {m : Mem T} {v : vector} {xs : List T} (h : Holds m v xs)
    (he : v.empty = false) : v.front m = (.ok, xs[0]?) := by
  have hsz := h.1
  have hpos : 0 < xs.length := by
    simp only [vector.empty, beq_eq_false_iff_ne, ne_eq] at he; omega
  unfold vector.front
  rw [he]
  simp only [Bool.false_eq_true, if_false]
  have := h.slot 0 hpos
  simp only [Nat.cast_zero] at this
  rw [this, List.getElem?_eq_getElem hpos]

theorem Holds.back {m : Mem T} {v : vector} {xs : List T} (h : Holds m v xs)
    (he : v.empty = false) : v.back m = (.ok, xs[v.size - 1]?) := by
  have hsz := h.1
  have hpos : 0 < xs.length := by
    simp only [vector.empty, beq_eq_false_iff_ne, ne_eq] at he; omega
  unfold vector.back
  rw [he]
  simp only [Bool.false_eq_true, if_false]
  have hlt : v.size_ - 1 < xs.length := by omega
  have := h.slot (v.size_ - 1) hlt
  have hc : ((v.size_ - 1 : Nat) : Int) = (v.size_ : Int) - 1 := by omega
  rw [hc] at this
  rw [this]
  show _ = (Status.ok, xs[v.size_ - 1]?)
  rw [List.getElem?_eq_getElem hlt]

theorem allocations_append (t1 t2 : List Event) :
    allocations (t1 ++ t2) = allocations t1 + allocations t2 := by
  unfold allocations
  exact List.countP_append _ _ _

theorem Mem.trace_fault (m : Mem T) : m.fault.2.trace = m.trace := by
  unfold Mem.fault; cases m.faults <;> rfl

theorem Mem.store_trace (m : Mem T) (p : Ptr) (s : Option T) :
    (m.store p s).trace = m.trace := by
  unfold Mem.store; cases m.block p.block <;> rfl

/-- The trace of a successful placement construction. -/
theorem construct_trace {p : Ptr} {x : T} {m m1 : Mem T} (h : construct p x m = (.ok, m1)) :
    m1.trace = m.trace ++ [.construct p] := by
  unfold construct at h
  split at h
  · simp at h
  · rcases hf : m.fault with ⟨f, m0⟩
    have hm0 : m0.trace = m.trace := by rw [← Mem.trace_fault m, hf]
    rw [hf] at h
    cases f
    · simp only [Prod.mk.injEq, true_and] at h
      rw [← h, hm0]
    · simp at h

/-- Appends into free slots: no re-buffering, the capacity and the storage pointer stay,
and no allocation is recorded. -/
theorem pushes_free : ∀ (xs : List T) (v : vector) (m : Mem T) (ys : List T),
    Holds m v ys → NoFault m → ys.length + xs.length ≤ v.capacity_ →
    ∃ v1 m1, run (xs.map Op.push_back) v m = (.ok, v1, m1) ∧ Holds m1 v1 (ys ++ xs) ∧
      v1.capacity_ = v.capacity_ ∧ v1.data_ = v.data_ ∧
      allocations m1.trace = allocations m.trace := by
  intro xs
  induction xs with
  | nil =>
    intro v m ys h _ _
    exact ⟨v, m, rfl, by simpa using h, rfl, rfl, rfl⟩
  | cons x xs ih =>
    intro v m ys h hn hlen
    have hsz := h.1
    simp only [List.length_cons] at hlen
    have hlt : v.size_ < v.capacity_ := by omega
    rcases push_back_free_spec h x hlt 2 with ⟨m1, hp, hu1⟩ | ⟨_, _, _, hnf⟩
    · have hv1 := h.push x hlt hu1
      have htr : m1.trace = m.trace ++ [.construct (v.data_.add v.size_)] := by
        rw [vector.push_back_fuel, if_pos hlt] at hp
        rcases hc : construct (v.data_.add v.size_) x m with ⟨s, mc⟩
        rw [hc] at hp
        cases s <;> simp only [Prod.mk.injEq, true_and, false_and, reduceCtorEq] at hp
        rw [← hp]
        exact construct_trace hc
      obtain ⟨v2, m2, hr, hv2, hcap, hdat, hal⟩ := ih _ m1 (ys ++ [x]) hv1 (hu1.2 hn)
        (by simp only [List.length_append, List.length_singleton]; show _ ≤ v.capacity_; omega)
      refine ⟨v2, m2, ?_, by simpa using hv2, hcap, hdat, ?_⟩
      · simp only [List.map_cons, run, Op.apply]
        have hp2 : v.push_back x m = (.ok, { v with size_ := v.size_ + 1 }, m1) := hp
        rw [hp2]; exact hr
      · rw [hal, htr, allocations_append]
        simp [allocations, Event.isAlloc]
    · exact absurd hn hnf

theorem Mem.fault_cons {m : Mem T} {b : Bool} {rest : List Bool} (h : m.faults = b :: rest) :
    m.fault = (b, { m with faults := rest }) := by
  unfold Mem.fault
  rw [h]

/-- A placement construction whose script entry is `b`: it throws exactly when `b` is
true, consumes the entry, and records nothing when it throws. -/
theorem construct_script {m : Mem T} {p : Ptr} {s : Option T} (x : T) {b : Bool}
    {rest : List Bool} (hs : m.slot p = some s) (hf : m.faults = b :: rest) :
    (construct p x m).1 = (if b then Status.thrown else Status.ok) ∧
    (construct p x m).2.faults = rest ∧
    (b = true → (construct p x m).2.trace = m.trace) := by
  unfold construct
  rw [hs, Mem.fault_cons hf]
  cases b
  · refine ⟨rfl, ?_, fun h => by cases h⟩
    show (Mem.store _ p (some x)).faults = rest
    rw [Mem.store_faults]
  · exact ⟨rfl, rfl, fun _ => rfl⟩

theorem destroy_trace {p : Ptr} {m m1 : Mem T} (h : destroy p m = (.ok, m1)) :
    m1.trace = m.trace ++ [.destroy p] ∧ m1.faults = m.faults := by
  unfold destroy at h
  split at h
  · simp only [Prod.mk.injEq, true_and] at h
    rw [← h]
    exact ⟨rfl, Mem.store_faults m p none⟩
  · simp at h

/-- The trace of `destroy_all`: one destruction per element, from the last one down to the
first. -/
theorem destroy_all_trace (d : Ptr) : ∀ (i : Nat) (m m1 : Mem T),
    vector.destroy_all d i m = (.ok, m1) →
    m1.trace = m.trace ++ (List.range i).reverse.map (fun j => Event.destroy (d.add (j : Nat))) ∧
    m1.faults = m.faults := by
  intro i
  induction i with
  | zero =>
    intro m m1 h
    simp only [vector.destroy_all, Prod.mk.injEq, true_and] at h
    rw [← h]; simp
  | succ i ih =>
    intro m m1 h
    rw [vector.destroy_all] at h
    rcases hd : destroy (d.add (i : Nat)) m with ⟨s, m0⟩
    rw [hd] at h
    cases s <;> simp only [Prod.mk.injEq, false_and, reduceCtorEq] at h
    · obtain ⟨ht0, hf0⟩ := destroy_trace hd
      obtain ⟨ht1, hf1⟩ := ih m0 m1 h
      refine ⟨?_, by rw [hf1, hf0]⟩
      rw [ht1, ht0, List.range_succ, List.reverse_append]
      simp

theorem cells_getElem?_raw (xs : List T) (k i : Nat) (h1 : xs.length ≤ i)
    (h2 : i < xs.length + k) : (cells xs k)[i]? = some none := by
  unfold cells
  rw [List.getElem?_append_right (by simpa using h1)]
  have hlt : i - (List.map some xs).length < (List.replicate k (none : Option T)).length := by
    simp only [List.length_map, List.length_replicate]; omega
  rw [List.getElem?_eq_getElem hlt]
  simp

/-- The `try` block of `copy_all` when the first `k` copies succeed and the next one
throws: it stops with `i` advanced by `k`, having constructed exactly those `k` elements in
index order. -/
theorem copy_loop_fail (a : Nat) (src : Ptr) (xs : List T) (cap : Nat) (rest : List Bool)
    (hne : src.block ≠ a) (hcap : xs.length ≤ cap) :
    ∀ (k n i : Nat) (m : Mem T), i + n = xs.length → k < n →
      (∀ j (h : j < xs.length), m.slot (src.add j) = some (some xs[j])) →
      m.block a = some (cells (xs.take i) (cap - i)) →
      m.faults = List.replicate k false ++ true :: rest →
      ∃ m1, vector.copy_loop ⟨a, 0⟩ src n i m = (.thrown, i + k, m1) ∧
        m1.block a = some (cells (xs.take (i + k)) (cap - (i + k))) ∧
        (∀ b, b ≠ a → m1.block b = m.block b) ∧
        m1.trace = m.trace ++
          (List.range k).map (fun j => Event.construct ((Ptr.mk a 0).add ((i + j : Nat) : Int))) ∧
        m1.faults = rest := by
  intro k
  induction k with
  | zero =>
    intro n i m hi hk hsrc hb hf
    obtain ⟨n, rfl⟩ : ∃ n0, n = n0 + 1 := ⟨n - 1, by omega⟩
    have hilt : i < xs.length := by omega
    simp only [List.replicate_zero, List.nil_append] at hf
    have hslot : m.slot ((Ptr.mk a 0).add (i : Nat)) = some none := by
      have hb0 : m.block ((Ptr.mk a 0).add (i : Nat)).block = some (cells (xs.take i) (cap - i)) :=
        hb
      rw [Mem.slot_eq hb0 (by simp)]
      simp only [Ptr.add_off, zero_add, Int.toNat_ofNat]
      have hl : (xs.take i).length = i := by simp; omega
      exact cells_getElem?_raw _ _ _ (by omega) (by omega)
    obtain ⟨hst, hfl, htr⟩ := construct_script xs[i] hslot hf
    rcases hc : construct ((Ptr.mk a 0).add (i : Nat)) xs[i] m with ⟨s, m1⟩
    rw [hc] at hst hfl htr
    simp only [if_true] at hst
    subst hst
    have hcs := construct_spec (m := m) (p := (Ptr.mk a 0).add (i : Nat)) xs[i] hb (by simp)
      (by simp; omega)
    rw [hc] at hcs
    rcases hcs with ⟨m2, he, hsame, _⟩ | ⟨m2, he, _⟩
    · simp only [Prod.mk.injEq, true_and] at he
      subst he
      refine ⟨m1, ?_, by rw [hsame.1]; simpa using hb, fun b _ => hsame.1 b, by
        rw [htr rfl]; simp, hfl⟩
      rw [vector.copy_loop, hsrc i hilt]
      simp only
      rw [hc]
      rfl
    · simp at he
  | succ k ih =>
    intro n i m hi hk hsrc hb hf
    obtain ⟨n, rfl⟩ : ∃ n0, n = n0 + 1 := ⟨n - 1, by omega⟩
    have hilt : i < xs.length := by omega
    have hf2 : m.faults = false :: (List.replicate k false ++ true :: rest) := by
      rw [hf, List.replicate_succ]; rfl
    have hslot : m.slot ((Ptr.mk a 0).add (i : Nat)) = some none := by
      have hb0 : m.block ((Ptr.mk a 0).add (i : Nat)).block = some (cells (xs.take i) (cap - i)) :=
        hb
      rw [Mem.slot_eq hb0 (by simp)]
      simp only [Ptr.add_off, zero_add, Int.toNat_ofNat]
      have hl : (xs.take i).length = i := by simp; omega
      exact cells_getElem?_raw _ _ _ (by omega) (by omega)
    obtain ⟨hst, hfl, _⟩ := construct_script xs[i] hslot hf2
    rcases hc : construct ((Ptr.mk a 0).add (i : Nat)) xs[i] m with ⟨s, m1⟩
    rw [hc] at hst hfl
    simp only [Bool.false_eq_true, if_false] at hst
    subst hst
    have htr1 := construct_trace hc
    have hcs := construct_spec (m := m) (p := (Ptr.mk a 0).add (i : Nat)) xs[i] hb (by simp)
      (by simp; omega)
    rw [hc] at hcs
    rcases hcs with ⟨m2, he, _⟩ | ⟨m2, he, hu⟩
    · simp at he
    · simp only [Prod.mk.injEq, true_and] at he
      subst he
      simp only [Ptr.add_off, zero_add, Int.toNat_ofNat, Ptr.add_block] at hu
      have hpush : (cells (xs.take i) (cap - i)).set i (some xs[i])
          = cells (xs.take (i + 1)) (cap - (i + 1)) := by
        have h1 : cap - i = (cap - (i + 1)) + 1 := by omega
        have h2 : (xs.take i).length = i := by simp; omega
        have h3 := cells_push (xs.take i) (cap - (i + 1)) xs[i]
        rw [h2] at h3
        rw [h1, h3, List.take_succ, List.getElem?_eq_getElem hilt]
        simp
      rw [hpush] at hu
      have hsrc1 : ∀ j (h : j < xs.length), m1.slot (src.add j) = some (some xs[j]) := by
        intro j h
        rw [Mem.slot_congr (src.add j) (hu.block_other (by simpa using hne))]
        exact hsrc j h
      obtain ⟨m3, hl, hb3, hoth, htr3, hf3⟩ := ih n (i + 1) m1 (by omega) (by omega) hsrc1
        hu.block_self hfl
      refine ⟨m3, ?_, ?_, fun b hb0 => by rw [hoth b hb0, hu.block_other hb0], ?_, hf3⟩
      · rw [vector.copy_loop, hsrc i hilt]
        simp only
        rw [hc]
        simp only
        rw [hl, show i + 1 + k = i + (k + 1) by omega]
      · rw [hb3, show i + 1 + k = i + (k + 1) by omega]
      · rw [htr3, htr1, List.range_succ_eq_map, List.append_assoc]
        congr 1
        simp only [List.map_cons, List.map_map, Nat.add_zero, List.singleton_append,
          List.cons.injEq, true_and]
        apply List.map_congr_left
        intro j _
        simp only [Function.comp, Nat.succ_eq_add_one]
        rw [show i + 1 + j = i + (j + 1) by omega]

theorem new_buffer_size_le (v : vector) (c : Nat) (m : Mem T) (h : v.size_ ≤ v.capacity_) :
    (vector.new_buffer v c m).2.1.size_ ≤ (vector.new_buffer v c m).2.1.capacity_ := by
  unfold vector.new_buffer
  by_cases hlt : c < v.size_
  · simpa [hlt] using h
  · simp only [hlt, if_false, vector.swap]
    by_cases hc : 0 < c
    · simp only [hc, if_true]
      rcases operator_new c m with ⟨s, p, m2⟩
      cases s
      · simp only
        rcases vector.copy_all p v.data_ v.size_ m2 with ⟨s2, m3⟩
        cases s2
        · simp only
          rcases vector.destructor
            { data_ := v.data_, size_ := v.size_, capacity_ := v.capacity_ } m3 with ⟨s3, m4⟩
          cases s3 <;> simp only <;> omega
        · simp only
          rcases vector.destructor
            { data_ := p, size_ := vector.default.size_, capacity_ := c } m3 with ⟨s3, m4⟩
          cases s3 <;> exact h
        · exact h
        · exact h
      all_goals
        simp only
        rcases vector.destructor vector.default m2 with ⟨s3, m4⟩
        cases s3 <;> exact h
    · simp only [hc, if_false]
      rcases vector.destructor
        { data_ := v.data_, size_ := v.size_, capacity_ := v.capacity_ } m with ⟨s3, m4⟩
      cases s3 <;> simp [vector.default]

theorem push_back_fuel_size_le : ∀ (fuel : Nat) (v : vector) (x : T) (m : Mem T),
    v.size_ ≤ v.capacity_ →
    (vector.push_back_fuel fuel v x m).2.1.size_ ≤ (vector.push_back_fuel fuel v x m).2.1.capacity_ := by
  intro fuel
  induction fuel with
  | zero => intro v x m h; exact h
  | succ fuel ih =>
    intro v x m h
    rw [vector.push_back_fuel]
    by_cases hlt : v.size_ < v.capacity_
    · rw [if_pos hlt]
      rcases construct (v.data_.add v.size_) x m with ⟨s, m1⟩
      cases s
      · simp only; omega
      all_goals exact h
    · rw [if_neg hlt]
      rcases m.fault with ⟨f, m0⟩
      cases f
      · simp only
        have hnb := new_buffer_size_le v v.increase_capacity m0 h
        rcases hr : vector.new_buffer v v.increase_capacity m0 with ⟨s, v1, m1⟩
        rw [hr] at hnb
        cases s
        · exact ih v1 x m1 hnb
        all_goals exact hnb
      · exact h

theorem pop_back_size_le (v : vector) (m : Mem T) (h : v.size_ ≤ v.capacity_) :
    (v.pop_back m).2.1.size_ ≤ (v.pop_back m).2.1.capacity_ := by
  unfold vector.pop_back
  split
  · exact h
  · rcases destroy (v.data_.add ((v.size_ : Int) - 1)) m with ⟨s, m1⟩
    cases s
    · simp only; omega
    all_goals exact h

theorem pop_loop_size_le : ∀ (n : Nat) (v : vector) (m : Mem T), v.size_ ≤ v.capacity_ →
    (vector.pop_loop n v m).2.1.size_ ≤ (vector.pop_loop n v m).2.1.capacity_ := by
  intro n
  induction n with
  | zero => intro v m h; exact h
  | succ n ih =>
    intro v m h
    rw [vector.pop_loop]
    have hp := pop_back_size_le v m h
    rcases hr : v.pop_back m with ⟨s, v1, m1⟩
    rw [hr] at hp
    cases s
    · exact ih v1 m1 hp
    all_goals exact hp

theorem copy_ctor_size_le (other : vector) (m : Mem T) :
    (vector.copy_ctor other m).2.1.size_ ≤ (vector.copy_ctor other m).2.1.capacity_ := by
  unfold vector.copy_ctor
  have hnb := new_buffer_size_le vector.default other.size_ m (le_refl _)
  rcases hr : vector.new_buffer vector.default other.size_ m with ⟨s, v1, m1⟩
  rw [hr] at hnb
  cases s
  · simp only
    rcases vector.copy_all v1.data_ other.data_ other.size_ m1 with ⟨s2, m2⟩
    cases s2
    · exact le_refl _
    · simp only
      rcases vector.destructor v1 m2 with ⟨s3, m3⟩
      cases s3 <;> exact hnb
    · exact hnb
    · exact hnb
  · simp only
    rcases vector.destructor v1 m1 with ⟨s3, m3⟩
    cases s3 <;> exact hnb
  · exact hnb
  · exact hnb

theorem operator_assign_size_le (v rhs : vector) (m : Mem T) (h : v.size_ ≤ v.capacity_) :
    (v.operator_assign rhs m).2.1.size_ ≤ (v.operator_assign rhs m).2.1.capacity_ := by
  unfold vector.operator_assign
  have hc := copy_ctor_size_le rhs m
  rcases hr : vector.copy_ctor rhs m with ⟨s, c, m1⟩
  rw [hr] at hc
  cases s
  · simp only [vector.swap]
    rcases vector.destructor
      { data_ := v.data_, size_ := v.size_, capacity_ := v.capacity_ } m1 with ⟨s3, m3⟩
    cases s3 <;> exact hc
  all_goals exact h

theorem insert_size_le (v : vector) (pos : Ptr) (x : T) (m : Mem T) (h : v.size_ ≤ v.capacity_) :
    (v.insert pos x m).2.2.1.size_ ≤ (v.insert pos x m).2.2.1.capacity_ := by
  unfold vector.insert
  rcases v.end_.diff pos with _ | d
  · exact h
  · simp only
    have hp := push_back_fuel_size_le 3 v x m h
    rcases hr : v.push_back x m with ⟨s, v1, m1⟩
    have hr2 : vector.push_back_fuel 3 v x m = (s, v1, m1) := hr
    rw [hr2] at hp
    cases s
    · exact hp
    all_goals exact hp

theorem erase_size_le (v : vector) (first last : Ptr) (m : Mem T) (h : v.size_ ≤ v.capacity_) :
    (v.erase first last m).2.2.1.size_ ≤ (v.erase first last m).2.2.1.capacity_ := by
  unfold vector.erase
  rcases last.diff v.begin with _ | d
  · exact h
  · rcases last.diff first with _ | len
    · exact h
    · simp only
      rcases vector.erase_loop v (v.size_ + 1) first (v.begin.add (to_size_t d)) false nullptr m
        with ⟨s, r, m1⟩
      cases s
      · exact pop_loop_size_le _ v m1 h
      all_goals exact h

/-- The assertion of `new_buffer`: a target capacity below the size stops the call. -/
theorem new_buffer_assert_fails (v : vector) (c : Nat) (m : Mem T) (h : c < v.size_) :
    vector.new_buffer v c m = (.abort, v, m) := by
  unfold vector.new_buffer
  rw [if_pos h]

/-- When nothing fails and the byte size `n * sizeof(T)` of a re-buffering does not wrap,
`reserve(n)` ends normally with capacity `max(old capacity, n)`; size and the element at
every index are unchanged; and when `n` does not exceed the capacity the call changes
nothing at all. -/
theorem reserve_sized_ok (sizeof_T : Nat) (hs : 0 < sizeof_T) (m : Mem T) (v : vector)
    (xs : List T) (n : Nat) (h : Holds m v xs) (hn : NoFault m)
    (hb : v.capacity_ < n → n * sizeof_T < SIZE_MOD) :
    ∃ v1 m1, v.reserve_sized sizeof_T n m = (.ok, v1, m1) ∧
      v1.capacity = max v.capacity n ∧ n ≤ v1.capacity ∧ v1.size = v.size ∧
      (∀ i, i < v.size → v1.index i m1 = v.index i m) ∧
      (n ≤ v.capacity → v1 = v ∧ m1 = m) := by
  have hsz : n < SIZE_MOD := by
    by_cases hlt : v.capacity_ < n
    · exact lt_size_mod_of_bytes sizeof_T n hs (hb hlt)
    · have := h.2.2.1
      omega
  rw [reserve_sized_eq sizeof_T hs v n m hb]
  rcases reserve_spec h n hsz with ⟨v1, m1, hr, hv1, hcap, _, _⟩ | ⟨_, _, _, hnf⟩
  · have hs1 : v1.size = v.size := by
      show v1.size_ = v.size_
      rw [hv1.1, h.1]
    refine ⟨v1, m1, hr, hcap, ?_, hs1, fun i hi => ?_, fun hle => ?_⟩
    · show n ≤ v1.capacity_
      rw [hcap]; exact le_max_right _ _
    · rw [hv1.index i (by rw [hs1]; exact hi), h.index i hi]
    · rw [reserve_noop v n m hle] at hr
      simp only [Prod.mk.injEq, true_and] at hr
      exact ⟨hr.1.symm, hr.2.symm⟩
  · exact absurd hn hnf

/-- For a list `xs` of `n` values whose byte size `n * sizeof(T)` does not wrap, when
nothing fails, `reserve(n)` on a default-constructed vector ends normally with capacity
`n`, and the appends that follow perform no re-buffering: after each number `j <= n` of
appends the run has ended normally with capacity `n`, size `j`, the storage pointer
`reserve` left and no allocation recorded since. -/
theorem reserve_sized_then_push (sizeof_T : Nat) (hs : 0 < sizeof_T) (xs : List T)
    (m : Mem T) (hn : NoFault m) (hlen : xs.length * sizeof_T < SIZE_MOD) :
    ∃ v0 m0, vector.default.reserve_sized sizeof_T xs.length m = (.ok, v0, m0) ∧
      v0.capacity = xs.length ∧
      ∀ j, j ≤ xs.length →
        ∃ vj mj, run ((xs.take j).map Op.push_back) v0 m0 = (.ok, vj, mj) ∧
          vj.capacity = xs.length ∧ vj.size = j ∧ vj.data = v0.data ∧
          allocations mj.trace = allocations m0.trace ∧
          ∀ i, i < j → vj.index i mj = (.ok, xs[i]?) := by
  rw [reserve_sized_eq sizeof_T hs _ _ m (fun _ => hlen)]
  rcases reserve_spec (Holds.default m) xs.length
      (lt_size_mod_of_bytes sizeof_T _ hs hlen) with
    ⟨v0, m0, hr, hv0, hcap, hfr, _⟩ | ⟨_, _, _, hnf⟩
  · have hc0 : v0.capacity_ = xs.length := by
      rw [hcap]; simp [vector.default]
    refine ⟨v0, m0, hr, hc0, fun j hj => ?_⟩
    have hjl : (xs.take j).length = j := by simp; omega
    obtain ⟨vj, mj, hrj, hvj, hcj, hdj, haj⟩ := pushes_free (xs.take j) v0 m0 [] hv0 (hfr.2 hn)
      (by rw [hc0, hjl]; simp; omega)
    simp only [List.nil_append] at hvj
    have hsj : vj.size = j := by
      show vj.size_ = j
      rw [hvj.1, hjl]
    refine ⟨vj, mj, hrj, by show vj.capacity_ = _; rw [hcj, hc0], hsj, hdj, haj, fun i hi => ?_⟩
    rw [hvj.index i (by rw [hsj]; exact hi), List.getElem?_take_of_lt hi]
  · exact absurd hn hnf

/-! ## The claims -/

/-- C1: for every finite sequence of `push_back(v)` and `pop_back()` applied to a
default-constructed vector, where `pop_back` only meets a non-empty vector and nothing
fails (the script injects no failure and the sequence is short enough for `capacity_ * 2`
not to wrap), the run ends normally, `size()` is the number of pushes minus the number of
pops (which is not larger), and `operator[]` reads at every index below `size()` the element the list model
(push = append, pop = drop the last element) has there. -/
theorem C1_push_pop_sequence (ops : List (Op T)) (m : Mem T) (hn : NoFault m)
    (hlen : ops.length * 2 ≤ SIZE_MOD) (hpop : popsNonEmpty ops vector.default m = true) :
    ∃ v1 m1, run ops vector.default m = (.ok, v1, m1) ∧
      v1.size = pushes ops - pops ops ∧ pops ops ≤ pushes ops ∧
      v1.size = (runModel ops []).length ∧
      ∀ i, i < v1.size → v1.index i m1 = (.ok, (runModel ops [])[i]?) := by
  obtain ⟨v1, m1, hr, hv1, _, hcount⟩ :=
    run_spec ops vector.default m [] (Holds.default m) hn (by simpa using hlen) hpop
  simp only [List.length_nil] at hcount
  refine ⟨v1, m1, hr, ?_, by omega, hv1.1, fun i hi => hv1.index i hi⟩
  show v1.size_ = _
  omega

/-- C1 at the sequence push 1, push 2, pop, push 3 on an empty memory. -/
theorem C1_push_pop_sequence_witness :
    ∃ v1 m1, run [Op.push_back 1, Op.push_back 2, Op.pop_back, Op.push_back 3]
        vector.default (⟨[], [], []⟩ : Mem Nat) = (.ok, v1, m1) ∧
      v1.size = pushes [Op.push_back 1, Op.push_back 2, Op.pop_back, Op.push_back 3]
        - pops [Op.push_back 1, Op.push_back 2, Op.pop_back, Op.push_back 3] ∧
      pops [Op.push_back 1, Op.push_back 2, Op.pop_back, Op.push_back 3]
        ≤ pushes [Op.push_back 1, Op.push_back 2, Op.pop_back, Op.push_back 3] ∧
      v1.size = (runModel [Op.push_back 1, Op.push_back 2, Op.pop_back, Op.push_back 3]
        []).length ∧
      ∀ i, i < v1.size → v1.index i m1 =
        (.ok, (runModel [Op.push_back 1, Op.push_back 2, Op.pop_back, Op.push_back 3] [])[i]?) :=
  C1_push_pop_sequence _ _ (by simp [NoFault]) (by simp [SIZE_MOD]) (by decide)

/-- C2: for a vector holding `xs`, a position `p` with `p <= size` and a value `x`, when
nothing fails (no injected failure, `capacity_ * 2` does not wrap if the vector is full),
`insert(begin() + p, x)` ends normally, leaves the vector holding the first `p` elements
of `xs`, then `x`, then the remaining elements of `xs`, with size one larger, and returns
the position `begin() + p` of the vector afterwards, where `x` now is. -/
theorem C2_insert (m : Mem T) (v : vector) (xs : List T) (p : Nat) (x : T)
    (h : Holds m v xs) (hp : p ≤ v.size) (hn : NoFault m)
    (hov : v.size_ = v.capacity_ → v.capacity_ * 2 < SIZE_MOD) :
    ∃ v1 m1, v.insert (v.begin.add p) x m = (.ok, v1.begin.add p, v1, m1) ∧
      Holds m1 v1 (xs.take p ++ [x] ++ xs.drop p) ∧
      v1.size = v.size + 1 ∧
      (∀ i, i < v1.size → v1.index i m1 = (.ok, (xs.take p ++ [x] ++ xs.drop p)[i]?)) ∧
      v1.index p m1 = (.ok, some x) := by
  have hsz : v.size_ = xs.length := h.1
  have hp2 : p ≤ xs.length := by rw [← hsz]; exact hp
  obtain ⟨v1, m1, hins, hv1, _, _, _⟩ := insert_ok h p hp2 x hov hn
  have hv2 : Holds m1 v1 (xs.take p ++ [x] ++ xs.drop p) := by simpa using hv1
  have hsz1 : v1.size = v.size + 1 := by
    show v1.size_ = v.size_ + 1
    rw [hv1.1, hsz]
    simp only [List.length_append, List.length_take, List.length_cons, List.length_drop]
    omega
  refine ⟨v1, m1, hins, hv2, hsz1, fun i hi => hv2.index i hi, ?_⟩
  rw [hv2.index p (by rw [hsz1]; omega)]
  congr 1
  have hlp : (xs.take p).length = p := by simp; omega
  rw [List.append_assoc, List.getElem?_append_right (by omega), hlp]
  simp

/-- C2 at the vector `[1, 2, 3]` with capacity 4, inserting 9 at position 1. -/
theorem C2_insert_witness :
    ∃ v1 m1, (⟨⟨1, 0⟩, 3, 4⟩ : vector).insert ((⟨⟨1, 0⟩, 3, 4⟩ : vector).begin.add (1 : Nat)) 9
        (⟨[some [some 1, some 2, some 3, none]], [], []⟩ : Mem Nat)
        = (.ok, v1.begin.add (1 : Nat), v1, m1) ∧
      Holds m1 v1 ([1, 2, 3].take 1 ++ [9] ++ [1, 2, 3].drop 1) ∧
      v1.size = (⟨⟨1, 0⟩, 3, 4⟩ : vector).size + 1 ∧
      (∀ i, i < v1.size →
        v1.index i m1 = (.ok, ([1, 2, 3].take 1 ++ [9] ++ [1, 2, 3].drop 1)[i]?)) ∧
      v1.index 1 m1 = (.ok, some 9) :=
  C2_insert _ _ [1, 2, 3] 1 9 (by unfold Holds; decide) (by decide) (by simp [NoFault])
    (by decide)

/-- C3: for a vector holding `xs` and a range `first <= last <= size`,
`erase(begin() + first, begin() + last)` ends normally and leaves the vector holding the
first `first` elements of `xs` followed by the elements of `xs` from index `last` on, in
their original order; size is reduced by `last - first` and capacity is unchanged. -/
theorem C3_erase_range (m : Mem T) (v : vector) (xs : List T) (first last : Nat)
    (h : Holds m v xs) (hfl : first ≤ last) (hl : last ≤ v.size) :
    ∃ r v1 m1, v.erase (v.begin.add first) (v.begin.add last) m = (.ok, r, v1, m1) ∧
      Holds m1 v1 (xs.take first ++ xs.drop last) ∧
      (∀ i, i < v1.size → v1.index i m1 = (.ok, (xs.take first ++ xs.drop last)[i]?)) ∧
      v1.size = v.size - (last - first) ∧ v1.capacity = v.capacity := by
  have hsz : v.size_ = xs.length := h.1
  obtain ⟨m1, he, hv1, _⟩ := erase_spec h first last hfl (by rw [← hsz]; exact hl)
  exact ⟨_, _, m1, he, hv1, fun i hi => hv1.index i hi, rfl, rfl⟩

/-- C3 at the vector `[1, 9, 2, 3]`, erasing the range of indices 0 and 1. -/
theorem C3_erase_range_witness :
    ∃ r v1 m1, (⟨⟨1, 0⟩, 4, 4⟩ : vector).erase ((⟨⟨1, 0⟩, 4, 4⟩ : vector).begin.add (0 : Nat))
        ((⟨⟨1, 0⟩, 4, 4⟩ : vector).begin.add (2 : Nat))
        (⟨[some [some 1, some 9, some 2, some 3]], [], []⟩ : Mem Nat) = (.ok, r, v1, m1) ∧
      Holds m1 v1 ([1, 9, 2, 3].take 0 ++ [1, 9, 2, 3].drop 2) ∧
      (∀ i, i < v1.size →
        v1.index i m1 = (.ok, ([1, 9, 2, 3].take 0 ++ [1, 9, 2, 3].drop 2)[i]?)) ∧
      v1.size = (⟨⟨1, 0⟩, 4, 4⟩ : vector).size - (2 - 0) ∧
      v1.capacity = (⟨⟨1, 0⟩, 4, 4⟩ : vector).capacity :=
  C3_erase_range _ _ [1, 9, 2, 3] 0 2 (by unfold Holds; decide) (by decide) (by decide)

/-- C4, the failing input: on the vector `[1, 2, 3]` (capacity 4),
`erase(begin() + 1, begin() + 3)` removes a range that reaches the end and returns the
null pointer, which is not the end position `begin() + 1` of the vector afterwards. -/
theorem C4_erase_to_end_returns_null :
    ((⟨⟨1, 0⟩, 3, 4⟩ : vector).erase ((⟨⟨1, 0⟩, 3, 4⟩ : vector).begin.add 1)
        ((⟨⟨1, 0⟩, 3, 4⟩ : vector).begin.add 3)
        (⟨[some [some 1, some 2, some 3, none]], [], []⟩ : Mem Nat)).1 = .ok ∧
    ((⟨⟨1, 0⟩, 3, 4⟩ : vector).erase ((⟨⟨1, 0⟩, 3, 4⟩ : vector).begin.add 1)
        ((⟨⟨1, 0⟩, 3, 4⟩ : vector).begin.add 3)
        (⟨[some [some 1, some 2, some 3, none]], [], []⟩ : Mem Nat)).2.1 = nullptr ∧
    ((⟨⟨1, 0⟩, 3, 4⟩ : vector).erase ((⟨⟨1, 0⟩, 3, 4⟩ : vector).begin.add 1)
        ((⟨⟨1, 0⟩, 3, 4⟩ : vector).begin.add 3)
        (⟨[some [some 1, some 2, some 3, none]], [], []⟩ : Mem Nat)).2.2.1.end_ = ⟨1, 1⟩ := by
  decide

/-- C5: when nothing fails, the copy constructor applied to a vector `a` holding `xs`
yields a vector `b` with `b.size() == a.size()`, `b[i] == a[i]` at every index and
`b.capacity() == a.size()`; `a` still holds `xs` after the copy, and after any sequence of
valid mutating calls on `b` (push_back, pop_back, reserve, shrink_to_fit, clear, insert,
erase, assignment to an element through `operator[]`, copy assignment from any vector, `a`
and `b` included, swap with a third vector; whether they succeed or throw) `a` still holds
`xs` and reads the same element at every index.  `sizeof_T` is `sizeof(T)`; a call is valid
when it meets `Mut.pre`, which for `reserve(n)` asks that the byte size `n * sizeof(T)` of
a re-buffering does not wrap.  The object `a` itself is passed by reference to const and is
no party to the calls on `b`, so its members cannot change. -/
theorem C5_copy_constructor (sizeof_T : Nat) (hs : 0 < sizeof_T) (m : Mem T) (a : vector)
    (xs : List T) (h : Holds m a xs) (hn : NoFault m) :
    ∃ b m1, vector.copy_ctor a m = (.ok, b, m1) ∧
      b.size = a.size ∧ (∀ i, i < a.size → b.index i m1 = a.index i m) ∧
      b.capacity = a.size ∧
      Holds m1 a xs ∧ (∀ i, i < a.size → a.index i m1 = a.index i m) ∧
      ∀ muts : List (Mut T), mutatePre sizeof_T a muts b m1 →
        ∃ s b2 m2, mutate sizeof_T muts b m1 = (s, b2, m2) ∧ (s = .ok ∨ s = .thrown) ∧
          Holds m2 a xs ∧ ∀ i, i < a.size → a.index i m2 = a.index i m := by
  rcases copy_ctor_spec h with ⟨b, m1, hc, hb, hcap, hfr, hfresh⟩ | ⟨_, _, _, _, hnf⟩
  · have ha1 : Holds m1 a xs := h.keep hfr
    have hbs : b.size = a.size := by
      show b.size_ = a.size_
      rw [hb.1, h.1]
    refine ⟨b, m1, hc, hbs, fun i hi => ?_, hcap, ha1, fun i hi => ?_, fun muts hpre => ?_⟩
    · rw [hb.index i (by rw [hbs]; exact hi), h.index i hi]
    · rw [ha1.index i hi, h.index i hi]
    · have hsep : 0 < a.capacity_ → a.data_.block ≠ b.data_.block := by
        intro hc0 he
        have := h.block hc0
        rw [he, hfresh] at this
        cases this
      obtain ⟨s, b2, m2, ys2, hm, hs2, _, ha2⟩ :=
        mutate_frame sizeof_T hs muts b m1 xs a xs hb ha1 hsep hpre
      exact ⟨s, b2, m2, hm, hs2, ha2, fun i hi => by rw [ha2.index i hi, h.index i hi]⟩
  · exact absurd hn hnf

/-- C5 at the vector `[1, 2, 3]` with capacity 4, elements of 4 bytes, next to a third
vector `[8]` with capacity 2: the copy is assigned to, appended to, re-buffered, swapped
with the third vector, assigned from `a` and cleared. -/
theorem C5_copy_constructor_witness :
    ∃ b m1, vector.copy_ctor (⟨⟨1, 0⟩, 3, 4⟩ : vector)
        (⟨[some [some 1, some 2, some 3, none], some [some 8, none]], [], []⟩ : Mem Nat)
          = (.ok, b, m1) ∧
      b.size = 3 ∧ b.capacity = 3 ∧
      b.index 2 m1 = (.ok, some 3) ∧
      ∃ s b2 m2, mutate 4 [Mut.index_assign 0 5, Mut.push_back 7, Mut.reserve 10,
          Mut.swap ⟨⟨2, 0⟩, 1, 2⟩, Mut.operator_assign ⟨⟨1, 0⟩, 3, 4⟩, Mut.clear] b m1
            = (s, b2, m2) ∧
        Holds m2 (⟨⟨1, 0⟩, 3, 4⟩ : vector) [1, 2, 3] := by
  obtain ⟨b, m1, hc, hs, hi, hcap, _, _, hmut⟩ := C5_copy_constructor 4 (by decide)
    (⟨[some [some 1, some 2, some 3, none], some [some 8, none]], [], []⟩ : Mem Nat)
    ⟨⟨1, 0⟩, 3, 4⟩ [1, 2, 3] (by unfold Holds; decide) (by simp [NoFault])
  have hb : b = ⟨⟨3, 0⟩, 3, 3⟩ ∧ m1 = ⟨[some [some 1, some 2, some 3, none],
      some [some 8, none], some [some 1, some 2, some 3]], [],
      [.alloc 3 3, .construct ⟨3, 0⟩, .construct ⟨3, 1⟩, .construct ⟨3, 2⟩]⟩ := by
    have : vector.copy_ctor (⟨⟨1, 0⟩, 3, 4⟩ : vector)
        (⟨[some [some 1, some 2, some 3, none], some [some 8, none]], [], []⟩ : Mem Nat)
        = (.ok, ⟨⟨3, 0⟩, 3, 3⟩, ⟨[some [some 1, some 2, some 3, none],
      some [some 8, none], some [some 1, some 2, some 3]], [],
      [.alloc 3 3, .construct ⟨3, 0⟩, .construct ⟨3, 1⟩, .construct ⟨3, 2⟩]⟩) := by decide
    rw [this] at hc
    simp only [Prod.mk.injEq, true_and] at hc
    exact ⟨hc.1.symm, hc.2.symm⟩
  obtain ⟨s, b2, m2, hm, _, ha2, _⟩ := hmut [Mut.index_assign 0 5, Mut.push_back 7,
      Mut.reserve 10, Mut.swap ⟨⟨2, 0⟩, 1, 2⟩, Mut.operator_assign ⟨⟨1, 0⟩, 3, 4⟩,
      Mut.clear] (by
    rw [hb.1, hb.2]
    simp only [mutatePre, Mut.pre]
    refine ⟨by decide, by decide, by decide, ⟨⟨[8], by unfold Holds; decide⟩, by decide⟩,
      ⟨[1, 2, 3], by unfold Holds; decide⟩, trivial, trivial⟩)
  refine ⟨b, m1, hc, hs, hcap, ?_, s, b2, m2, hm, ha2⟩
  rw [hi 2 (by decide)]
  decide

/-- C6: when nothing fails, the copy assignment `a = rhs` of a vector `rhs` holding `ys`
to a vector `a` ends normally; afterwards `a` has the size of `rhs`, the element of `rhs`
at every index, and capacity equal to the size of `rhs`.  `rhs` may be `a` itself: then
the object afterwards is the returned one, which has the size and elements `rhs` had.
When `rhs` is another object (its storage is not that of `a`) it still holds `ys`
afterwards and reads the same element at every index. -/
theorem C6_copy_assignment (m : Mem T) (a rhs : vector) (xs ys : List T)
    (ha : Holds m a xs) (hr : Holds m rhs ys) (hn : NoFault m) :
    ∃ a1 m1, a.operator_assign rhs m = (.ok, a1, m1) ∧
      a1.size = rhs.size ∧ (∀ i, i < rhs.size → a1.index i m1 = rhs.index i m) ∧
      a1.capacity = rhs.size ∧
      ((0 < rhs.capacity_ → rhs.data_.block ≠ a.data_.block) →
        Holds m1 rhs ys ∧ ∀ i, i < rhs.size → rhs.index i m1 = rhs.index i m) := by
  rcases operator_assign_spec ha hr with ⟨a1, m1, hc, hv1, hcap, hfr, _⟩ | ⟨_, _, _, hnf⟩
  · have hs : a1.size = rhs.size := by
      show a1.size_ = rhs.size_
      rw [hv1.1, hr.1]
    refine ⟨a1, m1, hc, hs, fun i hi => ?_, hcap, fun hsep => ?_⟩
    · rw [hv1.index i (by rw [hs]; exact hi), hr.index i hi]
    · have hr1 : Holds m1 rhs ys := hr.of_frame hfr hsep
      exact ⟨hr1, fun i hi => by rw [hr1.index i hi, hr.index i hi]⟩
  · exact absurd hn hnf

/-- C6 at the self-assignment of the vector `[1, 2, 3]` with capacity 4. -/
theorem C6_copy_assignment_witness :
    ∃ a1 m1, (⟨⟨1, 0⟩, 3, 4⟩ : vector).operator_assign ⟨⟨1, 0⟩, 3, 4⟩
        (⟨[some [some 1, some 2, some 3, none]], [], []⟩ : Mem Nat) = (.ok, a1, m1) ∧
      a1.size = 3 ∧ a1.capacity = 3 ∧ a1.index 0 m1 = (.ok, some 1) ∧
      a1.index 1 m1 = (.ok, some 2) ∧ a1.index 2 m1 = (.ok, some 3) := by
  obtain ⟨a1, m1, hc, hs, hi, hcap, _⟩ := C6_copy_assignment
    (⟨[some [some 1, some 2, some 3, none]], [], []⟩ : Mem Nat) ⟨⟨1, 0⟩, 3, 4⟩ ⟨⟨1, 0⟩, 3, 4⟩
    [1, 2, 3] [1, 2, 3] (by unfold Holds; decide) (by unfold Holds; decide) (by simp [NoFault])
  refine ⟨a1, m1, hc, hs, hcap, ?_, ?_, ?_⟩
  · rw [hi 0 (by decide)]; decide
  · rw [hi 1 (by decide)]; decide
  · rw [hi 2 (by decide)]; decide

/-- C7, the failing input: the full vector `[1]` (capacity 1), `push_back(7)`, with the
failure at each of the four fallible steps of the reallocating path in turn.  When the
copy of the argument (`saved_value`), the allocation or the copy of the old element fails,
`push_back` throws and the object is what it was.  When all of these succeed and the copy
construction into the new slot fails, `push_back` throws, size is still 1 and index 0
still reads 1, but the capacity has changed from 1 to 2 and the storage is another block.
On the free-slot path (the same elements with capacity 2) a failing copy construction
leaves the object as it was. -/
theorem C7_push_back_late_failure :
    (⟨⟨1, 0⟩, 1, 1⟩ : vector).push_back 7 (⟨[some [some 1]], [true], []⟩ : Mem Nat)
      = (.thrown, ⟨⟨1, 0⟩, 1, 1⟩, ⟨[some [some 1]], [], []⟩) ∧
    ((⟨⟨1, 0⟩, 1, 1⟩ : vector).push_back 7
      (⟨[some [some 1]], [false, true], []⟩ : Mem Nat)).1 = .thrown ∧
    ((⟨⟨1, 0⟩, 1, 1⟩ : vector).push_back 7
      (⟨[some [some 1]], [false, true], []⟩ : Mem Nat)).2.1 = ⟨⟨1, 0⟩, 1, 1⟩ ∧
    ((⟨⟨1, 0⟩, 1, 1⟩ : vector).push_back 7
      (⟨[some [some 1]], [false, false, true], []⟩ : Mem Nat)).1 = .thrown ∧
    ((⟨⟨1, 0⟩, 1, 1⟩ : vector).push_back 7
      (⟨[some [some 1]], [false, false, true], []⟩ : Mem Nat)).2.1 = ⟨⟨1, 0⟩, 1, 1⟩ ∧
    ((⟨⟨1, 0⟩, 1, 1⟩ : vector).push_back 7
      (⟨[some [some 1]], [false, false, false, true], []⟩ : Mem Nat)).1 = .thrown ∧
    ((⟨⟨1, 0⟩, 1, 1⟩ : vector).push_back 7
      (⟨[some [some 1]], [false, false, false, true], []⟩ : Mem Nat)).2.1
        = ⟨⟨2, 0⟩, 1, 2⟩ ∧
    (⟨⟨2, 0⟩, 1, 2⟩ : vector).capacity ≠ (⟨⟨1, 0⟩, 1, 1⟩ : vector).capacity ∧
    (⟨⟨2, 0⟩, 1, 2⟩ : vector).index 0 ((⟨⟨1, 0⟩, 1, 1⟩ : vector).push_back 7
      (⟨[some [some 1]], [false, false, false, true], []⟩ : Mem Nat)).2.2 = (.ok, some 1) ∧
    (⟨⟨1, 0⟩, 1, 2⟩ : vector).push_back 7 (⟨[some [some 1, none]], [true], []⟩ : Mem Nat)
      = (.thrown, ⟨⟨1, 0⟩, 1, 2⟩, ⟨[some [some 1, none]], [], []⟩) := by
  decide

/-- C8: for `N >= 1` appends `xs` to a default-constructed vector with nothing else in
between (no injected failure, `N` small enough for `capacity_ * 2` not to wrap), the run
ends normally and `capacity()` is the smallest power of two that is at least `N`; the
capacity after `j + 1` appends is never below the capacity after `j` appends, and it
either equals it, or went from 0 to 1, or doubled. -/
theorem C8_capacity_growth (xs : List T) (m : Mem T) (hn : NoFault m) (hN : 1 ≤ xs.length)
    (hlen : xs.length * 2 ≤ SIZE_MOD) :
    ∃ v1 m1, run (xs.map Op.push_back) vector.default m = (.ok, v1, m1) ∧
      (∃ k, v1.capacity = 2 ^ k ∧ xs.length ≤ 2 ^ k ∧ ∀ j, xs.length ≤ 2 ^ j → 2 ^ k ≤ 2 ^ j) ∧
      ∀ j, j < xs.length →
        (run ((xs.take j).map Op.push_back) vector.default m).2.1.capacity
          ≤ (run ((xs.take (j + 1)).map Op.push_back) vector.default m).2.1.capacity ∧
        ((run ((xs.take (j + 1)).map Op.push_back) vector.default m).2.1.capacity
            = (run ((xs.take j).map Op.push_back) vector.default m).2.1.capacity ∨
          ((run ((xs.take j).map Op.push_back) vector.default m).2.1.capacity = 0 ∧
            (run ((xs.take (j + 1)).map Op.push_back) vector.default m).2.1.capacity = 1) ∨
          (run ((xs.take (j + 1)).map Op.push_back) vector.default m).2.1.capacity
            = 2 * (run ((xs.take j).map Op.push_back) vector.default m).2.1.capacity) := by
  obtain ⟨v1, m1, hr, _, hg⟩ := pushes_grow xs vector.default m [] (Holds.default m) hn
    (by simpa using hlen) (Or.inl ⟨rfl, rfl⟩)
  simp only [List.length_nil, Nat.zero_add] at hg
  refine ⟨v1, m1, hr, hg.least hN, fun j hj => ?_⟩
  have hjl : (xs.take j).length = j := by simp; omega
  obtain ⟨vj, mj, hrj, hvj, hnj, _⟩ := run_spec ((xs.take j).map Op.push_back) vector.default m []
    (Holds.default m) hn (by simp; omega) (popsNonEmpty_pushes _ _ _)
  rw [runModel_pushes] at hvj
  have hszj : vj.size_ = j := by rw [hvj.1]; simpa using hjl
  have hov : vj.size_ = vj.capacity_ → vj.capacity_ * 2 < SIZE_MOD := by intro he; omega
  obtain ⟨w, mw, hp, _, hcap, _, _⟩ := push_back_ok hvj xs[j] hov hnj
  have htake : (xs.take (j + 1)).map Op.push_back
      = (xs.take j).map Op.push_back ++ [Op.push_back xs[j]] := by
    rw [List.take_succ, List.getElem?_eq_getElem hj]
    simp only [Option.toList_some, List.map_append, List.map_cons, List.map_nil]
  have hrun : run ((xs.take (j + 1)).map Op.push_back) vector.default m = (.ok, w, mw) := by
    rw [htake, run_append_ok _ _ _ _ _ _ hrj]
    simp only [run, Op.apply, hp]
  rw [hrj, hrun]
  show vj.capacity_ ≤ w.capacity_ ∧ (w.capacity_ = vj.capacity_ ∨
    (vj.capacity_ = 0 ∧ w.capacity_ = 1) ∨ w.capacity_ = 2 * vj.capacity_)
  rw [hcap]
  by_cases hlt : vj.size_ < vj.capacity_
  · rw [if_pos hlt]
    exact ⟨le_refl _, Or.inl rfl⟩
  · have hfull : vj.size_ = vj.capacity_ := by have := hvj.2.1; omega
    rw [if_neg hlt, increase_capacity_eq vj (hov hfull)]
    by_cases h0 : 0 < vj.capacity_
    · rw [if_pos h0]
      exact ⟨by omega, Or.inr (Or.inr (by omega))⟩
    · rw [if_neg h0]
      exact ⟨by omega, Or.inr (Or.inl ⟨by omega, rfl⟩)⟩

/-- C8 at three appends: the capacity ends at 4. -/
theorem C8_capacity_growth_witness :
    ∃ v1 m1, run ([1, 2, 3].map Op.push_back) vector.default (⟨[], [], []⟩ : Mem Nat)
        = (.ok, v1, m1) ∧ v1.capacity = 4 := by
  obtain ⟨v1, m1, hr, _, _⟩ := C8_capacity_growth [1, 2, 3] (⟨[], [], []⟩ : Mem Nat)
    (by simp [NoFault]) (by decide) (by simp [SIZE_MOD])
  refine ⟨v1, m1, hr, ?_⟩
  have : run ([1, 2, 3].map Op.push_back) vector.default (⟨[], [], []⟩ : Mem Nat)
      = (.ok, ⟨⟨3, 0⟩, 3, 4⟩, (run ([1, 2, 3].map Op.push_back) vector.default
          (⟨[], [], []⟩ : Mem Nat)).2.2) := by decide
  rw [this] at hr
  simp only [Prod.mk.injEq, true_and] at hr
  rw [← hr.1]
  rfl

/-- C9, the failing input: elements of 2 bytes, the vector `[1, 2, 3]` (capacity 4),
`reserve(2^63)`.  The call re-buffers (`capacity_ < 2^63`) and the assertion
`new_capacity >= size_` holds, but the byte size `2^63 * 2` wraps to 0, `operator new(0)`
succeeds with a block that has room for no element, and the copy of the first element is
a construction outside that block: the call does not end normally (in the source the
three elements are written past the block), where the claim has the capacity at `2^63`
and the elements unchanged. -/
theorem C9_reserve_byte_size_wraps :
    (⟨⟨1, 0⟩, 3, 4⟩ : vector).capacity_ < 2 ^ 63 ∧
    ¬ (2 ^ 63 < (⟨⟨1, 0⟩, 3, 4⟩ : vector).size_) ∧
    new_buffer_bytes 2 (2 ^ 63) = 0 ∧
    operator_new_bytes 2 (new_buffer_bytes 2 (2 ^ 63))
        (⟨[some [some 1, some 2, some 3, none]], [], []⟩ : Mem Nat)
      = (.ok, ⟨2, 0⟩, ⟨[some [some 1, some 2, some 3, none], some []], [], [.alloc 2 0]⟩) ∧
    vector.copy_all ⟨2, 0⟩ ⟨1, 0⟩ 3
        (⟨[some [some 1, some 2, some 3, none], some []], [], [.alloc 2 0]⟩ : Mem Nat)
      = (.abort, ⟨[some [some 1, some 2, some 3, none], some []], [], [.alloc 2 0]⟩) ∧
    ((⟨⟨1, 0⟩, 3, 4⟩ : vector).reserve_sized 2 (2 ^ 63)
      (⟨[some [some 1, some 2, some 3, none]], [], []⟩ : Mem Nat)).1 = .abort := by
  decide

/-- C10: when nothing fails, `shrink_to_fit()` ends normally with
`capacity() == size()`; size and the element at every index are unchanged; and when
capacity already equals size the call changes nothing (object and memory are returned as
they were). -/
theorem C10_shrink_to_fit (m : Mem T) (v : vector) (xs : List T) (h : Holds m v xs)
    (hn : NoFault m) :
    ∃ v1 m1, v.shrink_to_fit m = (.ok, v1, m1) ∧
      v1.capacity = v1.size ∧ v1.size = v.size ∧
      (∀ i, i < v.size → v1.index i m1 = v.index i m) ∧
      (v.capacity = v.size → v1 = v ∧ m1 = m) := by
  rcases shrink_to_fit_spec h with ⟨v1, m1, hr, hv1, hcap, _, _⟩ | ⟨_, _, _, hnf⟩
  · have hs : v1.size = v.size := by
      show v1.size_ = v.size_
      rw [hv1.1, h.1]
    refine ⟨v1, m1, hr, ?_, hs, fun i hi => ?_, fun he => ?_⟩
    · show v1.capacity_ = v1.size
      rw [hcap, hs]; rfl
    · rw [hv1.index i (by rw [hs]; exact hi), h.index i hi]
    · have he2 : v.capacity_ = v.size_ := he
      rw [shrink_to_fit_noop v m (by omega)] at hr
      simp only [Prod.mk.injEq, true_and] at hr
      exact ⟨hr.1.symm, hr.2.symm⟩
  · exact absurd hn hnf

/-- C10 at the vector `[2, 3]` with capacity 4. -/
theorem C10_shrink_to_fit_witness :
    ∃ v1 m1, (⟨⟨1, 0⟩, 2, 4⟩ : vector).shrink_to_fit
        (⟨[some [some 2, some 3, none, none]], [], []⟩ : Mem Nat) = (.ok, v1, m1) ∧
      v1.capacity = v1.size ∧ v1.size = (⟨⟨1, 0⟩, 2, 4⟩ : vector).size ∧
      (∀ i, i < (⟨⟨1, 0⟩, 2, 4⟩ : vector).size → v1.index i m1 = (⟨⟨1, 0⟩, 2, 4⟩ : vector).index i
        (⟨[some [some 2, some 3, none, none]], [], []⟩ : Mem Nat)) ∧
      ((⟨⟨1, 0⟩, 2, 4⟩ : vector).capacity = (⟨⟨1, 0⟩, 2, 4⟩ : vector).size →
        v1 = ⟨⟨1, 0⟩, 2, 4⟩ ∧ m1 = (⟨[some [some 2, some 3, none, none]], [], []⟩ : Mem Nat)) :=
  C10_shrink_to_fit _ _ [2, 3] (by unfold Holds; decide) (by simp [NoFault])

/-- C11: `insert` and single-element `erase` are inverses.  For a vector holding `xs`, a
position `p <= size` and a value `x`, when nothing fails (no injected failure,
`capacity_ * 2` does not wrap if the vector is full), `insert(begin() + p, x)` ends
normally, returns `begin() + p` of the vector it leaves, which holds `xs` with `x` put in
at index `p`; then `erase(begin() + p)` on that vector ends normally and leaves the
vector holding exactly `xs`, with the original size and the same element at every
index. -/
theorem C11_insert_erase_inverse (m : Mem T) (v : vector) (xs : List T) (p : Nat) (x : T)
    (h : Holds m v xs) (hp : p ≤ v.size) (hn : NoFault m)
    (hov : v.size_ = v.capacity_ → v.capacity_ * 2 < SIZE_MOD) :
    ∃ v1 m1, v.insert (v.begin.add p) x m = (.ok, v1.begin.add p, v1, m1) ∧
      Holds m1 v1 (xs.take p ++ x :: xs.drop p) ∧
      ∃ r v2 m2, v1.erase_at (v1.begin.add p) m1 = (.ok, r, v2, m2) ∧
        Holds m2 v2 xs ∧ v2.size = v.size ∧
        ∀ i, i < v.size → v2.index i m2 = v.index i m := by
  have hsz : v.size_ = xs.length := h.1
  have hp2 : p ≤ xs.length := by rw [← hsz]; exact hp
  obtain ⟨v1, m1, hins, hv1, _, _, _⟩ := insert_ok h p hp2 x hov hn
  have hlen : (xs.take p ++ x :: xs.drop p).length = xs.length + 1 := by
    simp only [List.length_append, List.length_take, List.length_cons, List.length_drop]
    omega
  obtain ⟨r, m2, her, hv2, _⟩ := erase_at_spec hv1 p (by rw [hlen]; omega)
  rw [list_insert_erase xs p x hp2] at hv2
  have hs2 : ({ v1 with size_ := v1.size_ - 1 } : vector).size = v.size := by
    show v1.size_ - 1 = v.size_
    rw [hv1.1, hlen, hsz]; omega
  refine ⟨v1, m1, hins, hv1, r, _, m2, her, hv2, hs2, fun i hi => ?_⟩
  rw [hv2.index i (by rw [hs2]; exact hi), h.index i hi]

/-- C11 at the vector `[1, 2, 3]` with capacity 3 (the insertion re-buffers), position 1
and value 9. -/
theorem C11_insert_erase_inverse_witness :
    ∃ v1 m1, (⟨⟨1, 0⟩, 3, 3⟩ : vector).insert ((⟨⟨1, 0⟩, 3, 3⟩ : vector).begin.add (1 : Nat)) 9
        (⟨[some [some 1, some 2, some 3]], [], []⟩ : Mem Nat)
          = (.ok, v1.begin.add (1 : Nat), v1, m1) ∧
      Holds m1 v1 (([1, 2, 3] : List Nat).take 1 ++ 9 :: ([1, 2, 3] : List Nat).drop 1) ∧
      ∃ r v2 m2, v1.erase_at (v1.begin.add (1 : Nat)) m1 = (.ok, r, v2, m2) ∧
        Holds m2 v2 [1, 2, 3] ∧ v2.size = (⟨⟨1, 0⟩, 3, 3⟩ : vector).size ∧
        ∀ i, i < (⟨⟨1, 0⟩, 3, 3⟩ : vector).size → v2.index i m2 =
          (⟨⟨1, 0⟩, 3, 3⟩ : vector).index i (⟨[some [some 1, some 2, some 3]], [], []⟩ : Mem Nat) :=
  C11_insert_erase_inverse _ _ [1, 2, 3] 1 9 (by unfold Holds; decide) (by decide)
    (by simp [NoFault]) (by decide)

/-- C12, the failing input: on the vector `[1, 2, 3]` (capacity 4),
`erase(begin() + 3, begin() + 3)` erases the empty range at the end position; vector and
storage are left as they were, and the call returns the null pointer, which is not the
position `begin() + 3` it was given. -/
theorem C12_erase_empty_range_at_end :
    (⟨⟨1, 0⟩, 3, 4⟩ : vector).erase ((⟨⟨1, 0⟩, 3, 4⟩ : vector).begin.add 3)
        ((⟨⟨1, 0⟩, 3, 4⟩ : vector).begin.add 3)
        (⟨[some [some 1, some 2, some 3, none]], [], []⟩ : Mem Nat)
      = (.ok, nullptr, ⟨⟨1, 0⟩, 3, 4⟩, ⟨[some [some 1, some 2, some 3, none]], [], []⟩) ∧
    (⟨⟨1, 0⟩, 3, 4⟩ : vector).begin.add 3 = ⟨1, 3⟩ ∧
    nullptr ≠ (⟨⟨1, 0⟩, 3, 4⟩ : vector).begin.add 3 := by
  decide

/-- C13, the failing input: elements of 2 bytes, `n = 2^63`.  On a default-constructed
vector `reserve(2^63)` ends normally with capacity `2^63`, but the byte size `2^63 * 2`
has wrapped to 0 and the block has room for no element; the first `push_back` takes the
free-slot path (`size_ < capacity_`) and its construction at `data_ + 0` is outside the
block (a write past the block in the source), where the claim has `2^63` appends without
re-buffering. -/
theorem C13_reserve_wraps_then_push :
    new_buffer_bytes 2 (2 ^ 63) = 0 ∧
    vector.default.reserve_sized 2 (2 ^ 63) (⟨[], [], []⟩ : Mem Nat)
      = (.ok, ⟨⟨1, 0⟩, 0, 2 ^ 63⟩, ⟨[some []], [], [.alloc 1 0]⟩) ∧
    (⟨⟨1, 0⟩, 0, 2 ^ 63⟩ : vector).size_ < (⟨⟨1, 0⟩, 0, 2 ^ 63⟩ : vector).capacity_ ∧
    (⟨[some []], [], [.alloc 1 0]⟩ : Mem Nat).slot
      ((⟨⟨1, 0⟩, 0, 2 ^ 63⟩ : vector).data_.add 0) = none ∧
    ((⟨⟨1, 0⟩, 0, 2 ^ 63⟩ : vector).push_back 7
      (⟨[some []], [], [.alloc 1 0]⟩ : Mem Nat)).1 = .abort := by
  decide

/-- C14: `size() <= capacity()` holds in every state of a vector object that the public
interface can produce: for a default-constructed and for a copy-constructed vector, and
after copy assignment, `push_back`, `pop_back`, `reserve`, `shrink_to_fit`, `clear`, `swap`
(for both objects), `insert` and `erase` applied to an object that satisfies it. -/
theorem C14_size_le_capacity (v : vector) (h : Reachable T v) : v.size ≤ v.capacity := by
  show v.size_ ≤ v.capacity_
  induction h with
  | default => exact le_refl _
  | copy_ctor other m => exact copy_ctor_size_le other m
  | operator_assign v rhs m _ ih => exact operator_assign_size_le v rhs m ih
  | push_back v x m _ ih => exact push_back_fuel_size_le 3 v x m ih
  | pop_back v m _ ih => exact pop_back_size_le v m ih
  | reserve v n m _ ih =>
    unfold vector.reserve
    split
    · exact new_buffer_size_le v n m ih
    · exact ih
  | shrink_to_fit v m _ ih =>
    unfold vector.shrink_to_fit
    split
    · exact new_buffer_size_le v v.size_ m ih
    · exact ih
  | clear v m _ ih => exact Nat.zero_le _
  | swap_left v rhs _ _ _ ih2 => exact ih2
  | swap_right v rhs _ _ ih1 _ => exact ih1
  | insert v pos x m _ ih => exact insert_size_le v pos x m ih
  | erase v first last m _ ih => exact erase_size_le v first last m ih
  | erase_at v pos m _ ih => exact erase_size_le v pos (pos.add 1) m ih

/-- C14 at the object left by `push_back(1)`, `push_back(2)`, `pop_back()` on a
default-constructed vector. -/
theorem C14_size_le_capacity_witness :
    ((((vector.default.push_back 1 (⟨[], [], []⟩ : Mem Nat)).2.1.push_back 2
        (vector.default.push_back 1 (⟨[], [], []⟩ : Mem Nat)).2.2).2.1).pop_back
      ((vector.default.push_back 1 (⟨[], [], []⟩ : Mem Nat)).2.1.push_back 2
        (vector.default.push_back 1 (⟨[], [], []⟩ : Mem Nat)).2.2).2.2).2.1.size
    ≤ ((((vector.default.push_back 1 (⟨[], [], []⟩ : Mem Nat)).2.1.push_back 2
        (vector.default.push_back 1 (⟨[], [], []⟩ : Mem Nat)).2.2).2.1).pop_back
      ((vector.default.push_back 1 (⟨[], [], []⟩ : Mem Nat)).2.1.push_back 2
        (vector.default.push_back 1 (⟨[], [], []⟩ : Mem Nat)).2.2).2.2).2.1.capacity :=
  C14_size_le_capacity _
    (Reachable.pop_back _ _ (Reachable.push_back _ _ _ (Reachable.push_back _ _ _ Reachable.default)))

/-- C16: rollback of a partial copy.  Let the source hold the `n` elements `xs`, the
destination be a block of at least `n` raw slots other than the source's, and the script
let the first `k < n` copy constructions succeed and the next one throw.  Then the `try`
block of `copy_all` stops at `i = k` having constructed exactly the elements at indices
`0, ..., k-1` in this order (copies of the source's elements); `destroy_all` then destroys
exactly those `k` elements from index `k-1` down to `0`; `copy_all` throws; its whole
trace is these `k` constructions followed by these `k` destructions, so every constructed
element is destroyed exactly once; the destination is raw storage again; all other blocks,
the source among them, are what they were. -/
theorem C16_copy_all_rollback (m : Mem T) (a : Nat) (src : Ptr) (xs : List T) (cap k : Nat)
    (rest : List Bool) (hne : src.block ≠ a) (hcap : xs.length ≤ cap) (hk : k < xs.length)
    (hsrc : ∀ j (h : j < xs.length), m.slot (src.add j) = some (some xs[j]))
    (hb : m.block a = some (cells [] cap))
    (hf : m.faults = List.replicate k false ++ true :: rest) :
    ∃ m1 m2,
      vector.copy_loop ⟨a, 0⟩ src xs.length 0 m = (.thrown, k, m1) ∧
      m1.block a = some (cells (xs.take k) (cap - k)) ∧
      m1.trace = m.trace ++
        (List.range k).map (fun j => Event.construct ((Ptr.mk a 0).add (j : Nat))) ∧
      vector.destroy_all ⟨a, 0⟩ k m1 = (.ok, m2) ∧
      vector.copy_all ⟨a, 0⟩ src xs.length m = (.thrown, m2) ∧
      m2.trace = m.trace ++
        (List.range k).map (fun j => Event.construct ((Ptr.mk a 0).add (j : Nat))) ++
        (List.range k).reverse.map (fun j => Event.destroy ((Ptr.mk a 0).add (j : Nat))) ∧
      m2.block a = some (cells [] cap) ∧
      (∀ b, b ≠ a → m2.block b = m.block b) ∧
      (∀ j (h : j < xs.length), m2.slot (src.add j) = some (some xs[j])) ∧
      m2.faults = rest := by
  obtain ⟨m1, hl, hb1, hoth1, htr1, hf1⟩ := copy_loop_fail a src xs cap rest hne hcap k
    xs.length 0 m (by simp) hk hsrc (by simpa using hb) hf
  simp only [Nat.zero_add] at hl hb1 htr1
  have hkl : (xs.take k).length = k := by simp; omega
  obtain ⟨m2, hd, hu2⟩ := destroy_all_spec a (xs.take k) (cap - k) m1 hb1
  rw [hkl] at hd hu2
  obtain ⟨htr2, hf2⟩ := destroy_all_trace ⟨a, 0⟩ k m1 m2 hd
  have hoth2 : ∀ b, b ≠ a → m2.block b = m.block b := by
    intro b hb0
    rw [hu2.block_other hb0, hoth1 b hb0]
  refine ⟨m1, m2, hl, hb1, htr1, hd, ?_, by rw [htr2, htr1], ?_, hoth2, fun j h => ?_, by
    rw [hf2, hf1]⟩
  · rw [vector.copy_all, hl]
    simp only
    rw [hd]
  · rw [hu2.block_self, show k + (cap - k) = cap by omega]
  · rw [Mem.slot_congr (src.add j) (hoth2 _ (by simpa using hne))]
    exact hsrc j h

/-- C16 at a source `[1, 2, 3]`, a destination of 3 raw slots and `k = 2`. -/
theorem C16_copy_all_rollback_witness :
    ∃ m1 m2,
      vector.copy_loop ⟨2, 0⟩ ⟨1, 0⟩ 3 0
        (⟨[some [some 1, some 2, some 3], some [none, none, none]],
          [false, false, true], []⟩ : Mem Nat) = (.thrown, 2, m1) ∧
      vector.destroy_all ⟨2, 0⟩ 2 m1 = (.ok, m2) ∧
      vector.copy_all ⟨2, 0⟩ ⟨1, 0⟩ 3
        (⟨[some [some 1, some 2, some 3], some [none, none, none]],
          [false, false, true], []⟩ : Mem Nat) = (.thrown, m2) ∧
      m2.trace = [Event.construct ⟨2, 0⟩, Event.construct ⟨2, 1⟩,
        Event.destroy ⟨2, 1⟩, Event.destroy ⟨2, 0⟩] ∧
      m2.block 2 = some [none, none, none] ∧
      m2.block 1 = some [some 1, some 2, some 3] := by
  obtain ⟨m1, m2, hl, _, _, hd, hc, htr, hb, hoth, _, _⟩ := C16_copy_all_rollback
    (⟨[some [some 1, some 2, some 3], some [none, none, none]], [false, false, true], []⟩ :
      Mem Nat) 2 ⟨1, 0⟩ [1, 2, 3] 3 2 [] (by decide) (by decide) (by decide)
    (by
      intro j h
      have hj : j = 0 ∨ j = 1 ∨ j = 2 := by
        simp only [List.length_cons, List.length_nil] at h; omega
      rcases hj with rfl | rfl | rfl <;> rfl)
    (by decide) (by decide)
  refine ⟨m1, m2, hl, hd, hc, ?_, ?_, ?_⟩
  · rw [htr]; decide
  · rw [hb]; decide
  · rw [hoth 1 (by decide)]; decide

/-- C17: for a vector holding `xs`, `clear()` ends normally, sets size to 0 (`empty()` is
true afterwards), leaves capacity and the storage pointer exactly as they were, and the
vector holds no element afterwards. -/
theorem C17_clear (m : Mem T) (v : vector) (xs : List T) (h : Holds m v xs) :
    ∃ v1 m1, v.clear m = (.ok, v1, m1) ∧ v1.size = 0 ∧ v1.empty = true ∧
      v1.capacity = v.capacity ∧ v1.data = v.data ∧ Holds m1 v1 ([] : List T) := by
  obtain ⟨m1, hc, hv1, _⟩ := clear_spec h
  exact ⟨_, m1, hc, rfl, rfl, rfl, rfl, hv1⟩

/-- C17 at the vector `[1, 2, 3]` with capacity 4. -/
theorem C17_clear_witness :
    ∃ v1 m1, (⟨⟨1, 0⟩, 3, 4⟩ : vector).clear
        (⟨[some [some 1, some 2, some 3, none]], [], []⟩ : Mem Nat) = (.ok, v1, m1) ∧
      v1.size = 0 ∧ v1.empty = true ∧ v1.capacity = (⟨⟨1, 0⟩, 3, 4⟩ : vector).capacity ∧
      v1.data = (⟨⟨1, 0⟩, 3, 4⟩ : vector).data ∧ Holds m1 v1 ([] : List Nat) :=
  C17_clear _ _ [1, 2, 3] (by unfold Holds; decide)

/-- C18: `a.swap(b)` gives `a` the members of `b` and `b` those of `a`; it takes and
returns no memory, so no element is copied, constructed or destroyed, and it has no
failing outcome.  Hence, for `a` holding `xs` and `b` holding `ys` in a memory `m`,
afterwards `a` holds `ys` and `b` holds `xs` in the same `m`, with sizes and capacities
exchanged, the same elements read by `operator[]`, and a second swap gives back the
original pair. -/
theorem C18_swap (m : Mem T) (a b : vector) (xs ys : List T) (ha : Holds m a xs)
    (hb : Holds m b ys) :
    (a.swap b).1 = b ∧ (a.swap b).2 = a ∧
    (a.swap b).1.size = b.size ∧ (a.swap b).1.capacity = b.capacity ∧
    (a.swap b).2.size = a.size ∧ (a.swap b).2.capacity = a.capacity ∧
    Holds m (a.swap b).1 ys ∧ Holds m (a.swap b).2 xs ∧
    (∀ i, (a.swap b).1.index i m = b.index i m) ∧
    (∀ i, (a.swap b).2.index i m = a.index i m) ∧
    (a.swap b).1.swap (a.swap b).2 = (a, b) := by
  have h1 : (a.swap b).1 = b := rfl
  have h2 : (a.swap b).2 = a := rfl
  refine ⟨h1, h2, rfl, rfl, rfl, rfl, ?_, ?_, fun i => by rw [h1], fun i => by rw [h2], ?_⟩
  · rw [h1]; exact hb
  · rw [h2]; exact ha
  · rw [h1, h2]; rfl

/-- C18 at the vectors `[1, 2]` (capacity 2) and `[7]` (capacity 4) in one memory. -/
theorem C18_swap_witness :
    ((⟨⟨1, 0⟩, 2, 2⟩ : vector).swap ⟨⟨2, 0⟩, 1, 4⟩).1 = ⟨⟨2, 0⟩, 1, 4⟩ ∧
    ((⟨⟨1, 0⟩, 2, 2⟩ : vector).swap ⟨⟨2, 0⟩, 1, 4⟩).2 = ⟨⟨1, 0⟩, 2, 2⟩ ∧
    Holds (⟨[some [some 1, some 2], some [some 7, none, none, none]], [], []⟩ : Mem Nat)
      ((⟨⟨1, 0⟩, 2, 2⟩ : vector).swap ⟨⟨2, 0⟩, 1, 4⟩).1 [7] ∧
    Holds (⟨[some [some 1, some 2], some [some 7, none, none, none]], [], []⟩ : Mem Nat)
      ((⟨⟨1, 0⟩, 2, 2⟩ : vector).swap ⟨⟨2, 0⟩, 1, 4⟩).2 [1, 2] ∧
    ((⟨⟨1, 0⟩, 2, 2⟩ : vector).swap ⟨⟨2, 0⟩, 1, 4⟩).1.swap
      ((⟨⟨1, 0⟩, 2, 2⟩ : vector).swap ⟨⟨2, 0⟩, 1, 4⟩).2 = (⟨⟨1, 0⟩, 2, 2⟩, ⟨⟨2, 0⟩, 1, 4⟩) := by
  obtain ⟨h1, h2, _, _, _, _, h3, h4, _, _, h5⟩ := C18_swap
    (⟨[some [some 1, some 2], some [some 7, none, none, none]], [], []⟩ : Mem Nat)
    ⟨⟨1, 0⟩, 2, 2⟩ ⟨⟨2, 0⟩, 1, 4⟩ [1, 2] [7] (by unfold Holds; decide) (by unfold Holds; decide)
  exact ⟨h1, h2, h3, h4, h5⟩

/-- C19: for a vector holding `xs` and an index `i < size()`, both assertions of
`operator[]` hold (the vector is not empty and `i < size_`), and `operator[](i)` ends
normally with the `i`-th element of `xs`; for a non-empty vector the assertion of
`front()` and `back()` holds, `front()` yields the element at index 0 and `back()` the
element at index `size() - 1`. -/
theorem C19_element_access (m : Mem T) (v : vector) (xs : List T) (h : Holds m v xs) :
    (∀ i, i < v.size → v.empty = false ∧ i < v.size_ ∧
      ∃ x, xs[i]? = some x ∧ v.index i m = (.ok, some x)) ∧
    (v.empty = false →
      (∃ x, xs[0]? = some x ∧ v.front m = (.ok, some x)) ∧ v.front m = v.index 0 m ∧
      (∃ y, xs[v.size - 1]? = some y ∧ v.back m = (.ok, some y)) ∧
      v.back m = v.index (v.size - 1) m) := by
  have hsz : v.size_ = xs.length := h.1
  have hget : ∀ i, i < v.size → ∃ x, xs[i]? = some x := by
    intro i hi
    have hi2 : i < xs.length := by rw [← hsz]; exact hi
    exact ⟨xs[i], List.getElem?_eq_getElem hi2⟩
  constructor
  · intro i hi
    have hi2 : i < v.size_ := hi
    obtain ⟨x, hx⟩ := hget i hi
    refine ⟨by simp [vector.empty]; omega, hi, x, hx, ?_⟩
    rw [h.index i hi, hx]
  · intro he
    have hpos : 0 < v.size := by
      simp only [vector.empty, beq_eq_false_iff_ne, ne_eq] at he
      show 0 < v.size_
      omega
    have hlast : v.size - 1 < v.size := by omega
    obtain ⟨x, hx⟩ := hget 0 hpos
    obtain ⟨y, hy⟩ := hget (v.size - 1) hlast
    refine ⟨⟨x, hx, by rw [h.front he, hx]⟩, by rw [h.front he, h.index 0 hpos],
      ⟨y, hy, by rw [h.back he, hy]⟩, by rw [h.back he, h.index _ hlast]⟩

/-- C19 at the vector `[1, 2, 3]` with capacity 4. -/
theorem C19_element_access_witness :
    (⟨⟨1, 0⟩, 3, 4⟩ : vector).index 1 (⟨[some [some 1, some 2, some 3, none]], [], []⟩ : Mem Nat)
      = (.ok, some 2) ∧
    (⟨⟨1, 0⟩, 3, 4⟩ : vector).front (⟨[some [some 1, some 2, some 3, none]], [], []⟩ : Mem Nat)
      = (.ok, some 1) ∧
    (⟨⟨1, 0⟩, 3, 4⟩ : vector).back (⟨[some [some 1, some 2, some 3, none]], [], []⟩ : Mem Nat)
      = (.ok, some 3) := by
  obtain ⟨hidx, hfb⟩ := C19_element_access
    (⟨[some [some 1, some 2, some 3, none]], [], []⟩ : Mem Nat) ⟨⟨1, 0⟩, 3, 4⟩ [1, 2, 3]
    (by unfold Holds; decide)
  obtain ⟨_, _, x, hx, hi⟩ := hidx 1 (by decide)
  obtain ⟨⟨f, hf, hfr⟩, _, ⟨b, hb, hbk⟩, _⟩ := hfb (by decide)
  simp only [List.getElem?_cons_succ, List.getElem?_cons_zero, Option.some.injEq] at hx hf
  have hb2 : b = 3 := by
    have : ([1, 2, 3] : List Nat)[(⟨⟨1, 0⟩, 3, 4⟩ : vector).size - 1]? = some 3 := by decide
    rw [this] at hb
    exact (Option.some.inj hb).symm
  subst hx; subst hf; subst hb2
  exact ⟨hi, hfr, hbk⟩

end MyVector
